import Mathlib

/-!
# Linux kernel-AIO engine of libuv (src/unix/aio.c)

A shallow embedding of the submission / completion engine in `src/src/unix/aio.c`.

Modelling conventions.

* Request objects (`uv_fs_t`) live in a memory indexed by their address (`Nat`); the
  completion cookie `aio_data` of a control block is that address.
* `unsigned int` counters are natural numbers reduced modulo `2 ^ 32` at every
  arithmetic operation; `off_t` offsets are integers wrapped to 64 bit two's complement.
  `req->result += events[i].res` is a signed addition whose overflow is undefined
  behaviour in C; it is modelled on the integers.
* The kernel is an oracle: every function that makes system calls receives the list of
  answers the kernel will give, one per call, in call order.  A function that needs an
  answer when the list is used up stops with `Outcome.starved`, carrying the state at the
  top of the loop iteration that wanted the answer.
* `assert` follows the C standard: it aborts the process unless the translation unit is
  compiled with `NDEBUG`, which is the Boolean parameter `ndebug`.
* Everything observable is appended to a trace: each `io_submit` call with its batch and
  answer, each `io_getevents` call with its answer, each completion event the dispatcher
  picks up, and each invocation of a done closure.
* Memory allocation is assumed to succeed (on Linux `calloc(0, n)` is not null either).
* A done closure is code of the caller; its invocation is recorded in the trace and has
  no effect on the state of the engine.
* The state an aborted outcome carries is the state at the last step the model records
  before the abort.
* `uv__aio_init` and `uv__aio_start` receive the answers of `eventfd` and `io_setup` and
  the effect of `perror` on `errno` as arguments and return the value of the function
  together with the engine.
* For the statements about file contents, a file is a map from positions to bytes and the
  contents of a buffer is a list of bytes; `pwrite` and `pread` transfer whole buffers.
  For the statement about the size of a file, a file is the array of its bytes.
* `uv__aio_io` receives the answers of its `read` calls and records the number of calls and
  the invocations of the completion callback, which is code of the loop.
* The entry point in front of the engine and the watcher primitives of the loop core are
  not among the sources; they are modelled from the specification and marked so.
-/

namespace Aio

/-! ## Constants -/

/-- `UV_AIO_NR_EVENTS`, aio.c line 22. -/
def UV_AIO_NR_EVENTS : Nat := 128

/-- Linux value of `EAGAIN`. -/
def EAGAIN : Int := 11

/-- Linux value of `EINVAL`, used in examples. -/
def EINVAL : Int := 22

/-- Range of `unsigned int`. -/
def U32 : Nat := 2 ^ 32

/-- `IOCB_CMD_PREAD` of linux/aio_abi.h. -/
def IOCB_CMD_PREAD : Nat := 0

/-- `IOCB_CMD_PWRITE` of linux/aio_abi.h. -/
def IOCB_CMD_PWRITE : Nat := 1

/-- `IOCB_FLAG_RESFD` of linux/aio_abi.h. -/
def IOCB_FLAG_RESFD : Nat := 1

/-- Unsigned 32 bit subtraction `a - b`. -/
def u32_sub (a b : Nat) : Nat := (a + U32 - b % U32) % U32

/-- Conversion of an integer to `off_t` (64 bit two's complement). -/
def to_s64 (x : Int) : Int := (x + 2 ^ 63) % 2 ^ 64 - 2 ^ 63

/-- Conversion of an `int` to `__u32`, the type of the fields `aio_fildes` and `aio_resfd`
of `struct iocb`: the value modulo `2 ^ 32`, so `-1` becomes `4294967295`. -/
def to_u32 (x : Int) : Nat := (x % 2 ^ 32).toNat

/-- Modelled from the spec: the `MIN` macro (its header is not among the sources);
`batch = min(remaining, N)`. -/
def MIN (a b : Nat) : Nat := if a < b then a else b

/-! ## Data model -/

/-- The operation types the fragmenter distinguishes; every other `uv_fs_type` is
`UV_FS_OTHER`. -/
inductive uv_fs_type where
  | UV_FS_READ
  | UV_FS_WRITE
  | UV_FS_OTHER
  deriving DecidableEq, Repr

/-- One buffer: `base` address and `len`. -/
structure uv_buf_t where
  base : Nat
  len : Nat
  deriving DecidableEq, Repr

/-- Kernel control block, `struct iocb`; the fields the engine writes (the others stay
zero after `calloc`).  All but the signed `aio_offset` are unsigned; `aio_fildes` and
`aio_resfd` are `__u32`. -/
structure iocb where
  aio_data : Nat
  aio_lio_opcode : Nat
  aio_fildes : Nat
  aio_buf : Nat
  aio_nbytes : Nat
  aio_offset : Int
  aio_flags : Nat
  aio_resfd : Nat
  deriving DecidableEq, Repr

/-- Address of a control block: `req->iocbs + idx` of the request at address `req`. -/
structure iocb_ptr where
  req : Nat
  idx : Nat
  deriving DecidableEq, Repr

/-- Completion event, `struct io_event`: `data` is the cookie, `res` the result. -/
structure io_event where
  data : Nat
  res : Int
  deriving DecidableEq, Repr

/-- The fields of `uv_fs_t` that the engine reads or writes.  `nbufs` is the length of
`bufs`; `iocbs = none` is the null pointer; `work_req_done = none` is a null closure. -/
structure uv_fs_t where
  fs_type : uv_fs_type
  file : Int
  bufs : List uv_buf_t
  off : Int
  result : Int
  iocbs : Option (List iocb)
  iocbs_count : Nat
  submitted_iocbs_count : Nat
  done_iocbs_count : Nat
  work_req_loop : Option Nat
  work_req_done : Option Nat

/-- The value of `req->nbufs`. -/
def uv_fs_t.nbufs (r : uv_fs_t) : Nat := r.bufs.length

/-- The engine, `uv__aio_t`.  Of the watcher `aio_io_watcher` it keeps the descriptor and
the events it is registered for with the loop (`pevents`, 0 when it is not registered);
its handler is always `uv__aio_io`. -/
structure uv__aio_t where
  loop : Option Nat
  aio_io_watcher_fd : Int
  aio_wfd : Int
  aio_ctx : Nat
  aio_cb : Option Nat
  iocb_pending_queue : List Nat
  aio_io_watcher_pevents : Nat := 0

/-- Answer of one `io_submit` call: the return value and the `errno` it leaves. -/
structure submit_ret where
  r : Int
  errno : Int
  deriving DecidableEq, Repr

/-- Answer of one `io_getevents` call: the events written to the buffer (the return value
is their number), or a failure (return value `-1`) with its `errno`. -/
inductive getevents_ret where
  | events (evs : List io_event)
  | fail (errno : Int)
  deriving DecidableEq, Repr

/-- The return value `r` of an `io_getevents` call. -/
def getevents_ret.r : getevents_ret → Int
  | .events evs => (evs.length : Int)
  | .fail _ => -1

/-- The events the `for (i = 0; i < r; i++)` loop visits. -/
def getevents_ret.evs : getevents_ret → List io_event
  | .events evs => evs
  | .fail _ => []

/-- Observable actions, in program order. -/
inductive Action where
  | io_submit (n : Nat) (iocbs : List (Option iocb_ptr)) (ret : submit_ret)
  | io_getevents (min max : Nat) (r : Int)
  | event (e : io_event)
  | done_call (req : Nat) (f : Nat) (status : Int)
  deriving DecidableEq, Repr

/-- The machine state: the engine `loop->wq_aio`, the request memory and the trace. -/
structure Machine where
  wq_aio : uv__aio_t
  reqs : Nat → uv_fs_t
  trace : List Action

/-- Store `r` at address `c`. -/
def Machine.set_req (s : Machine) (c : Nat) (r : uv_fs_t) : Machine :=
  { s with reqs := fun x => if x = c then r else s.reqs x }

/-- Append an action to the trace. -/
def Machine.log (s : Machine) (a : Action) : Machine :=
  { s with trace := s.trace ++ [a] }

/-- The pending queue of the engine. -/
def Machine.queue (s : Machine) : List Nat := s.wq_aio.iocb_pending_queue

/-- Modelled from the spec: the `QUEUE_INSERT_TAIL` macro of queue.h, which is not among
the sources; the pending queue is a FIFO and insertion appends at the tail.  The list is
the queue of an intrusive link as long as no request is inserted while it is linked. -/
def QUEUE_INSERT_TAIL (h : List Nat) (q : Nat) : List Nat := h ++ [q]

/-- Modelled from the spec: the `QUEUE_REMOVE` macro of queue.h, which is not among the
sources; it unlinks the node `q` from the queue. -/
def QUEUE_REMOVE (h : List Nat) (q : Nat) : List Nat := h.erase q

/-- Replace the pending queue. -/
def Machine.set_queue (s : Machine) (l : List Nat) : Machine :=
  { s with wq_aio := { s.wq_aio with iocb_pending_queue := l } }

/-- How a function of the engine ends: it returns to its caller, the process is aborted
(a failed `assert`, `UNREACHABLE()`), or the kernel script is used up. -/
inductive Outcome where
  | returned (s : Machine)
  | aborted (s : Machine)
  | starved (s : Machine)

/-- The machine state an outcome carries. -/
def Outcome.state : Outcome → Machine
  | .returned s => s
  | .aborted s => s
  | .starved s => s

/-- Whether the function returned to its caller. -/
def Outcome.isReturned : Outcome → Bool
  | .returned _ => true
  | _ => false

/-- Whether the process was aborted. -/
def Outcome.isAborted : Outcome → Bool
  | .aborted _ => true
  | _ => false

/-! ## uv__aio_drain_pending_queue (aio.c lines 68-101) -/

/-- The pointer array built in lines 79-84: entry `i` is `req->iocbs + i + submitted`
while `i + submitted < iocbs_count` (an `unsigned int` comparison); the loop stops at the
first `i` that fails the test and the remaining entries keep the null of `calloc`. -/
def batch_ptrs (q : Nat) (req : uv_fs_t) (pending_count : Nat) : List (Option iocb_ptr) :=
  let filled := (List.range pending_count).takeWhile
    (fun i => decide ((i + req.submitted_iocbs_count) % U32 < req.iocbs_count))
  filled.map (fun i => some ⟨q, i + req.submitted_iocbs_count⟩)
    ++ List.replicate (pending_count - filled.length) none

/-- The value of `pending_count`, lines 77-78. -/
def pending_count_of (req : uv_fs_t) : Nat :=
  MIN (u32_sub req.iocbs_count req.submitted_iocbs_count) UV_AIO_NR_EVENTS

/-- The drain loop.  Each iteration takes the head `q` of the pending queue, submits its
next batch, and inspects the answer `k`: `EAGAIN` breaks; another failure runs into
`assert(errno); assert(r >= 0)` and then `break`; otherwise `submitted_iocbs_count`
advances by `r` and the request leaves the queue once it reaches `iocbs_count`. -/
def uv__aio_drain_pending_queue (ndebug : Bool) : List submit_ret → Machine → Outcome
  | [], s =>
    match s.queue with
    | [] => .returned s
    | _ :: _ => .starved s
  | k :: ks, s =>
    match s.queue with
    | [] => .returned s
    | q :: _ =>
      let req := s.reqs q
      let pending_count := pending_count_of req
      let s1 := s.log (.io_submit pending_count (batch_ptrs q req pending_count) k)
      if k.r < 0 ∧ k.errno = EAGAIN then .returned s1
      else if k.r < 0 then
        (if ndebug then .returned s1 else .aborted s1)
      else
        let req1 := { req with
          submitted_iocbs_count := (req.submitted_iocbs_count + k.r.toNat) % U32 }
        let s2 := s1.set_req q req1
        let s3 := if req1.submitted_iocbs_count ≥ req1.iocbs_count
          then s2.set_queue (QUEUE_REMOVE s2.queue q) else s2
        uv__aio_drain_pending_queue ndebug ks s3

/-! ## uv__aio_submit (aio.c lines 103-150) -/

/-- The opcode chosen by the `switch` of lines 119-131; `none` is the `default` branch. -/
def opcode_of : uv_fs_type → Option Nat
  | .UV_FS_READ => some IOCB_CMD_PREAD
  | .UV_FS_WRITE => some IOCB_CMD_PWRITE
  | .UV_FS_OTHER => none

/-- The fragmenting loop of lines 118-141 over the buffers that are left, with the running
`offset`; `none` when the `default` branch of the `switch` is reached.  The addition
`offset += req->bufs[i].len` is carried out in 64 bit and converted back to `off_t`.  The
assignments of `req->file` and of the watcher descriptor, both `int`, to the `__u32` fields
`aio_fildes` and `aio_resfd` convert. -/
def fill_iocbs (c : Nat) (ty : uv_fs_type) (file resfd : Int) :
    List uv_buf_t → Int → Option (List iocb)
  | [], _ => some []
  | b :: bs, offset =>
    match opcode_of ty with
    | none => none
    | some op =>
      match fill_iocbs c ty file resfd bs (to_s64 (offset + b.len)) with
      | none => none
      | some rest =>
        some ({ aio_data := c, aio_lio_opcode := op, aio_fildes := to_u32 file,
                aio_buf := b.base, aio_nbytes := b.len, aio_offset := offset,
                aio_flags := IOCB_FLAG_RESFD, aio_resfd := to_u32 resfd } :: rest)

/-- The initial value of `offset`, lines 116-117. -/
def start_offset (off : Int) : Int := if off < 0 then 0 else off

/-- Modelled from the spec: `UNREACHABLE()` (uv-common.h is not among the sources), the
programming-error assertion of the fragmenter; it stops the process. -/
def UNREACHABLE (s : Machine) : Outcome := .aborted s

/-- The body of `uv__aio_submit` up to line 148: store loop and closure, fragment the
request when `iocbs` is null, append it to the pending queue. -/
def aio_submit_enqueue (loop c : Nat) (done : Option Nat) (s : Machine) : Outcome :=
  let req1 := { s.reqs c with work_req_loop := some loop, work_req_done := done }
  match req1.iocbs with
  | none =>
    match fill_iocbs c req1.fs_type req1.file s.wq_aio.aio_io_watcher_fd req1.bufs
        (start_offset req1.off) with
    | none => UNREACHABLE (s.set_req c req1)
    | some blks =>
      let req2 := { req1 with iocbs := some blks, iocbs_count := req1.nbufs,
                              submitted_iocbs_count := 0 }
      let s1 := s.set_req c req2
      .returned (s1.set_queue (QUEUE_INSERT_TAIL s1.queue c))
  | some _ =>
    let s1 := s.set_req c req1
    .returned (s1.set_queue (QUEUE_INSERT_TAIL s1.queue c))

/-- The function `uv__aio_submit(loop, req, done)` for the request at address `c`. -/
def uv__aio_submit (ndebug : Bool) (ks : List submit_ret) (loop c : Nat) (done : Option Nat)
    (s : Machine) : Outcome :=
  match aio_submit_enqueue loop c done s with
  | .returned s1 => uv__aio_drain_pending_queue ndebug ks s1
  | o => o

/-! ## uv__aio_work_done (aio.c lines 152-184) -/

/-- The aggregation of lines 164-168. -/
def aggregate (result res : Int) : Int :=
  if res ≥ 0 ∧ result ≥ 0 then result + res else res

/-- One iteration of the `for` loop, lines 162-177, for the event `e`. -/
def process_event (s : Machine) (e : io_event) : Machine :=
  let s0 := s.log (.event e)
  let req := s0.reqs e.data
  let req1 := { req with
    result := aggregate req.result e.res
    done_iocbs_count := (req.done_iocbs_count + 1) % U32 }
  let s1 := s0.set_req e.data req1
  if req1.done_iocbs_count < req1.iocbs_count then s1
  else
    match req1.work_req_done with
    | some f => s1.log (.done_call e.data f 0)
    | none => s1

/-- The `for` loop over one batch of events. -/
def process_events (s : Machine) (evs : List io_event) : Machine :=
  evs.foldl process_event s

/-- The `do ... while (r > 0)` loop of lines 158-179. -/
def getevents_loop : List getevents_ret → Machine → Outcome
  | [], s => .starved s
  | g :: gs, s =>
    let s1 := s.log (.io_getevents 0 UV_AIO_NR_EVENTS g.r)
    let s2 := process_events s1 g.evs
    if g.r > 0 then getevents_loop gs s2 else .returned s2

/-- The function `uv__aio_work_done(w)`: the get-events loop, then the drain. -/
def uv__aio_work_done (ndebug : Bool) (gs : List getevents_ret) (ks : List submit_ret)
    (s : Machine) : Outcome :=
  match getevents_loop gs s with
  | .returned s1 => uv__aio_drain_pending_queue ndebug ks s1
  | o => o

/-! ## Sequences of engine operations -/

/-- One call of an engine function together with the answers the kernel gives during it. -/
inductive Op where
  | submit (ks : List submit_ret) (loop c : Nat) (done : Option Nat)
  | drain (ks : List submit_ret)
  | work_done (gs : List getevents_ret) (ks : List submit_ret)

/-- Run one operation. -/
def step (ndebug : Bool) : Op → Machine → Outcome
  | .submit ks loop c done, s => uv__aio_submit ndebug ks loop c done s
  | .drain ks, s => uv__aio_drain_pending_queue ndebug ks s
  | .work_done gs ks, s => uv__aio_work_done ndebug gs ks s

/-- Run operations one after the other; the run stops at the first operation that does
not return. -/
def run (ndebug : Bool) : List Op → Machine → Outcome
  | [], s => .returned s
  | op :: ops, s =>
    match step ndebug op s with
    | .returned s1 => run ndebug ops s1
    | o => o

/-- The requests that a list of operations submits, in order. -/
def submitted_reqs : List Op → List Nat
  | [] => []
  | .submit _ _ c _ :: ops => c :: submitted_reqs ops
  | _ :: ops => submitted_reqs ops

/-! ## Reading the trace -/

/-- The completion events for request `c` that the dispatcher picked up, in order. -/
def events_of (c : Nat) : List Action → List io_event
  | [] => []
  | .event e :: t => if e.data = c then e :: events_of c t else events_of c t
  | _ :: t => events_of c t

/-- The number of invocations of the done closure of request `c`. -/
def done_calls (c : Nat) : List Action → Nat
  | [] => 0
  | .done_call r _ _ :: t => if r = c then done_calls c t + 1 else done_calls c t
  | _ :: t => done_calls c t

/-- The number of control blocks of request `c` among a list of pointers. -/
def count_ptrs (c : Nat) (b : List (Option iocb_ptr)) : Nat :=
  b.countP (fun p => match p with
    | some p => decide (p.req = c)
    | none => false)

/-- The number of control blocks of request `c` the kernel has accepted: for every
successful `io_submit` call with return value `r`, the first `r` entries of its batch. -/
def accepted (c : Nat) : List Action → Nat
  | [] => 0
  | .io_submit _ b k :: t =>
    (if 0 ≤ k.r then count_ptrs c (b.take k.r.toNat) else 0) + accepted c t
  | _ :: t => accepted c t

/-- The number of completion events of request `c` the kernel has delivered. -/
def delivered (c : Nat) (t : List Action) : Nat := (events_of c t).length

/-- Every successful `io_submit` call returns at most the batch size it was passed. -/
def SubmitOK (t : List Action) : Prop :=
  ∀ n b k, Action.io_submit n b k ∈ t → 0 ≤ k.r → k.r ≤ (n : Int)

/-- The kernel delivers at most one completion event per accepted control block: at every
moment, the events delivered for a request are at most the blocks accepted for it. -/
def CompletionsOK (t : List Action) : Prop :=
  ∀ p, p <+: t → ∀ c, delivered c p ≤ accepted c p

/-! ## Example states -/

/-- A request as the file-system layer hands it over: not fragmented, counters zero. -/
def fresh_req (ty : uv_fs_type) (file : Int) (bufs : List uv_buf_t) (off : Int) : uv_fs_t :=
  { fs_type := ty, file := file, bufs := bufs, off := off, result := 0, iocbs := none,
    iocbs_count := 0, submitted_iocbs_count := 0, done_iocbs_count := 0,
    work_req_loop := none, work_req_done := none }

/-- An engine after initialisation: eventfd 7, context 1, empty pending queue. -/
def engine0 : uv__aio_t :=
  { loop := some 1, aio_io_watcher_fd := 7, aio_wfd := -1, aio_ctx := 1, aio_cb := some 1,
    iocb_pending_queue := [] }

/-- A machine whose requests are all the write request with buffers `bufs` at offset
`off` on file 3. -/
def machine0 (bufs : List uv_buf_t) (off : Int) : Machine :=
  { wq_aio := engine0, reqs := fun _ => fresh_req .UV_FS_WRITE 3 bufs off, trace := [] }

/-- A request with `n` control blocks of which `sub` are submitted and `dn` done, with
aggregated result `res` and done closure 9. -/
def inflight_req (n sub dn : Nat) (res : Int) : uv_fs_t :=
  { fs_type := .UV_FS_WRITE, file := 3, bufs := List.replicate n ⟨4096, 13⟩, off := 0,
    result := res, iocbs := some [], iocbs_count := n, submitted_iocbs_count := sub,
    done_iocbs_count := dn, work_req_loop := some 1, work_req_done := some 9 }

/-- A machine whose requests all equal `r`, with pending queue `q`. -/
def machine1 (r : uv_fs_t) (q : List Nat) : Machine :=
  { wq_aio := { engine0 with iocb_pending_queue := q }, reqs := fun _ => r, trace := [] }

/-! ## Auxiliary forms of the drain loop body -/

/-- One iteration of the drain loop that does not break: the state after the answer `k`
with `0 ≤ k.r` for head `q` (lines 77-99). -/
def drain_advance (s : Machine) (q : Nat) (k : submit_ret) : Machine :=
  let req := s.reqs q
  let s1 := s.log (.io_submit (pending_count_of req) (batch_ptrs q req (pending_count_of req)) k)
  let req1 := { req with
    submitted_iocbs_count := (req.submitted_iocbs_count + k.r.toNat) % U32 }
  let s2 := s1.set_req q req1
  if req1.submitted_iocbs_count ≥ req1.iocbs_count
    then s2.set_queue (QUEUE_REMOVE s2.queue q) else s2

/-- The state in which the drain loop stops after a failed call `k` for head `q`
(lines 77-94). -/
def drain_stop (s : Machine) (q : Nat) (k : submit_ret) : Machine :=
  s.log (.io_submit (pending_count_of (s.reqs q))
    (batch_ptrs q (s.reqs q) (pending_count_of (s.reqs q))) k)

/-! ## Closed forms used in statements -/

/-- The aggregation of lines 164-168 folded over a list of events, from `r0`. -/
def aggregate_all (r0 : Int) (evs : List io_event) : Int :=
  evs.foldl (fun r e => aggregate r e.res) r0

/-! ## The shape of a trace with respect to one request -/

/-- An action that is neither a completion event of request `c` nor an invocation of its
done closure. -/
def silent (c : Nat) : Action → Prop
  | .event e => e.data ≠ c
  | .done_call r _ _ => r ≠ c
  | _ => True

/-- `DoneTrace c n f d t`: in the trace `t`, read from a moment at which `d` completion
events of request `c` have been processed, the done closure `f` of `c` is invoked, with
status 0, directly after every event of `c` that brings the count to `n` or more, and at
no other place. -/
inductive DoneTrace (c n f : Nat) : Nat → List Action → Prop where
  | nil (d : Nat) : DoneTrace c n f d []
  | skip (d : Nat) (a : Action) (t : List Action) :
      silent c a → DoneTrace c n f d t → DoneTrace c n f d (a :: t)
  | quiet (d : Nat) (e : io_event) (t : List Action) :
      e.data = c → d + 1 < n → DoneTrace c n f (d + 1) t → DoneTrace c n f d (.event e :: t)
  | fire (d : Nat) (e : io_event) (t : List Action) :
      e.data = c → n ≤ d + 1 → DoneTrace c n f (d + 1) t →
      DoneTrace c n f d (.event e :: .done_call c f 0 :: t)

/-- The operation is not a submission of request `c`. -/
def not_submit (c : Nat) : Op → Prop
  | .submit _ _ c' _ => c' ≠ c
  | _ => True

/-! ## Initial states and the invariants of a run -/

/-- The state before any engine operation: the pending queue is empty (`QUEUE_INIT` in
`uv__aio_init`), nothing has been observed, and every request is not fragmented, with
`submitted_iocbs_count` and `done_iocbs_count` zero and at most `UINT_MAX` buffers.  The
requests are initialised by the file-system layer, which is not among the sources; this
is the assumption on it that the statements about whole runs make. -/
def Fresh (s : Machine) : Prop :=
  s.queue = [] ∧ s.trace = [] ∧
  ∀ c, (s.reqs c).iocbs = none ∧ (s.reqs c).submitted_iocbs_count = 0 ∧
    (s.reqs c).done_iocbs_count = 0 ∧ (s.reqs c).bufs.length < U32

/-- The bookkeeping a run maintains for every request: a request that is not fragmented is
not queued and has nothing accepted; `submitted_iocbs_count` is the number of control
blocks the kernel accepted and is at most `iocbs_count`; `done_iocbs_count` is at most the
number of events delivered. -/
def CountersInv (s : Machine) : Prop :=
  ∀ c, ((s.reqs c).iocbs = none → c ∉ s.queue ∧ (s.reqs c).submitted_iocbs_count = 0) ∧
    (s.reqs c).submitted_iocbs_count = accepted c s.trace ∧
    (s.reqs c).done_iocbs_count ≤ delivered c s.trace ∧
    (s.reqs c).submitted_iocbs_count ≤ (s.reqs c).iocbs_count ∧
    ((s.reqs c).iocbs ≠ none → (s.reqs c).iocbs_count < U32) ∧
    (s.reqs c).bufs.length < U32

/-! ## Executable checks of the kernel assumptions, for concrete traces -/

/-- The condition of `SubmitOK` on one action. -/
def submit_ok : Action → Bool
  | .io_submit n _ k => decide (0 ≤ k.r → k.r ≤ (n : Int))
  | _ => true

/-- The condition of `CompletionsOK` on one point of the trace `p`, for the requests that
have an event in `p`. -/
def completions_ok_at (p : List Action) : Bool :=
  p.all (fun a => match a with
    | .event e => decide (delivered e.data p ≤ accepted e.data p)
    | _ => true)

/-- The condition of `CompletionsOK` at every point of the trace. -/
def completions_check (t : List Action) : Bool := t.inits.all completions_ok_at

/-- The bookkeeping of the pending queue when every request is submitted at most once:
`B` gives the buffers of each request and `S` says which requests have been submitted.
The queue has no duplicates; a submitted request is fragmented, with
`submitted_iocbs_count ≤ iocbs_count`, and is queued exactly when the inequality is
strict; a request that has not been submitted is neither fragmented nor queued. -/
def QueueInv (B : Nat → List uv_buf_t) (S : Nat → Prop) (s : Machine) : Prop :=
  s.queue.Nodup ∧ (∀ c, (s.reqs c).bufs = B c) ∧
  (∀ c, S c → (s.reqs c).iocbs ≠ none ∧ (s.reqs c).iocbs_count < U32 ∧
    (s.reqs c).submitted_iocbs_count ≤ (s.reqs c).iocbs_count ∧
    (c ∈ s.queue ↔ (s.reqs c).submitted_iocbs_count < (s.reqs c).iocbs_count)) ∧
  (∀ c, ¬ S c → (s.reqs c).iocbs = none ∧ c ∉ s.queue)

/-! ## The control blocks the kernel accepted, in order -/

/-- The indexes of the control blocks of request `c` among a list of pointers, in order. -/
def blocks_of (c : Nat) (b : List (Option iocb_ptr)) : List Nat :=
  b.filterMap (fun p => match p with
    | some p => if p.req = c then some p.idx else none
    | none => none)

/-- The indexes of the control blocks of request `c` that the kernel accepted, in the
order of acceptance: for every successful `io_submit` call with return value `r`, the
first `r` entries of its batch. -/
def accepted_idx (c : Nat) : List Action → List Nat
  | [] => []
  | .io_submit _ b k :: t =>
    (if 0 ≤ k.r then blocks_of c (b.take k.r.toNat) else []) ++ accepted_idx c t
  | _ :: t => accepted_idx c t

/-! ## Submission order -/

/-- The trace respects the submission order `ord` of requests with buffers `B`: when a
submit-batch call carries a control block of a request, every request that comes before
it in `ord` has had all its control blocks accepted before the call. -/
def FifoTrace (B : Nat → List uv_buf_t) (ord : List Nat) (t : List Action) : Prop :=
  ∀ p n b k, p ++ [Action.io_submit n b k] <+: t → ∀ x, some x ∈ b →
    ∀ A l1 l2 l3, ord = l1 ++ A :: (l2 ++ x.req :: l3) → accepted A p = (B A).length

/-- The bookkeeping of the queue in submission order: `L` lists the requests submitted so
far, each once; the pending queue is the tail of `L` behind the requests `F` that have left
the queue, and those are completely submitted; a request is fragmented, with
`iocbs_count` the number of its buffers, exactly when it has been submitted. -/
def FifoInv (B : Nat → List uv_buf_t) (L : List Nat) (s : Machine) : Prop :=
  CountersInv s ∧ L.Nodup ∧
  (∃ F, L = F ++ s.queue ∧
    ∀ c ∈ F, (s.reqs c).iocbs_count ≤ (s.reqs c).submitted_iocbs_count) ∧
  (∀ c, (s.reqs c).bufs = B c) ∧
  (∀ c ∈ L, (s.reqs c).iocbs ≠ none ∧ (s.reqs c).iocbs_count = (B c).length) ∧
  (∀ c, c ∉ L → (s.reqs c).iocbs = none)

/-! ## uv__aio_init and uv__aio_start (aio.c lines 53-66, 217-241) -/

/-- Answer of a system call: the return value and the `errno` it leaves. -/
structure sys_ret where
  r : Int
  errno : Int
  deriving DecidableEq, Repr

/-- Linux value of `POLLIN`. -/
def POLLIN : Nat := 1

/-- Modelled from the spec: the `UV__ERR` macro (uv/errno.h is not among the sources); an
OS error number becomes the negative OS error code. -/
def UV__ERR (x : Int) : Int := -x

/-- Modelled from the spec: `uv__io_init` of the loop core (not among the sources), the
`init(watcher, callback, fd)` of the readable-poll watcher: it stores the descriptor and
registers for no event. -/
def uv__io_init (w : uv__aio_t) (fd : Int) : uv__aio_t :=
  { w with aio_io_watcher_fd := fd, aio_io_watcher_pevents := 0 }

/-- Modelled from the spec: `uv__io_start` of the loop core (not among the sources), the
`start(loop, watcher, POLLIN)` of the readable-poll watcher: it registers the events. -/
def uv__io_start (w : uv__aio_t) (events : Nat) : uv__aio_t :=
  { w with aio_io_watcher_pevents := w.aio_io_watcher_pevents ||| events }

/-- The function `uv__aio_start(w)`: `efd` is the answer of `eventfd`, `setup` the answer of
`io_setup`, which stores the context handle `ctx` when it succeeds.  After a failed call
the function calls `perror` before it returns; `perror` is a library call that can change
`errno`, and `perror e` is the value it leaves when it is entered with `errno = e`.  The
failure path of `eventfd` reads `errno` after `perror`; the failure path of `io_setup`
returns the local `err`, which `perror` does not touch.  Returns the value of the function
and the engine. -/
def uv__aio_start (w : uv__aio_t) (efd : sys_ret) (perror : Int → Int) (setup : sys_ret)
    (ctx : Nat) : Int × uv__aio_t :=
  if efd.r < 0 then (UV__ERR (perror efd.errno), w)
  else if setup.r < 0 then (setup.r, w)
  else
    let w1 := { w with aio_ctx := ctx }
    let w2 := uv__io_start (uv__io_init w1 efd.r) POLLIN
    (0, { w2 with aio_wfd := -1 })

/-- The function `uv__aio_init(loop, w, aio_cb)`. -/
def uv__aio_init (loop : Nat) (w : uv__aio_t) (aio_cb : Option Nat) (efd : sys_ret)
    (perror : Int → Int) (setup : sys_ret) (ctx : Nat) : Int × uv__aio_t :=
  let w0 := { w with
    loop := some loop
    aio_io_watcher_fd := -1
    aio_wfd := -1
    aio_ctx := 0
    aio_cb := aio_cb
    iocb_pending_queue := [] }
  let res := uv__aio_start w0 efd perror setup ctx
  if res.1 ≠ 0 then (res.1, res.2) else (0, res.2)

/-- Linux value of `EMFILE`, used in examples. -/
def EMFILE : Int := 24

/-! ## A file as an array of bytes -/

/-- Model of the kernel: the file after `pwrite` of the bytes `data` at offset `off`; a
file gives the byte at every position. -/
def pwrite (f : Int → Nat) (off : Int) (data : List Nat) : Int → Nat :=
  fun p => if off ≤ p ∧ p < off + data.length then data.getD (p - off).toNat 0 else f p

/-- Model of the kernel: the bytes that `pread` of `n` bytes at offset `off` returns. -/
def pread (f : Int → Nat) (off : Int) (n : Nat) : List Nat :=
  (List.range n).map (fun (j : Nat) => f (off + (j : Int)))

/-- The file after the write fragments `frs` have completed in the order of the list; a
fragment is a control block with the contents of its buffer, written in full at
`aio_offset`. -/
def apply_writes (f : Int → Nat) (frs : List (iocb × List Nat)) : Int → Nat :=
  frs.foldl (fun g fr => pwrite g fr.1.aio_offset fr.2) f

/-- The ranges of two write fragments do not overlap. -/
def disjoint_frs (p q : iocb × List Nat) : Prop :=
  p.1.aio_offset + p.2.length ≤ q.1.aio_offset ∨ q.1.aio_offset + q.2.length ≤ p.1.aio_offset

/-! ## A file as an array of bytes with a size -/

/-- Model of the kernel: the file, as the array of its bytes, after a `pwrite` of the bytes
`data` at offset `off` that succeeds in full.  A write of no bytes leaves the file as it
is; any other write first extends a file that ends before `off` with zero bytes. -/
def pwrite_bytes (f : List Nat) (off : Int) (data : List Nat) : List Nat :=
  if data = [] then f
  else (f ++ List.replicate (off.toNat - f.length) 0).take off.toNat ++ data
    ++ f.drop (off.toNat + data.length)

/-- The array of bytes of the file after the write fragments `frs` have completed in the
order of the list; a fragment is a control block with the contents of its buffer, written
in full at `aio_offset`. -/
def apply_writes_bytes (f : List Nat) (frs : List (iocb × List Nat)) : List Nat :=
  frs.foldl (fun g fr => pwrite_bytes g fr.1.aio_offset fr.2) f

/-! ## The entry point in front of the engine -/

/-- The libuv error code `UV_EINVAL`. -/
def UV_EINVAL : Int := UV__ERR EINVAL

/-- Modelled from the spec: the entry point `uv_fs_read` / `uv_fs_write` of fs.c, which is
not among the sources (its test is): `submit` called with a null buffer vector or a zero
count returns an invalid-argument error before any control block is allocated or the
pending queue is touched.  Otherwise the fields of the request at address `c` are
populated (operation type, file, the first `nbufs` buffers, offset), the request is handed
to `uv__aio_submit` with the closure `cb`, and 0 is returned.  `bufs = none` is the null
buffer vector. -/
def uv_fs_submit (ndebug : Bool) (ks : List submit_ret) (loop c : Nat) (ty : uv_fs_type)
    (file : Int) (bufs : Option (List uv_buf_t)) (nbufs : Nat) (off : Int) (cb : Option Nat)
    (s : Machine) : Int × Outcome :=
  match bufs with
  | none => (UV_EINVAL, .returned s)
  | some l =>
    if nbufs = 0 then (UV_EINVAL, .returned s)
    else (0, uv__aio_submit ndebug ks loop c cb
      (s.set_req c (fresh_req ty file (l.take nbufs) off)))

/-! ## uv__aio_stop and uv__aio_close (aio.c lines 243-250) -/

/-- Modelled from the spec: `uv__io_stop` of the loop core (not among the sources), the
`stop` of the readable-poll watcher: the watcher is no longer registered for `events`. -/
def uv__io_stop (w : uv__aio_t) (events : Nat) : uv__aio_t :=
  { w with aio_io_watcher_pevents :=
      w.aio_io_watcher_pevents ^^^ (w.aio_io_watcher_pevents &&& events) }

/-- Modelled from the spec: `uv__io_close` of the loop core (not among the sources), the
`close` of the readable-poll watcher, which releases the eventfd: the watcher is registered
for no event any more.  The descriptor is released in the descriptor table of the process,
which is no part of the engine; the field `fd` of the watcher keeps its value. -/
def uv__io_close (w : uv__aio_t) : uv__aio_t :=
  { w with aio_io_watcher_pevents := 0 }

/-- The function `uv__aio_stop(loop, w)`. -/
def uv__aio_stop (w : uv__aio_t) : uv__aio_t := uv__io_stop w POLLIN

/-- The function `uv__aio_close(w)`: stop the watcher, then close it.  `io_destroy` is not
called. -/
def uv__aio_close (w : uv__aio_t) : uv__aio_t := uv__io_close (uv__aio_stop w)

/-! ## uv__aio_io (aio.c lines 186-215) -/

/-- Linux value of `EINTR`. -/
def EINTR : Int := 4

/-- Linux value of `EWOULDBLOCK`, the same as `EAGAIN`. -/
def EWOULDBLOCK : Int := 11

/-- What `uv__aio_io` has done: the number of `read` calls, the value of `n` (the bytes
read, which is not used), and the invocations of the completion callback of the engine. -/
structure io_run where
  reads : Nat
  n : Int
  cb_calls : List Nat
  deriving DecidableEq, Repr

/-- How `uv__aio_io` ends: it returns, the process is aborted, or the script of `read`
answers is used up while the loop goes on. -/
inductive io_outcome where
  | returned (x : io_run)
  | aborted (x : io_run)
  | starved (x : io_run)
  deriving DecidableEq, Repr

/-- The `for (;;)` loop of lines 193-210 and the invocation of the callback, lines 212-214;
`reads` counts the calls made so far.  `sizeof(buf)` is 1024. -/
def aio_io_loop (aio_cb : Option Nat) : List sys_ret → Nat → Int → io_outcome
  | [], reads, n => .starved ⟨reads, n, []⟩
  | k :: ks, reads, n =>
    let n1 := if k.r > 0 then n + k.r else n
    if k.r = 1024 then aio_io_loop aio_cb ks (reads + 1) n1
    else if k.r ≠ -1 then
      .returned ⟨reads + 1, n1, match aio_cb with | some f => [f] | none => []⟩
    else if k.errno = EAGAIN ∨ k.errno = EWOULDBLOCK then
      .returned ⟨reads + 1, n1, match aio_cb with | some f => [f] | none => []⟩
    else if k.errno = EINTR then aio_io_loop aio_cb ks (reads + 1) n1
    else .aborted ⟨reads + 1, n1, []⟩

/-- The function `uv__aio_io(loop, w, events)`; `own` says whether `w` is the watcher of the
engine of `loop`, which line 191 asserts, and `rs` are the answers of the `read` calls. -/
def uv__aio_io (ndebug own : Bool) (engine : uv__aio_t) (rs : List sys_ret) : io_outcome :=
  if ndebug = false ∧ own = false then .aborted ⟨0, 0, []⟩
  else aio_io_loop engine.aio_cb rs 0 0

/-! ## The answer of io_submit, case by case (aio.c lines 88-94) -/

/-- Where control goes after the `io_submit` call of line 86: the `break` of line 89; the
failure of `assert(errno)` in line 91; the failure of `assert(r >= 0)` in line 92; the
`break` of line 93 after both assertions have been evaluated and hold; the `break` of line
93 when the assertions are compiled out; or on to line 96. -/
inductive submit_branch where
  | break_eagain
  | assert_errno_fails
  | assert_r_fails
  | break_after_asserts
  | break_error
  | advance
  deriving DecidableEq, Repr

/-- The branch of lines 88-94 for the answer `k`: the test for `EAGAIN`; for another
failure `assert(errno)`, then `assert(r >= 0)`, then `break` (the assertions are compiled
out with `NDEBUG`); otherwise the request advances. -/
def branch_of (ndebug : Bool) (k : submit_ret) : submit_branch :=
  if k.r < 0 ∧ k.errno = EAGAIN then .break_eagain
  else if k.r < 0 then
    if ndebug then .break_error
    else if k.errno = 0 then .assert_errno_fails
    else if k.r ≥ 0 then .break_after_asserts
    else .assert_r_fails
  else .advance

/-! ## The get-events loop in closed form -/

/-- One round of the get-events loop: the call with answer `g` and the `for` loop over its
events (lines 159-178). -/
def events_round (s : Machine) (g : getevents_ret) : Machine :=
  process_events (s.log (.io_getevents 0 UV_AIO_NR_EVENTS g.r)) g.evs

/-- The rounds of the get-events loop for the answers `gs`, one after the other. -/
def events_rounds (s : Machine) (gs : List getevents_ret) : Machine :=
  gs.foldl events_round s

/-- The `io_getevents` calls in a trace: `min`, `max` and the return value of each. -/
def getevents_calls : List Action → List (Nat × Nat × Int)
  | [] => []
  | .io_getevents mn mx r :: t => (mn, mx, r) :: getevents_calls t
  | _ :: t => getevents_calls t

/-- The completion events in a trace that the dispatcher picked up, in order. -/
def all_events : List Action → List io_event
  | [] => []
  | .event e :: t => e :: all_events t
  | _ :: t => all_events t

/-- The number of `io_submit` calls in a trace. -/
def submit_calls : List Action → Nat
  | [] => 0
  | .io_submit _ _ _ :: t => submit_calls t + 1
  | _ :: t => submit_calls t

/-- The value of an `unsigned int` counter after `n` increments. -/
def bump (d n : Nat) : Nat := if n = 0 then d else (d + n) % U32

/-! ## Termination of the drain -/

/-- Whether the kernel script was used up while the loop goes on. -/
def Outcome.isStarved : Outcome → Bool
  | .starved _ => true
  | _ => false

/-- The bound on the submit-batch calls of a drain: the control blocks of the queued
requests that are not submitted yet, and one call more for every queued request. -/
def drain_budget (s : Machine) : Nat :=
  (s.queue.map (fun q => (s.reqs q).iocbs_count - (s.reqs q).submitted_iocbs_count + 1)).sum

/-- The assumption on one submit-batch call of a kernel that makes progress: the call
fails, or it accepts nothing of an empty batch, or it accepts at least one and at most
all entries of a batch that is not empty. -/
def progress_ok : Action → Bool
  | .io_submit n _ k => decide (k.r < 0 ∨ (n = 0 ∧ k.r = 0) ∨ (0 < n ∧ 1 ≤ k.r ∧ k.r ≤ (n : Int)))
  | _ => true

/-- Every submit-batch call in the trace is one of a kernel that makes progress. -/
def KernelProgress (t : List Action) : Prop := ∀ a ∈ t, progress_ok a = true

/-- The counters of every queued request are consistent: `submitted_iocbs_count` is at
most `iocbs_count`, which is in the range of `unsigned int`. -/
def QueuedOK (s : Machine) : Prop :=
  ∀ q ∈ s.queue, (s.reqs q).submitted_iocbs_count ≤ (s.reqs q).iocbs_count ∧
    (s.reqs q).iocbs_count < U32

/-! ## Actions of the submission side -/

/-- Whether the action is a submit-batch call. -/
def is_io_submit : Action → Bool
  | .io_submit _ _ _ => true
  | _ => false

/-! # Theorems -/

/-! ## Basic facts about the state operations -/

@[simp] theorem log_reqs (s : Machine) (a : Action) : (s.log a).reqs = s.reqs := rfl
@[simp] theorem log_wq (s : Machine) (a : Action) : (s.log a).wq_aio = s.wq_aio := rfl
@[simp] theorem log_queue (s : Machine) (a : Action) : (s.log a).queue = s.queue := rfl
@[simp] theorem log_trace (s : Machine) (a : Action) : (s.log a).trace = s.trace ++ [a] := rfl
@[simp] theorem set_req_wq (s : Machine) (c : Nat) (r : uv_fs_t) :
    (s.set_req c r).wq_aio = s.wq_aio := rfl
@[simp] theorem set_req_queue (s : Machine) (c : Nat) (r : uv_fs_t) :
    (s.set_req c r).queue = s.queue := rfl
@[simp] theorem set_req_trace (s : Machine) (c : Nat) (r : uv_fs_t) :
    (s.set_req c r).trace = s.trace := rfl
@[simp] theorem set_req_same (s : Machine) (c : Nat) (r : uv_fs_t) :
    (s.set_req c r).reqs c = r := by simp [Machine.set_req]
theorem set_req_other (s : Machine) (c x : Nat) (r : uv_fs_t) (h : x ≠ c) :
    (s.set_req c r).reqs x = s.reqs x := by simp [Machine.set_req, h]
@[simp] theorem set_queue_reqs (s : Machine) (l : List Nat) : (s.set_queue l).reqs = s.reqs := rfl
@[simp] theorem set_queue_queue (s : Machine) (l : List Nat) : (s.set_queue l).queue = l := rfl
@[simp] theorem set_queue_trace (s : Machine) (l : List Nat) :
    (s.set_queue l).trace = s.trace := rfl

theorem drain_nil (ndebug : Bool) (s : Machine) (h : s.queue = []) (ks : List submit_ret) :
    uv__aio_drain_pending_queue ndebug ks s = .returned s := by
  cases ks <;> simp [uv__aio_drain_pending_queue, h]

theorem drain_starve (ndebug : Bool) (s : Machine) (q : Nat) (qs : List Nat)
    (h : s.queue = q :: qs) : uv__aio_drain_pending_queue ndebug [] s = .starved s := by
  simp [uv__aio_drain_pending_queue, h]

theorem drain_cons (ndebug : Bool) (s : Machine) (q : Nat) (qs : List Nat)
    (h : s.queue = q :: qs) (k : submit_ret) (ks : List submit_ret) :
    uv__aio_drain_pending_queue ndebug (k :: ks) s =
      if k.r < 0 ∧ k.errno = EAGAIN then .returned (drain_stop s q k)
      else if k.r < 0 then (if ndebug then .returned (drain_stop s q k)
        else .aborted (drain_stop s q k))
      else uv__aio_drain_pending_queue ndebug ks (drain_advance s q k) := by
  simp only [uv__aio_drain_pending_queue, h, drain_stop, drain_advance]

/-- Induction over the iterations of the drain loop. -/
theorem drain_induct (P : Machine → Prop) (ndebug : Bool)
    (hstop : ∀ s q qs k, s.queue = q :: qs → k.r < 0 → P s → P (drain_stop s q k))
    (hadv : ∀ s q qs k, s.queue = q :: qs → 0 ≤ k.r → P s → P (drain_advance s q k)) :
    ∀ ks s, P s → P (uv__aio_drain_pending_queue ndebug ks s).state := by
  intro ks
  induction ks with
  | nil =>
    intro s hs
    cases hq : s.queue with
    | nil => rw [drain_nil ndebug s hq]; exact hs
    | cons q qs => rw [drain_starve ndebug s q qs hq]; exact hs
  | cons k ks ih =>
    intro s hs
    cases hq : s.queue with
    | nil => rw [drain_nil ndebug s hq]; exact hs
    | cons q qs =>
      rw [drain_cons ndebug s q qs hq]
      by_cases h1 : k.r < 0
      · have hst := hstop s q qs k hq h1 hs
        by_cases h2 : k.errno = EAGAIN
        · simp [h1, h2, Outcome.state]; simpa [h2] using hst
        · cases ndebug <;> simp [h1, h2, Outcome.state] <;> exact hst
      · have h1' : 0 ≤ k.r := not_lt.mp h1
        simp only [h1, false_and, if_false]
        exact ih _ (hadv s q qs k hq h1' hs)

theorem process_events_nil (s : Machine) : process_events s [] = s := rfl
theorem process_events_cons (s : Machine) (e : io_event) (evs : List io_event) :
    process_events s (e :: evs) = process_events (process_event s e) evs := rfl
theorem process_events_append (s : Machine) (l1 l2 : List io_event) :
    process_events s (l1 ++ l2) = process_events (process_events s l1) l2 := by
  simp [process_events, List.foldl_append]

theorem process_events_induct (P : Machine → Prop)
    (hev : ∀ s e, P s → P (process_event s e)) :
    ∀ evs s, P s → P (process_events s evs) := by
  intro evs
  induction evs with
  | nil => intro s hs; exact hs
  | cons e evs ih => intro s hs; exact ih _ (hev s e hs)

/-- Induction over the get-events loop. -/
theorem getevents_induct (P : Machine → Prop)
    (hget : ∀ s r, P s → P (s.log (.io_getevents 0 UV_AIO_NR_EVENTS r)))
    (hev : ∀ s e, P s → P (process_event s e)) :
    ∀ gs s, P s → P (getevents_loop gs s).state := by
  intro gs
  induction gs with
  | nil => intro s hs; exact hs
  | cons g gs ih =>
    intro s hs
    have h2 := process_events_induct P hev g.evs _ (hget s g.r hs)
    simp only [getevents_loop]
    split
    · exact ih _ h2
    · exact h2

theorem work_done_induct (P : Machine → Prop) (ndebug : Bool)
    (hstop : ∀ s q qs k, s.queue = q :: qs → k.r < 0 → P s → P (drain_stop s q k))
    (hadv : ∀ s q qs k, s.queue = q :: qs → 0 ≤ k.r → P s → P (drain_advance s q k))
    (hget : ∀ s r, P s → P (s.log (.io_getevents 0 UV_AIO_NR_EVENTS r)))
    (hev : ∀ s e, P s → P (process_event s e))
    (gs : List getevents_ret) (ks : List submit_ret) (s : Machine) (hs : P s) :
    P (uv__aio_work_done ndebug gs ks s).state := by
  have h1 := getevents_induct P hget hev gs s hs
  unfold uv__aio_work_done
  cases hg : getevents_loop gs s with
  | returned s1 =>
    rw [hg] at h1
    exact drain_induct P ndebug hstop hadv ks s1 h1
  | aborted s1 => rw [hg] at h1; exact h1
  | starved s1 => rw [hg] at h1; exact h1

theorem submit_induct (P : Machine → Prop) (ndebug : Bool)
    (hstop : ∀ s q qs k, s.queue = q :: qs → k.r < 0 → P s → P (drain_stop s q k))
    (hadv : ∀ s q qs k, s.queue = q :: qs → 0 ≤ k.r → P s → P (drain_advance s q k))
    (ks : List submit_ret) (loop c : Nat) (done : Option Nat) (s : Machine)
    (henq : P (aio_submit_enqueue loop c done s).state) :
    P (uv__aio_submit ndebug ks loop c done s).state := by
  unfold uv__aio_submit
  cases hg : aio_submit_enqueue loop c done s with
  | returned s1 =>
    rw [hg] at henq
    exact drain_induct P ndebug hstop hadv ks s1 henq
  | aborted s1 => rw [hg] at henq; exact henq
  | starved s1 => rw [hg] at henq; exact henq

/-- Induction over a run: a property kept by every operation holds in the state in which
the run ends. -/
theorem run_induct (P : Machine → Prop) (ndebug : Bool) (ok : Op → Prop)
    (hstep : ∀ op s, ok op → P s → P (step ndebug op s).state) :
    ∀ ops s, (∀ op ∈ ops, ok op) → P s → P (run ndebug ops s).state := by
  intro ops
  induction ops with
  | nil => intro s _ hs; exact hs
  | cons op ops ih =>
    intro s hok hs
    have h1 := hstep op s (hok op (List.mem_cons_self _ _)) hs
    simp only [run]
    cases hg : step ndebug op s with
    | returned s1 =>
      rw [hg] at h1
      exact ih s1 (fun o ho => hok o (List.mem_cons_of_mem _ ho)) h1
    | aborted s1 => rw [hg] at h1; exact h1
    | starved s1 => rw [hg] at h1; exact h1

/-! ## The trace readers on appended traces -/

theorem events_of_append (c : Nat) (t1 t2 : List Action) :
    events_of c (t1 ++ t2) = events_of c t1 ++ events_of c t2 := by
  induction t1 with
  | nil => rfl
  | cons a t ih =>
    cases a <;> simp only [List.cons_append, events_of, List.append_eq, ih]
    split <;> simp

theorem done_calls_append (c : Nat) (t1 t2 : List Action) :
    done_calls c (t1 ++ t2) = done_calls c t1 + done_calls c t2 := by
  induction t1 with
  | nil => simp [done_calls]
  | cons a t ih =>
    cases a <;> simp only [List.cons_append, done_calls, List.append_eq, ih]
    split <;> omega

theorem accepted_append (c : Nat) (t1 t2 : List Action) :
    accepted c (t1 ++ t2) = accepted c t1 + accepted c t2 := by
  induction t1 with
  | nil => simp [accepted]
  | cons a t ih =>
    cases a <;> simp only [List.cons_append, accepted, List.append_eq, ih]
    omega

/-! ## Effect of the loop bodies on the state -/

theorem drain_stop_reqs (s : Machine) (q : Nat) (k : submit_ret) :
    (drain_stop s q k).reqs = s.reqs := rfl

theorem drain_stop_queue (s : Machine) (q : Nat) (k : submit_ret) :
    (drain_stop s q k).queue = s.queue := rfl

theorem drain_stop_trace (s : Machine) (q : Nat) (k : submit_ret) :
    (drain_stop s q k).trace = s.trace ++ [.io_submit (pending_count_of (s.reqs q))
      (batch_ptrs q (s.reqs q) (pending_count_of (s.reqs q))) k] := rfl

theorem drain_advance_trace (s : Machine) (q : Nat) (k : submit_ret) :
    (drain_advance s q k).trace = s.trace ++ [.io_submit (pending_count_of (s.reqs q))
      (batch_ptrs q (s.reqs q) (pending_count_of (s.reqs q))) k] := by
  unfold drain_advance
  simp only []
  split <;> rfl

theorem drain_advance_reqs (s : Machine) (q : Nat) (k : submit_ret) :
    (drain_advance s q k).reqs = (s.set_req q { s.reqs q with
      submitted_iocbs_count := ((s.reqs q).submitted_iocbs_count + k.r.toNat) % U32 }).reqs := by
  unfold drain_advance
  simp only []
  split <;> rfl

theorem drain_advance_other (s : Machine) (q x : Nat) (k : submit_ret) (h : x ≠ q) :
    (drain_advance s q k).reqs x = s.reqs x := by
  rw [drain_advance_reqs]; exact set_req_other _ _ _ _ h

theorem drain_advance_same (s : Machine) (q : Nat) (k : submit_ret) :
    (drain_advance s q k).reqs q = { s.reqs q with
      submitted_iocbs_count := ((s.reqs q).submitted_iocbs_count + k.r.toNat) % U32 } := by
  rw [drain_advance_reqs]; exact set_req_same _ _ _

theorem drain_advance_queue (s : Machine) (q : Nat) (k : submit_ret) :
    (drain_advance s q k).queue =
      if ((s.reqs q).submitted_iocbs_count + k.r.toNat) % U32 ≥ (s.reqs q).iocbs_count
      then s.queue.erase q else s.queue := by
  unfold drain_advance
  simp only []
  split <;> rfl

/-- The part of the trace that processing the event `e` adds. -/
theorem process_event_trace (s : Machine) (e : io_event) :
    (process_event s e).trace = s.trace ++ .event e ::
      (if ((s.reqs e.data).done_iocbs_count + 1) % U32 < (s.reqs e.data).iocbs_count then []
       else match (s.reqs e.data).work_req_done with
         | some f => [.done_call e.data f 0]
         | none => []) := by
  unfold process_event
  simp only [log_reqs, set_req_same]
  split
  · simp
  · split <;> simp_all

theorem process_event_reqs (s : Machine) (e : io_event) :
    (process_event s e).reqs = (s.set_req e.data { s.reqs e.data with
      result := aggregate (s.reqs e.data).result e.res
      done_iocbs_count := ((s.reqs e.data).done_iocbs_count + 1) % U32 }).reqs := by
  unfold process_event
  simp only [log_reqs, set_req_same]
  split
  · rfl
  · split <;> rfl

theorem process_event_other (s : Machine) (e : io_event) (x : Nat) (h : x ≠ e.data) :
    (process_event s e).reqs x = s.reqs x := by
  rw [process_event_reqs]; exact set_req_other _ _ _ _ h

theorem process_event_same (s : Machine) (e : io_event) :
    (process_event s e).reqs e.data = { s.reqs e.data with
      result := aggregate (s.reqs e.data).result e.res
      done_iocbs_count := ((s.reqs e.data).done_iocbs_count + 1) % U32 } := by
  rw [process_event_reqs]; exact set_req_same _ _ _

theorem process_event_queue (s : Machine) (e : io_event) :
    (process_event s e).queue = s.queue := by
  unfold process_event
  simp only [log_reqs, set_req_same]
  split
  · rfl
  · split <;> rfl

/-- What `aio_submit_enqueue` leaves in the trace: nothing. -/
theorem enqueue_trace (loop c : Nat) (done : Option Nat) (s : Machine) :
    (aio_submit_enqueue loop c done s).state.trace = s.trace := by
  unfold aio_submit_enqueue
  simp only []
  split
  · split <;> rfl
  · rfl

theorem enqueue_other (loop c : Nat) (done : Option Nat) (s : Machine) (x : Nat) (h : x ≠ c) :
    (aio_submit_enqueue loop c done s).state.reqs x = s.reqs x := by
  unfold aio_submit_enqueue
  simp only []
  split
  · split <;> simp [UNREACHABLE, Outcome.state, set_req_other _ _ _ _ h]
  · simp [Outcome.state, set_req_other _ _ _ _ h]

theorem enqueue_result (loop c : Nat) (done : Option Nat) (s : Machine) (x : Nat) :
    ((aio_submit_enqueue loop c done s).state.reqs x).result = (s.reqs x).result ∧
    ((aio_submit_enqueue loop c done s).state.reqs x).done_iocbs_count
      = (s.reqs x).done_iocbs_count := by
  by_cases h : x = c
  · subst h
    unfold aio_submit_enqueue
    simp only []
    split
    · split <;> simp [UNREACHABLE, Outcome.state]
    · simp [Outcome.state]
  · rw [enqueue_other _ _ _ _ _ h]; exact ⟨rfl, rfl⟩

/-! ## The aggregated result as a function of the trace -/

theorem aggregate_all_append (r0 : Int) (l1 l2 : List io_event) :
    aggregate_all r0 (l1 ++ l2) = aggregate_all (aggregate_all r0 l1) l2 := by
  simp [aggregate_all, List.foldl_append]

/-- In every state a run reaches, the aggregated result of a request is the fold of
`aggregate` over the events the dispatcher has picked up for it. -/
theorem result_follows_trace (ndebug : Bool) (c : Nat) (r0 : Int) (ops : List Op) (s : Machine)
    (h : (s.reqs c).result = aggregate_all r0 (events_of c s.trace)) :
    ((run ndebug ops s).state.reqs c).result
      = aggregate_all r0 (events_of c (run ndebug ops s).state.trace) := by
  have hstop : ∀ (s : Machine) (q : Nat) (qs : List Nat) (k : submit_ret), s.queue = q :: qs → k.r < 0 →
      (s.reqs c).result = aggregate_all r0 (events_of c s.trace) →
      ((drain_stop s q k).reqs c).result
        = aggregate_all r0 (events_of c (drain_stop s q k).trace) := by
    intro s q qs k _ _ hs
    simp [drain_stop_reqs, drain_stop_trace, events_of_append, events_of, hs]
  have hadv : ∀ (s : Machine) (q : Nat) (qs : List Nat) (k : submit_ret), s.queue = q :: qs → 0 ≤ k.r →
      (s.reqs c).result = aggregate_all r0 (events_of c s.trace) →
      ((drain_advance s q k).reqs c).result
        = aggregate_all r0 (events_of c (drain_advance s q k).trace) := by
    intro s q qs k _ _ hs
    rw [drain_advance_trace, events_of_append]
    simp only [events_of, List.append_nil]
    rw [← hs]
    by_cases hx : c = q
    · subst hx; rw [drain_advance_same]
    · rw [drain_advance_other _ _ _ _ hx]
  have hget : ∀ (s : Machine) (r : Int), (s.reqs c).result = aggregate_all r0 (events_of c s.trace) →
      ((s.log (.io_getevents 0 UV_AIO_NR_EVENTS r)).reqs c).result
        = aggregate_all r0 (events_of c (s.log (.io_getevents 0 UV_AIO_NR_EVENTS r)).trace) := by
    intro s r hs
    simp [events_of_append, events_of, hs]
  have hev : ∀ (s : Machine) (e : io_event), (s.reqs c).result = aggregate_all r0 (events_of c s.trace) →
      ((process_event s e).reqs c).result
        = aggregate_all r0 (events_of c (process_event s e).trace) := by
    intro s e hs
    rw [process_event_trace, events_of_append]
    have htail : ∀ l : List Action, (l = [] ∨ ∃ f, l = [.done_call e.data f 0]) →
        events_of c (.event e :: l) = if e.data = c then [e] else [] := by
      intro l hl
      rcases hl with hl | ⟨f, hl⟩ <;> subst hl <;> simp only [events_of]
    rw [htail]
    · by_cases hx : e.data = c
      · subst hx
        rw [process_event_same]
        simp only [if_true, aggregate_all_append, ← hs]
        simp [aggregate_all]
      · rw [process_event_other _ _ _ (Ne.symm hx)]
        simp [hx, hs]
    · split
      · exact Or.inl rfl
      · split
        · exact Or.inr ⟨_, rfl⟩
        · exact Or.inl rfl
  refine run_induct (fun s => (s.reqs c).result = aggregate_all r0 (events_of c s.trace))
    ndebug (fun _ => True) ?_ ops s (fun _ _ => trivial) h
  intro op s _ hs
  cases op with
  | submit ks loop c' done =>
    refine submit_induct _ ndebug hstop hadv ks loop c' done s ?_
    rw [(enqueue_result loop c' done s c).1, enqueue_trace]; exact hs
  | drain ks => exact drain_induct _ ndebug hstop hadv ks s hs
  | work_done gs ks => exact work_done_induct _ ndebug hstop hadv hget hev gs ks s hs

theorem aggregate_all_nonneg (evs : List io_event) (r0 : Int) (h0 : 0 ≤ r0)
    (h : ∀ e ∈ evs, 0 ≤ e.res) :
    aggregate_all r0 evs = r0 + (evs.map io_event.res).sum := by
  induction evs generalizing r0 with
  | nil => simp [aggregate_all]
  | cons e evs ih =>
    have he : 0 ≤ e.res := h e (List.mem_cons_self _ _)
    have h1 : aggregate r0 e.res = r0 + e.res := by simp [aggregate, he, h0]
    have := ih (r0 + e.res) (by omega) (fun x hx => h x (List.mem_cons_of_mem _ hx))
    simp only [aggregate_all, List.foldl_cons, h1, List.map_cons, List.sum_cons] at this ⊢
    rw [this]; ring

/-! ## Claims about the aggregated result -/

/-- C2 (the code at the failing input): a request whose aggregated result is `-5` after a
failed fragment receives the completion of its second fragment with `res = 13`; the
dispatcher overwrites the error, the aggregated result becomes `13`. -/
theorem sticky_error_step_overwritten :
    ((machine1 (inflight_req 2 2 1 (-5)) []).reqs 0).result = -5 ∧
    ((uv__aio_work_done false [.events [⟨0, 13⟩], .events []] []
        (machine1 (inflight_req 2 2 1 (-5)) [])).state.reqs 0).result = 13 := by
  decide

/-- C3: in every state reached by a run of engine operations from a state in which the
request `c` has aggregated result 0 and no event has been processed, if all completion
events processed for `c` have non-negative `res`, the aggregated result of `c` is the sum
of their `res`; hence two runs whose events for `c` are permutations of each other give
the same result, and 54321 events of 13 bytes give 706173. -/
theorem result_is_sum_of_successes (ndebug : Bool) (c : Nat) (ops : List Op) (s : Machine)
    (h0 : (s.reqs c).result = 0) (ht : s.trace = [])
    (hpos : ∀ e ∈ events_of c (run ndebug ops s).state.trace, 0 ≤ e.res) :
    ((run ndebug ops s).state.reqs c).result
        = ((events_of c (run ndebug ops s).state.trace).map io_event.res).sum
    ∧ (∀ (ops' : List Op) (s' : Machine), (s'.reqs c).result = 0 → s'.trace = [] →
        (events_of c (run ndebug ops' s').state.trace).Perm
          (events_of c (run ndebug ops s).state.trace) →
        ((run ndebug ops' s').state.reqs c).result = ((run ndebug ops s).state.reqs c).result)
    ∧ (events_of c (run ndebug ops s).state.trace = List.replicate 54321 ⟨c, 13⟩ →
        ((run ndebug ops s).state.reqs c).result = 706173) := by
  have key : ∀ (ops : List Op) (s : Machine), (s.reqs c).result = 0 → s.trace = [] →
      (∀ e ∈ events_of c (run ndebug ops s).state.trace, 0 ≤ e.res) →
      ((run ndebug ops s).state.reqs c).result
        = ((events_of c (run ndebug ops s).state.trace).map io_event.res).sum := by
    intro ops s h0 ht hpos
    have h := result_follows_trace ndebug c 0 ops s (by simp [h0, ht, events_of, aggregate_all])
    rw [h, aggregate_all_nonneg _ 0 le_rfl hpos]; simp
  have h1 := key ops s h0 ht hpos
  refine ⟨h1, ?_, ?_⟩
  · intro ops' s' h0' ht' hperm
    have hpos' : ∀ e ∈ events_of c (run ndebug ops' s').state.trace, 0 ≤ e.res :=
      fun e he => hpos e (hperm.mem_iff.mp he)
    rw [h1, key ops' s' h0' ht' hpos']
    exact (hperm.map _).sum_eq
  · intro hrep
    rw [h1, hrep, List.map_replicate, List.sum_replicate]
    norm_num

/-- C3, at a concrete run: two fragments of 13 bytes complete in one dispatcher call. -/
theorem result_is_sum_of_successes_witness :
    ((run false [.work_done [.events [⟨0, 13⟩, ⟨0, 13⟩], .events []] []]
        (machine1 (inflight_req 2 2 0 0) [])).state.reqs 0).result
      = (([⟨0, 13⟩, ⟨0, 13⟩] : List io_event).map io_event.res).sum :=
  (result_is_sum_of_successes false 0 [.work_done [.events [⟨0, 13⟩, ⟨0, 13⟩], .events []] []]
    (machine1 (inflight_req 2 2 0 0) []) rfl rfl (by decide)).1

/-- C4 (counterexample): a request with two fragments and aggregated result 0; the first
completion has `res = -5`, the second `res = -9`.  After both have been processed the
aggregated result is `-9`, the `res` of the second failure, not of the first. -/
theorem first_error_replaced_by_later_error :
    events_of 0 (uv__aio_work_done false [.events [⟨0, -5⟩, ⟨0, -9⟩], .events []] []
        (machine1 (inflight_req 2 2 0 0) [])).state.trace = [⟨0, -5⟩, ⟨0, -9⟩] ∧
    ((uv__aio_work_done false [.events [⟨0, -5⟩, ⟨0, -9⟩], .events []] []
        (machine1 (inflight_req 2 2 0 0) [])).state.reqs 0).result = -9 := by
  decide

/-- C4 (amended): in every state reached by a run of engine operations from a state in
which the request `c` has aggregated result 0 and no event has been processed, if the
last completion event processed for `c` has `res < 0` (no success follows the last
failure), the aggregated result of `c` is that `res`. -/
theorem result_is_last_error (ndebug : Bool) (c : Nat) (ops : List Op) (s : Machine)
    (e : io_event)
    (h0 : (s.reqs c).result = 0) (ht : s.trace = [])
    (hlast : (events_of c (run ndebug ops s).state.trace).getLast? = some e)
    (hneg : e.res < 0) :
    ((run ndebug ops s).state.reqs c).result = e.res := by
  have h := result_follows_trace ndebug c 0 ops s (by simp [h0, ht, events_of, aggregate_all])
  obtain ⟨init, hinit⟩ := List.getLast?_eq_some_iff.mp hlast
  rw [h, hinit, aggregate_all_append]
  have hn : ¬ (0 ≤ e.res) := by omega
  simp [aggregate_all, aggregate, hn]

/-- C4 (amended), at a concrete run: a success of 13 bytes, then failures `-5` and `-9`. -/
theorem result_is_last_error_witness :
    ((run false [.work_done [.events [⟨0, 13⟩, ⟨0, -5⟩, ⟨0, -9⟩], .events []] []]
        (machine1 (inflight_req 3 3 0 0) [])).state.reqs 0).result = -9 :=
  result_is_last_error false 0 [.work_done [.events [⟨0, 13⟩, ⟨0, -5⟩, ⟨0, -9⟩], .events []] []]
    (machine1 (inflight_req 3 3 0 0) []) ⟨0, -9⟩ rfl rfl (by decide) (by decide)

/-! ## The fragmenter -/

/-- The drain changes nothing of a request but `submitted_iocbs_count`. -/
theorem drain_frame (ndebug : Bool) (ks : List submit_ret) (s : Machine) (x : Nat) :
    (uv__aio_drain_pending_queue ndebug ks s).state.reqs x = { s.reqs x with
      submitted_iocbs_count :=
        ((uv__aio_drain_pending_queue ndebug ks s).state.reqs x).submitted_iocbs_count } := by
  refine drain_induct (fun s' => s'.reqs x = { s.reqs x with
      submitted_iocbs_count := (s'.reqs x).submitted_iocbs_count }) ndebug ?_ ?_ ks s rfl
  · intro s' q qs k _ _ hs
    rw [drain_stop_reqs]; exact hs
  · intro s' q qs k _ _ hs
    by_cases hx : x = q
    · subst hx
      rw [drain_advance_same, hs]
    · rw [drain_advance_other _ _ _ _ hx]; exact hs

theorem to_s64_id (x : Int) (h0 : 0 ≤ x) (h1 : x < 2 ^ 63) : to_s64 x = x := by
  unfold to_s64
  rw [Int.emod_eq_of_lt (by omega) (by omega)]
  omega

/-- The control blocks the fragmenting loop builds from running offset `o`. -/
theorem fill_iocbs_spec (c : Nat) (ty : uv_fs_type) (file resfd : Int) (hty : ty ≠ .UV_FS_OTHER) :
    ∀ (bufs : List uv_buf_t) (o : Int), 0 ≤ o →
      o + ((bufs.map uv_buf_t.len).sum : Nat) < 2 ^ 63 →
      ∃ blks, fill_iocbs c ty file resfd bufs o = some blks ∧
        blks.map iocb.aio_nbytes = bufs.map uv_buf_t.len ∧
        blks.map iocb.aio_offset = (List.range bufs.length).map
          (fun i => o + (((bufs.take i).map uv_buf_t.len).sum : Nat)) ∧
        (∀ b0 ∈ blks.head?, b0.aio_offset = o) ∧
        List.Chain' (fun b b' => b'.aio_offset = b.aio_offset + (b.aio_nbytes : Int)) blks := by
  intro bufs
  induction bufs with
  | nil => intro o _ _; exact ⟨[], rfl, rfl, rfl, by simp, List.chain'_nil⟩
  | cons b bs ih =>
    intro o ho hfit
    simp only [List.map_cons, List.sum_cons, Nat.cast_add] at hfit
    have hsum : (0 : Int) ≤ ((bs.map uv_buf_t.len).sum : Nat) := Int.natCast_nonneg _
    have hb : (0 : Int) ≤ (b.len : Nat) := Int.natCast_nonneg _
    have hid : to_s64 (o + b.len) = o + b.len := to_s64_id _ (by omega) (by omega)
    obtain ⟨rest, hrest, hn, hoff, hhead, hchain⟩ := ih (o + b.len) (by omega) (by omega)
    obtain ⟨op, hop⟩ : ∃ op, opcode_of ty = some op := by
      cases ty
      · exact ⟨_, rfl⟩
      · exact ⟨_, rfl⟩
      · exact absurd rfl hty
    refine ⟨({ aio_data := c, aio_lio_opcode := op, aio_fildes := to_u32 file,
                aio_buf := b.base, aio_nbytes := b.len, aio_offset := o,
                aio_flags := IOCB_FLAG_RESFD, aio_resfd := to_u32 resfd } : iocb) :: rest,
      ?_, ?_, ?_, ?_, ?_⟩
    · simp only [fill_iocbs, hop, hid, hrest]
    · simp [hn]
    · simp only [List.map_cons, List.length_cons, List.range_succ_eq_map, List.take_zero,
        List.map_nil, List.sum_nil, Nat.cast_zero, add_zero, List.map_map, hoff]
      congr 1
      apply List.map_congr_left
      intro i _
      simp only [Function.comp, List.take_succ_cons, List.map_cons, List.sum_cons, Nat.cast_add]
      ring
    · simp
    · rw [List.chain'_cons']
      exact ⟨fun b0 hb0 => by rw [hhead b0 hb0], hchain⟩

theorem enqueue_fresh (loop c : Nat) (done : Option Nat) (s : Machine) (blks : List iocb)
    (hnull : (s.reqs c).iocbs = none)
    (hfill : fill_iocbs c (s.reqs c).fs_type (s.reqs c).file s.wq_aio.aio_io_watcher_fd
      (s.reqs c).bufs (start_offset (s.reqs c).off) = some blks) :
    aio_submit_enqueue loop c done s = .returned
      ((s.set_req c
          { s.reqs c with
            work_req_loop := some loop
            work_req_done := done
            iocbs := some blks
            iocbs_count := (s.reqs c).bufs.length
            submitted_iocbs_count := 0 }).set_queue (s.queue ++ [c])) := by
  unfold aio_submit_enqueue
  simp only [hnull, hfill]
  rfl

/-- C5: for a read or write request that has not been fragmented, whose last fragment
ends within the range of `off_t`, `uv__aio_submit` builds control blocks whose byte
counts are the buffer lengths and whose offsets are `max(off, 0)` plus the lengths of the
buffers before; each block starts where the one before ends; and a negative `off` gives
the blocks that `off = 0` gives. -/
theorem fragment_offsets (ndebug : Bool) (ks : List submit_ret) (loop c : Nat)
    (done : Option Nat) (s : Machine)
    (hnull : (s.reqs c).iocbs = none)
    (hty : (s.reqs c).fs_type ≠ .UV_FS_OTHER)
    (hfit : max (s.reqs c).off 0 + (((s.reqs c).bufs.map uv_buf_t.len).sum : Nat) < 2 ^ 63) :
    ∃ blks, ((uv__aio_submit ndebug ks loop c done s).state.reqs c).iocbs = some blks ∧
      blks.length = (s.reqs c).bufs.length ∧
      blks.map iocb.aio_nbytes = (s.reqs c).bufs.map uv_buf_t.len ∧
      blks.map iocb.aio_offset = (List.range (s.reqs c).bufs.length).map
        (fun i => max (s.reqs c).off 0 + ((((s.reqs c).bufs.take i).map uv_buf_t.len).sum : Nat)) ∧
      List.Chain' (fun b b' => b'.aio_offset = b.aio_offset + (b.aio_nbytes : Int)) blks ∧
      ((s.reqs c).off < 0 →
        ((uv__aio_submit ndebug ks loop c done
          (s.set_req c { s.reqs c with off := 0 })).state.reqs c).iocbs = some blks) := by
  have hstart : start_offset (s.reqs c).off = max (s.reqs c).off 0 := by
    unfold start_offset
    split <;> omega
  have hsub : ∀ (s : Machine) (blks : List iocb), (s.reqs c).iocbs = none →
      fill_iocbs c (s.reqs c).fs_type (s.reqs c).file s.wq_aio.aio_io_watcher_fd
        (s.reqs c).bufs (start_offset (s.reqs c).off) = some blks →
      ((uv__aio_submit ndebug ks loop c done s).state.reqs c).iocbs = some blks := by
    intro s blks hn hf
    unfold uv__aio_submit
    rw [enqueue_fresh loop c done s blks hn hf]
    simp only []
    rw [drain_frame]
    simp
  obtain ⟨blks, hfill, hn, hoff, _, hchain⟩ := fill_iocbs_spec c (s.reqs c).fs_type
    (s.reqs c).file s.wq_aio.aio_io_watcher_fd hty (s.reqs c).bufs
    (start_offset (s.reqs c).off) (by rw [hstart]; omega) (by rw [hstart]; exact hfit)
  refine ⟨blks, hsub s blks hnull hfill, ?_, hn, ?_, hchain, ?_⟩
  · have := congrArg List.length hn
    simpa using this
  · rw [hoff, hstart]
  · intro hneg
    apply hsub
    · simp [hnull]
    · have h0 : start_offset (s.reqs c).off = start_offset 0 := by
        unfold start_offset; simp [hneg]
      simp only [set_req_same, set_req_wq]
      rw [← h0]; exact hfill

/-- C5, at a concrete request: three buffers of 13, 5 and 7 bytes at offset -1. -/
theorem fragment_offsets_witness :
    ∃ blks, ((uv__aio_submit false [⟨3, 0⟩] 1 0 (some 9)
        (machine0 [⟨100, 13⟩, ⟨200, 5⟩, ⟨300, 7⟩] (-1))).state.reqs 0).iocbs = some blks ∧
      blks.map iocb.aio_offset = [0, 13, 18] ∧ blks.map iocb.aio_nbytes = [13, 5, 7] := by
  obtain ⟨blks, h1, _, h3, h4, _⟩ := fragment_offsets false [⟨3, 0⟩] 1 0 (some 9)
    (machine0 [⟨100, 13⟩, ⟨200, 5⟩, ⟨300, 7⟩] (-1)) rfl (by decide) (by decide)
  exact ⟨blks, h1, h4, h3⟩

/-! ## The drain loop: how it stops -/

/-- A drain that is waiting for the next answer of the kernel has a non-empty queue. -/
theorem drain_starved_queue (ndebug : Bool) :
    ∀ (pre : List submit_ret) (s0 s1 : Machine),
      uv__aio_drain_pending_queue ndebug pre s0 = .starved s1 → s1.queue ≠ [] := by
  intro pre
  induction pre with
  | nil =>
    intro s0 s1 h
    cases hq : s0.queue with
    | nil => rw [drain_nil ndebug s0 hq] at h; cases h
    | cons q qs =>
      rw [drain_starve ndebug s0 q qs hq] at h
      cases h; simp [hq]
  | cons k0 pre ih =>
    intro s0 s1 h
    cases hq : s0.queue with
    | nil => rw [drain_nil ndebug s0 hq] at h; cases h
    | cons q qs =>
      rw [drain_cons ndebug s0 q qs hq] at h
      by_cases h1 : k0.r < 0
      · by_cases h2 : k0.errno = EAGAIN
        · simp [h1, h2] at h
        · cases ndebug <;> simp [h1, h2] at h
      · simp only [h1, false_and, if_false] at h
        exact ih _ _ h

/-- A drain that has used up the answers `pre` and waits in state `s1` continues from
`s1` with the answers that follow. -/
theorem drain_starved_append (ndebug : Bool) (more : List submit_ret) :
    ∀ (pre : List submit_ret) (s0 s1 : Machine),
      uv__aio_drain_pending_queue ndebug pre s0 = .starved s1 →
      uv__aio_drain_pending_queue ndebug (pre ++ more) s0
        = uv__aio_drain_pending_queue ndebug more s1 := by
  intro pre
  induction pre with
  | nil =>
    intro s0 s1 h
    cases hq : s0.queue with
    | nil => rw [drain_nil ndebug s0 hq] at h; cases h
    | cons q qs =>
      rw [drain_starve ndebug s0 q qs hq] at h
      cases h; rfl
  | cons k0 pre ih =>
    intro s0 s1 h
    cases hq : s0.queue with
    | nil => rw [drain_nil ndebug s0 hq] at h; cases h
    | cons q qs =>
      rw [drain_cons ndebug s0 q qs hq] at h
      rw [List.cons_append, drain_cons ndebug s0 q qs hq]
      by_cases h1 : k0.r < 0
      · by_cases h2 : k0.errno = EAGAIN
        · simp [h1, h2] at h
        · cases ndebug <;> simp [h1, h2] at h
      · simp only [h1, false_and, if_false] at h ⊢
        exact ih _ _ h

/-- C8 (counterexample): compiled with `NDEBUG`, a drain whose submit-batch call fails
with `EINVAL` returns with the request still queued; the last call it made did not fail
with `EAGAIN`. -/
theorem drain_returns_after_other_error :
    (uv__aio_drain_pending_queue true [⟨-1, EINVAL⟩]
        (machine1 (inflight_req 1 0 0 0) [0])).isReturned = true ∧
    (uv__aio_drain_pending_queue true [⟨-1, EINVAL⟩]
        (machine1 (inflight_req 1 0 0 0) [0])).state.queue = [0] ∧
    (uv__aio_drain_pending_queue true [⟨-1, EINVAL⟩]
        (machine1 (inflight_req 1 0 0 0) [0])).state.trace
      = [.io_submit 1 [some ⟨0, 0⟩] ⟨-1, EINVAL⟩] ∧
    EINVAL ≠ EAGAIN := by
  decide

/-- C8 (amended): when `uv__aio_drain_pending_queue` returns, either the pending queue is
empty or the last submit-batch call it made failed, with `EAGAIN` or, when compiled with
`NDEBUG`, with any other `errno`. -/
theorem drain_returns_empty_or_failed (ndebug : Bool) :
    ∀ (ks : List submit_ret) (s s' : Machine),
      uv__aio_drain_pending_queue ndebug ks s = .returned s' →
      s'.queue = [] ∨ ∃ t n b k, s'.trace = s.trace ++ t ++ [.io_submit n b k] ∧ k.r < 0 ∧
        (k.errno = EAGAIN ∨ ndebug = true) := by
  intro ks
  induction ks with
  | nil =>
    intro s s' h
    cases hq : s.queue with
    | nil => rw [drain_nil ndebug s hq] at h; cases h; exact Or.inl hq
    | cons q qs => rw [drain_starve ndebug s q qs hq] at h; cases h
  | cons k ks ih =>
    intro s s' h
    cases hq : s.queue with
    | nil => rw [drain_nil ndebug s hq] at h; cases h; exact Or.inl hq
    | cons q qs =>
      rw [drain_cons ndebug s q qs hq] at h
      by_cases h1 : k.r < 0
      · right
        by_cases h2 : k.errno = EAGAIN
        · simp only [h1, h2, and_self, if_true] at h
          cases h
          exact ⟨[], _, _, k, by rw [drain_stop_trace, List.append_nil], h1, Or.inl h2⟩
        · cases ndebug
          · simp [h1, h2] at h
          · simp only [h1, h2, and_false, if_false, if_true] at h
            cases h
            exact ⟨[], _, _, k, by rw [drain_stop_trace, List.append_nil], h1, Or.inr rfl⟩
      · simp only [h1, false_and, if_false] at h
        rcases ih _ _ h with h3 | ⟨t, n, b, k', ht, hk⟩
        · exact Or.inl h3
        · right
          refine ⟨Action.io_submit (pending_count_of (s.reqs q))
            (batch_ptrs q (s.reqs q) (pending_count_of (s.reqs q))) k :: t, n, b, k', ?_, hk⟩
          rw [ht, drain_advance_trace]
          simp

/-- C8 (amended), at a concrete drain: the kernel takes the only fragment of the first
request and answers `EAGAIN` for the second. -/
theorem drain_returns_empty_or_failed_witness :
    (uv__aio_drain_pending_queue false [⟨1, 0⟩, ⟨-1, EAGAIN⟩]
        (machine1 (inflight_req 1 0 0 0) [0, 1])).state.queue = [] ∨
    ∃ t n b k, (uv__aio_drain_pending_queue false [⟨1, 0⟩, ⟨-1, EAGAIN⟩]
        (machine1 (inflight_req 1 0 0 0) [0, 1])).state.trace
        = (machine1 (inflight_req 1 0 0 0) [0, 1]).trace ++ t ++ [.io_submit n b k] ∧ k.r < 0 ∧
      (k.errno = EAGAIN ∨ false = true) :=
  drain_returns_empty_or_failed false [⟨1, 0⟩, ⟨-1, EAGAIN⟩]
    (machine1 (inflight_req 1 0 0 0) [0, 1]) _ (by rfl)

/-- C9: when a submit-batch call of the drain fails with `EAGAIN` (the drain has used the
answers `pre` and is about to submit for the head of the queue in state `s1`), the drain
returns without a further call, whatever answers would follow; the pending queue, with
the same head and the same order behind it, and every field of every request are as
before the call. -/
theorem eagain_stops_drain (ndebug : Bool) (pre rest : List submit_ret) (k : submit_ret)
    (s0 s1 : Machine)
    (hpre : uv__aio_drain_pending_queue ndebug pre s0 = .starved s1)
    (hk : k.r < 0 ∧ k.errno = EAGAIN) :
    ∃ q qs s', s1.queue = q :: qs ∧
      uv__aio_drain_pending_queue ndebug (pre ++ k :: rest) s0 = .returned s' ∧
      s'.queue = q :: qs ∧ s'.reqs = s1.reqs ∧
      s'.trace = s1.trace ++ [.io_submit (pending_count_of (s1.reqs q))
        (batch_ptrs q (s1.reqs q) (pending_count_of (s1.reqs q))) k] := by
  have hne := drain_starved_queue ndebug pre s0 s1 hpre
  cases hq : s1.queue with
  | nil => exact absurd hq hne
  | cons q qs =>
    refine ⟨q, qs, drain_stop s1 q k, rfl, ?_, ?_, rfl, rfl⟩
    · rw [drain_starved_append ndebug _ pre s0 s1 hpre, drain_cons ndebug s1 q qs hq]
      simp [hk.1, hk.2]
    · rw [drain_stop_queue, hq]

/-- C9, at a concrete drain: the first batch is taken in full, the second call fails with
`EAGAIN`. -/
theorem eagain_stops_drain_witness :
    ∃ q qs s', (drain_advance (machine1 (inflight_req 1 0 0 0) [0, 1]) 0 ⟨1, 0⟩).queue = q :: qs ∧
      uv__aio_drain_pending_queue false ([⟨1, 0⟩] ++ ⟨-1, EAGAIN⟩ :: [⟨1, 0⟩])
        (machine1 (inflight_req 1 0 0 0) [0, 1]) = .returned s' ∧
      s'.queue = q :: qs ∧
      s'.reqs = (drain_advance (machine1 (inflight_req 1 0 0 0) [0, 1]) 0 ⟨1, 0⟩).reqs ∧
      s'.trace = (drain_advance (machine1 (inflight_req 1 0 0 0) [0, 1]) 0 ⟨1, 0⟩).trace ++
        [.io_submit
          (pending_count_of ((drain_advance (machine1 (inflight_req 1 0 0 0) [0, 1]) 0 ⟨1, 0⟩).reqs q))
          (batch_ptrs q ((drain_advance (machine1 (inflight_req 1 0 0 0) [0, 1]) 0 ⟨1, 0⟩).reqs q)
            (pending_count_of
              ((drain_advance (machine1 (inflight_req 1 0 0 0) [0, 1]) 0 ⟨1, 0⟩).reqs q)))
          ⟨-1, EAGAIN⟩] :=
  eagain_stops_drain false [⟨1, 0⟩] [⟨1, 0⟩] ⟨-1, EAGAIN⟩
    (machine1 (inflight_req 1 0 0 0) [0, 1])
    (drain_advance (machine1 (inflight_req 1 0 0 0) [0, 1]) 0 ⟨1, 0⟩) (by rfl) ⟨by decide, rfl⟩

/-- C10 (counterexample): compiled with assertions, a drain whose submit-batch call fails
with `EINVAL` does not return to its caller: the process is aborted. -/
theorem other_error_aborts :
    (uv__aio_drain_pending_queue false [⟨-1, EINVAL⟩]
        (machine1 (inflight_req 1 0 0 0) [0])).isReturned = false := by
  decide

/-- C10 (amended): when a submit-batch call of the drain fails with an `errno` other than
`EAGAIN`, the drain stops without a further call; no field of any request changes, no
done closure is invoked, the queue keeps its head and its order.  Compiled with `NDEBUG`
the drain returns to its caller; compiled with assertions the process is aborted. -/
theorem other_error_stops_drain (ndebug : Bool) (pre rest : List submit_ret) (k : submit_ret)
    (s0 s1 : Machine)
    (hpre : uv__aio_drain_pending_queue ndebug pre s0 = .starved s1)
    (hk : k.r < 0 ∧ k.errno ≠ EAGAIN) :
    ∃ q qs s', s1.queue = q :: qs ∧
      uv__aio_drain_pending_queue ndebug (pre ++ k :: rest) s0
        = (if ndebug then .returned s' else .aborted s') ∧
      s'.queue = q :: qs ∧ s'.reqs = s1.reqs ∧
      s'.trace = s1.trace ++ [.io_submit (pending_count_of (s1.reqs q))
        (batch_ptrs q (s1.reqs q) (pending_count_of (s1.reqs q))) k] := by
  have hne := drain_starved_queue ndebug pre s0 s1 hpre
  cases hq : s1.queue with
  | nil => exact absurd hq hne
  | cons q qs =>
    refine ⟨q, qs, drain_stop s1 q k, rfl, ?_, ?_, rfl, rfl⟩
    · rw [drain_starved_append ndebug _ pre s0 s1 hpre, drain_cons ndebug s1 q qs hq]
      simp [hk.1, hk.2]
    · rw [drain_stop_queue, hq]

/-- C10 (amended), at a concrete drain compiled with `NDEBUG`: the first call of the drain
fails with `EINVAL`. -/
theorem other_error_stops_drain_witness :
    ∃ q qs s', (machine1 (inflight_req 1 0 0 0) [0, 1]).queue = q :: qs ∧
      uv__aio_drain_pending_queue true ([] ++ ⟨-1, EINVAL⟩ :: [⟨1, 0⟩])
        (machine1 (inflight_req 1 0 0 0) [0, 1]) = (if true then .returned s' else .aborted s') ∧
      s'.queue = q :: qs ∧ s'.reqs = (machine1 (inflight_req 1 0 0 0) [0, 1]).reqs ∧
      s'.trace = (machine1 (inflight_req 1 0 0 0) [0, 1]).trace ++
        [.io_submit (pending_count_of ((machine1 (inflight_req 1 0 0 0) [0, 1]).reqs q))
          (batch_ptrs q ((machine1 (inflight_req 1 0 0 0) [0, 1]).reqs q)
            (pending_count_of ((machine1 (inflight_req 1 0 0 0) [0, 1]).reqs q)))
          ⟨-1, EINVAL⟩] :=
  other_error_stops_drain true [] [⟨1, 0⟩] ⟨-1, EINVAL⟩
    (machine1 (inflight_req 1 0 0 0) [0, 1]) (machine1 (inflight_req 1 0 0 0) [0, 1])
    (by rfl) ⟨by decide, by decide⟩

/-! ## The done closure fires once -/

theorem not_submit_of_not_mem (c : Nat) :
    ∀ ops : List Op, c ∉ submitted_reqs ops → ∀ op ∈ ops, not_submit c op := by
  intro ops
  induction ops with
  | nil => intro _ op h; cases h
  | cons o ops ih =>
    intro h op hop
    cases o with
    | submit ks loop c' done =>
      simp only [submitted_reqs, List.mem_cons, not_or] at h
      rcases List.mem_cons.mp hop with rfl | hop
      · exact fun hc => h.1 hc.symm
      · exact ih h.2 op hop
    | drain ks =>
      rcases List.mem_cons.mp hop with rfl | hop
      · trivial
      · exact ih h op hop
    | work_done gs ks =>
      rcases List.mem_cons.mp hop with rfl | hop
      · trivial
      · exact ih h op hop

theorem events_of_silent (c : Nat) (a : Action) (h : silent c a) (t : List Action) :
    events_of c (a :: t) = events_of c t := by
  cases a <;> simp only [events_of]
  rw [if_neg h]

theorem done_calls_silent (c : Nat) (a : Action) (h : silent c a) (t : List Action) :
    done_calls c (a :: t) = done_calls c t := by
  cases a <;> simp only [done_calls]
  rw [if_neg h]

theorem events_of_event (c : Nat) (e : io_event) (h : e.data = c) (t : List Action) :
    events_of c (.event e :: t) = e :: events_of c t := by
  simp [events_of, h]

theorem DoneTrace.append {c n f : Nat} {d : Nat} {t u : List Action}
    (ht : DoneTrace c n f d t) (hu : DoneTrace c n f (d + (events_of c t).length) u) :
    DoneTrace c n f d (t ++ u) := by
  induction ht with
  | nil d => simpa [events_of] using hu
  | skip d a t ha _ ih =>
    rw [events_of_silent c a ha] at hu
    exact DoneTrace.skip d a _ ha (ih hu)
  | quiet d e t he hlt _ ih =>
    rw [events_of_event c e he, List.length_cons] at hu
    exact DoneTrace.quiet d e _ he hlt (ih (by rw [Nat.add_assoc, Nat.add_comm 1]; exact hu))
  | fire d e t he hle _ ih =>
    rw [events_of_event c e he, List.length_cons] at hu
    simp only [events_of] at hu
    exact DoneTrace.fire d e _ he hle (ih (by rw [Nat.add_assoc, Nat.add_comm 1]; exact hu))

theorem DoneTrace.no_call {c n f : Nat} {d : Nat} {t : List Action}
    (ht : DoneTrace c n f d t) (h0 : (events_of c t).length = 0) : done_calls c t = 0 := by
  induction ht with
  | nil d => rfl
  | skip d a t ha _ ih =>
    rw [events_of_silent c a ha] at h0
    rw [done_calls_silent c a ha]; exact ih h0
  | quiet d e t he _ _ _ => rw [events_of_event c e he] at h0; simp at h0
  | fire d e t he _ _ _ => rw [events_of_event c e he] at h0; simp at h0

/-- A trace of the right shape that contains as many events of `c` as are still missing
splits at the only invocation of the done closure, which follows the last of them. -/
theorem DoneTrace.split {c n f : Nat} {d : Nat} {t : List Action}
    (ht : DoneTrace c n f d t) (hd : d < n) (hc : d + (events_of c t).length = n) :
    ∃ t1 e t2, t = t1 ++ .event e :: .done_call c f 0 :: t2 ∧ e.data = c ∧
      (events_of c t1).length = n - 1 - d ∧ done_calls c t1 = 0 ∧ done_calls c t2 = 0 := by
  induction ht with
  | nil d => simp [events_of] at hc; omega
  | skip d a t ha _ ih =>
    rw [events_of_silent c a ha] at hc
    obtain ⟨t1, e, t2, h1, h2, h3, h4, h5⟩ := ih hd hc
    refine ⟨a :: t1, e, t2, by rw [h1]; rfl, h2, ?_, ?_, h5⟩
    · rw [events_of_silent c a ha]; exact h3
    · rw [done_calls_silent c a ha]; exact h4
  | quiet d e t he hlt _ ih =>
    rw [events_of_event c e he, List.length_cons] at hc
    obtain ⟨t1, e', t2, h1, h2, h3, h4, h5⟩ := ih hlt (by omega)
    refine ⟨.event e :: t1, e', t2, by rw [h1]; rfl, h2, ?_, ?_, h5⟩
    · rw [events_of_event c e he, List.length_cons, h3]; omega
    · simpa [done_calls] using h4
  | fire d e t he hle ht' _ =>
    rw [events_of_event c e he, List.length_cons] at hc
    simp only [events_of] at hc
    have hz : (events_of c t).length = 0 := by omega
    refine ⟨[], e, t, rfl, he, ?_, rfl, ht'.no_call hz⟩
    simp [events_of]; omega

/-- The property of a state that a run keeps: while at most `n` events of request `c` have
been processed, the trace has the right shape and `done_iocbs_count` counts the events;
`iocbs_count` and the done closure do not change. -/
theorem done_trace_run (ndebug : Bool) (c n f : Nat) (hU : n < U32) (ops : List Op) (s : Machine)
    (hops : c ∉ submitted_reqs ops)
    (hn : (s.reqs c).iocbs_count = n) (hf : (s.reqs c).work_req_done = some f)
    (hd : (s.reqs c).done_iocbs_count = 0) (ht : s.trace = []) :
    (events_of c (run ndebug ops s).state.trace).length ≤ n →
      DoneTrace c n f 0 (run ndebug ops s).state.trace ∧
      ((run ndebug ops s).state.reqs c).done_iocbs_count
        = (events_of c (run ndebug ops s).state.trace).length := by
  let P : Machine → Prop := fun s =>
    (s.reqs c).iocbs_count = n ∧ (s.reqs c).work_req_done = some f ∧
    ((events_of c s.trace).length ≤ n →
      DoneTrace c n f 0 s.trace ∧ (s.reqs c).done_iocbs_count = (events_of c s.trace).length)
  have hsilent : ∀ (s : Machine) (a : Action), silent c a → P s → P (s.log a) := by
    intro s a ha ⟨h1, h2, h3⟩
    refine ⟨h1, h2, ?_⟩
    simp only [log_trace, log_reqs, events_of_append, events_of_silent c a ha, events_of,
      List.append_nil]
    intro hle
    obtain ⟨h4, h5⟩ := h3 hle
    exact ⟨h4.append (DoneTrace.skip _ a [] ha (DoneTrace.nil _)), h5⟩
  have hstop : ∀ (s : Machine) (q : Nat) (qs : List Nat) (k : submit_ret),
      s.queue = q :: qs → k.r < 0 → P s → P (drain_stop s q k) := by
    intro s q qs k _ _ hs
    exact hsilent s _ trivial hs
  have hadv : ∀ (s : Machine) (q : Nat) (qs : List Nat) (k : submit_ret),
      s.queue = q :: qs → 0 ≤ k.r → P s → P (drain_advance s q k) := by
    intro s q qs k _ _ hs
    have h := hsilent s (.io_submit (pending_count_of (s.reqs q))
      (batch_ptrs q (s.reqs q) (pending_count_of (s.reqs q))) k) trivial hs
    have hr : ((drain_advance s q k).reqs c).iocbs_count = (s.reqs c).iocbs_count ∧
        ((drain_advance s q k).reqs c).work_req_done = (s.reqs c).work_req_done ∧
        ((drain_advance s q k).reqs c).done_iocbs_count = (s.reqs c).done_iocbs_count := by
      by_cases hx : c = q
      · subst hx; rw [drain_advance_same]; exact ⟨rfl, rfl, rfl⟩
      · rw [drain_advance_other _ _ _ _ hx]; exact ⟨rfl, rfl, rfl⟩
    obtain ⟨h1, h2, h3⟩ := h
    refine ⟨hr.1.trans h1, hr.2.1.trans h2, ?_⟩
    rw [drain_advance_trace, hr.2.2]
    exact h3
  have hget : ∀ (s : Machine) (r : Int), P s →
      P (s.log (.io_getevents 0 UV_AIO_NR_EVENTS r)) := by
    intro s r hs
    exact hsilent s _ trivial hs
  have hev : ∀ (s : Machine) (e : io_event), P s → P (process_event s e) := by
    intro s e ⟨h1, h2, h3⟩
    by_cases hx : e.data = c
    · subst hx
      refine ⟨by rw [process_event_same]; exact h1, by rw [process_event_same]; exact h2, ?_⟩
      have hcnt : (events_of e.data (process_event s e).trace).length
          = (events_of e.data s.trace).length + 1 := by
        rw [process_event_trace, events_of_append, events_of_event _ e rfl]
        split
        · simp [events_of]
        · split <;> simp [events_of]
      rw [hcnt]
      intro hle
      obtain ⟨h4, h5⟩ := h3 (by omega)
      have hmod : ((s.reqs e.data).done_iocbs_count + 1) % U32
          = (s.reqs e.data).done_iocbs_count + 1 := Nat.mod_eq_of_lt (by omega)
      refine ⟨?_, by rw [process_event_same]; simp only []; rw [hmod, h5]⟩
      rw [process_event_trace, hmod, h1, h2]
      apply h4.append
      rw [Nat.zero_add, ← h5]
      split
      · rename_i hlt
        exact DoneTrace.quiet _ e [] rfl hlt (DoneTrace.nil _)
      · rename_i hge
        exact DoneTrace.fire _ e [] rfl (not_lt.mp hge) (DoneTrace.nil _)
    · have hne : c ≠ e.data := fun h => hx h.symm
      refine ⟨by rw [process_event_other _ _ _ hne]; exact h1,
        by rw [process_event_other _ _ _ hne]; exact h2, ?_⟩
      have htail : ∃ l : List Action, (process_event s e).trace = s.trace ++ l ∧
          events_of c l = [] ∧ DoneTrace c n f (0 + (events_of c s.trace).length) l := by
        rw [process_event_trace]
        refine ⟨_, rfl, ?_, ?_⟩
        · split
          · simp [events_of, hx]
          · split <;> simp [events_of, hx]
        · split
          · exact DoneTrace.skip _ _ [] hx (DoneTrace.nil _)
          · split
            · exact DoneTrace.skip _ _ _ hx (DoneTrace.skip _ _ [] hx (DoneTrace.nil _))
            · exact DoneTrace.skip _ _ [] hx (DoneTrace.nil _)
      obtain ⟨l, hl1, hl2, hl3⟩ := htail
      rw [hl1, events_of_append, hl2, List.append_nil, process_event_other _ _ _ hne]
      intro hle
      obtain ⟨h4, h5⟩ := h3 hle
      exact ⟨h4.append hl3, h5⟩
  have hP : P (run ndebug ops s).state := by
    refine run_induct P ndebug (not_submit c) ?_ ops s (not_submit_of_not_mem c ops hops) ?_
    · intro op s hop hs
      cases op with
      | submit ks loop c' done =>
        refine submit_induct P ndebug hstop hadv ks loop c' done s ?_
        have hne : c ≠ c' := fun h => hop h.symm
        simp only [P, enqueue_other loop c' done s c hne, enqueue_trace]
        exact hs
      | drain ks => exact drain_induct P ndebug hstop hadv ks s hs
      | work_done gs ks => exact work_done_induct P ndebug hstop hadv hget hev gs ks s hs
    · refine ⟨hn, hf, ?_⟩
      intro _
      rw [ht]
      exact ⟨DoneTrace.nil _, by simp [events_of, hd]⟩
  intro hle
  exact hP.2.2 hle

/-- C1: a request `c` with `iocbs_count = n ≥ 1`, `done_iocbs_count = 0` and done closure
`f`; a run of engine operations that does not submit `c` again and in which the
dispatcher processes exactly `n` completion events of `c`, in any number of calls and
batches and interleaved with events of other requests.  Then the closure of `c` is
invoked exactly once, with the counter at `n`: the trace splits at the invocation, which
directly follows the `n`-th event of `c`, and there is no invocation before or after. -/
theorem done_closure_once (ndebug : Bool) (c n f : Nat) (ops : List Op) (s : Machine)
    (hn : (s.reqs c).iocbs_count = n) (h1 : 1 ≤ n) (hU : n < U32)
    (hd : (s.reqs c).done_iocbs_count = 0)
    (hf : (s.reqs c).work_req_done = some f)
    (ht : s.trace = [])
    (hops : c ∉ submitted_reqs ops)
    (hcount : (events_of c (run ndebug ops s).state.trace).length = n) :
    done_calls c (run ndebug ops s).state.trace = 1 ∧
    ((run ndebug ops s).state.reqs c).done_iocbs_count = n ∧
    ∃ t1 e t2, (run ndebug ops s).state.trace = t1 ++ .event e :: .done_call c f 0 :: t2 ∧
      e.data = c ∧ (events_of c t1).length = n - 1 ∧
      done_calls c t1 = 0 ∧ done_calls c t2 = 0 := by
  obtain ⟨htr, hdone⟩ := done_trace_run ndebug c n f hU ops s hops hn hf hd ht (le_of_eq hcount)
  obtain ⟨t1, e, t2, h2, h3, h4, h5, h6⟩ := htr.split (by omega) (by omega)
  refine ⟨?_, hdone.trans hcount, t1, e, t2, h2, h3, by simpa using h4, h5, h6⟩
  rw [h2, done_calls_append]
  simp [done_calls, h5, h6]

/-- C1, at a concrete run: a request with two fragments; its two completions arrive in
two dispatcher calls, the second after an event of another request. -/
theorem done_closure_once_witness :
    done_calls 0 (run false
      [.work_done [.events [⟨0, 13⟩], .events []] [],
       .work_done [.events [⟨1, 5⟩, ⟨0, 13⟩], .fail 4] []]
      (machine1 (inflight_req 2 2 0 0) [])).state.trace = 1 :=
  (done_closure_once false 0 2 9
    [.work_done [.events [⟨0, 13⟩], .events []] [],
     .work_done [.events [⟨1, 5⟩, ⟨0, 13⟩], .fail 4] []]
    (machine1 (inflight_req 2 2 0 0) []) rfl (by decide) (by decide) rfl rfl rfl
    (by decide) (by decide)).1

/-! ## The counter invariant -/

theorem SubmitOK.of_append {t u : List Action} (h : SubmitOK (t ++ u)) : SubmitOK t :=
  fun n b k hm => h n b k (List.mem_append_left _ hm)

theorem u32_sub_le (a b : Nat) (hb : b ≤ a) (ha : a < U32) : u32_sub a b = a - b := by
  unfold u32_sub
  have hb' : b % U32 = b := Nat.mod_eq_of_lt (by omega)
  rw [hb']
  have : a + U32 - b = (a - b) + U32 := by omega
  rw [this, Nat.add_mod_right]
  exact Nat.mod_eq_of_lt (by omega)

theorem pending_count_le (req : uv_fs_t) (h1 : req.submitted_iocbs_count ≤ req.iocbs_count)
    (h2 : req.iocbs_count < U32) :
    pending_count_of req ≤ req.iocbs_count - req.submitted_iocbs_count ∧
    pending_count_of req ≤ UV_AIO_NR_EVENTS := by
  unfold pending_count_of MIN
  rw [u32_sub_le _ _ h1 h2]
  split <;> constructor <;> omega

/-- When the request is consistent, every entry of the batch is filled. -/
theorem batch_ptrs_full (q : Nat) (req : uv_fs_t) (n : Nat)
    (h1 : req.submitted_iocbs_count ≤ req.iocbs_count) (h2 : req.iocbs_count < U32)
    (hn : n ≤ req.iocbs_count - req.submitted_iocbs_count) :
    batch_ptrs q req n
      = (List.range n).map (fun i => some ⟨q, i + req.submitted_iocbs_count⟩) := by
  unfold batch_ptrs
  have hall : (List.range n).takeWhile
      (fun i => decide ((i + req.submitted_iocbs_count) % U32 < req.iocbs_count))
      = List.range n := by
    rw [List.takeWhile_eq_self_iff]
    intro i hi
    have hi' : i < n := List.mem_range.mp hi
    have : (i + req.submitted_iocbs_count) % U32 = i + req.submitted_iocbs_count :=
      Nat.mod_eq_of_lt (by omega)
    simp only [this, decide_eq_true_eq]
    omega
  simp only [hall, List.length_range, Nat.sub_self, List.replicate_zero, List.append_nil]

theorem count_ptrs_batch (c q : Nat) (sub n r : Nat) (hr : r ≤ n) :
    count_ptrs c (((List.range n).map (fun i => some (⟨q, i + sub⟩ : iocb_ptr))).take r)
      = if q = c then r else 0 := by
  unfold count_ptrs
  by_cases h : q = c
  · rw [if_pos h, List.countP_eq_length.mpr]
    · simp [hr]
    · intro p hp
      obtain ⟨i, _, rfl⟩ := List.mem_map.mp (List.mem_of_mem_take hp)
      simp [h]
  · rw [if_neg h, List.countP_eq_zero]
    intro p hp
    obtain ⟨i, _, rfl⟩ := List.mem_map.mp (List.mem_of_mem_take hp)
    simp [h]

theorem delivered_append (c : Nat) (t u : List Action) :
    delivered c (t ++ u) = delivered c t + delivered c u := by
  simp [delivered, events_of_append]

theorem counters_drain_stop (s : Machine) (q : Nat) (k : submit_ret) (hk : k.r < 0)
    (h : SubmitOK s.trace → CountersInv s) :
    SubmitOK (drain_stop s q k).trace → CountersInv (drain_stop s q k) := by
  intro hok
  rw [drain_stop_trace] at hok
  have hI := h hok.of_append
  intro c
  obtain ⟨h1, h2, h3, h4, h5, h6⟩ := hI c
  have hk' : ¬ (0 ≤ k.r) := by omega
  refine ⟨h1, ?_, ?_, h4, h5, h6⟩
  · rw [drain_stop_trace, accepted_append, drain_stop_reqs, h2]
    simp [accepted, hk']
  · rw [drain_stop_trace, delivered_append, drain_stop_reqs]
    simp [delivered, events_of]
    exact h3

theorem counters_drain_advance (s : Machine) (q : Nat) (qs : List Nat) (k : submit_ret)
    (hq : s.queue = q :: qs) (hk : 0 ≤ k.r)
    (h : SubmitOK s.trace → CountersInv s) :
    SubmitOK (drain_advance s q k).trace → CountersInv (drain_advance s q k) := by
  intro hok
  rw [drain_advance_trace] at hok
  have hI := h hok.of_append
  have hr : k.r ≤ (pending_count_of (s.reqs q) : Int) :=
    hok _ _ k (List.mem_append_right _ (List.mem_singleton_self _)) hk
  obtain ⟨q1, q2, q3, q4, q5, q6⟩ := hI q
  have hfrag : (s.reqs q).iocbs ≠ none := by
    intro hnone
    exact (q1 hnone).1 (by rw [hq]; exact List.mem_cons_self _ _)
  have hcU := q5 hfrag
  obtain ⟨hp1, _⟩ := pending_count_le (s.reqs q) q4 hcU
  have hrn : k.r.toNat ≤ pending_count_of (s.reqs q) := by omega
  have hmod : ((s.reqs q).submitted_iocbs_count + k.r.toNat) % U32
      = (s.reqs q).submitted_iocbs_count + k.r.toNat := Nat.mod_eq_of_lt (by omega)
  have hacc : ∀ c, accepted c (drain_advance s q k).trace
      = accepted c s.trace + if q = c then k.r.toNat else 0 := by
    intro c
    rw [drain_advance_trace, accepted_append]
    simp only [accepted, if_pos hk, Nat.add_zero]
    rw [batch_ptrs_full q (s.reqs q) _ q4 hcU hp1, count_ptrs_batch c q _ _ _ hrn]
  have hqueue : ∀ c, c ∉ s.queue → c ∉ (drain_advance s q k).queue := by
    intro c hc
    rw [drain_advance_queue]
    split
    · exact fun hm => hc (List.mem_of_mem_erase hm)
    · exact hc
  have hdel : ∀ c, delivered c (drain_advance s q k).trace = delivered c s.trace := by
    intro c
    rw [drain_advance_trace, delivered_append]
    simp [delivered, events_of]
  intro c
  by_cases hx : c = q
  · subst hx
    rw [drain_advance_same, hacc, hdel, if_pos rfl, hmod]
    refine ⟨fun hn => absurd hn hfrag, by simp only []; omega, q3, by simp only []; omega,
      q5, q6⟩
  · obtain ⟨h1, h2, h3, h4, h5, h6⟩ := hI c
    rw [drain_advance_other _ _ _ _ hx, hacc, hdel, if_neg (fun h => hx h.symm)]
    exact ⟨fun hn => ⟨hqueue c (h1 hn).1, (h1 hn).2⟩, by omega, h3, h4, h5, h6⟩

theorem counters_silent_log (s : Machine) (a : Action)
    (ha : ∀ c, accepted c [a] = 0 ∧ delivered c [a] = 0)
    (h : SubmitOK s.trace → CountersInv s) :
    SubmitOK (s.log a).trace → CountersInv (s.log a) := by
  intro hok
  rw [log_trace] at hok
  have hI := h hok.of_append
  intro c
  obtain ⟨h1, h2, h3, h4, h5, h6⟩ := hI c
  simp only [log_trace, log_reqs, log_queue, accepted_append, delivered_append, (ha c).1,
    (ha c).2, Nat.add_zero]
  exact ⟨h1, h2, h3, h4, h5, h6⟩

theorem process_event_trace_cases (s : Machine) (e : io_event) :
    ∃ l, (process_event s e).trace = s.trace ++ .event e :: l ∧
      (l = [] ∨ ∃ f, l = [.done_call e.data f 0]) := by
  rw [process_event_trace]
  refine ⟨_, rfl, ?_⟩
  split
  · exact Or.inl rfl
  · split
    · exact Or.inr ⟨_, rfl⟩
    · exact Or.inl rfl

theorem counters_process_event (s : Machine) (e : io_event)
    (h : SubmitOK s.trace → CountersInv s) :
    SubmitOK (process_event s e).trace → CountersInv (process_event s e) := by
  intro hok
  have htr : ∃ l, (process_event s e).trace = s.trace ++ .event e :: l ∧
      (∀ c, accepted c (.event e :: l) = 0) ∧
      (∀ c, delivered c (.event e :: l) = if e.data = c then 1 else 0) := by
    obtain ⟨l, hl, hcases⟩ := process_event_trace_cases s e
    refine ⟨l, hl, ?_, ?_⟩
    · intro c
      rcases hcases with rfl | ⟨f, rfl⟩ <;> rfl
    · intro c
      rcases hcases with rfl | ⟨f, rfl⟩ <;> simp only [delivered, events_of] <;> split <;> rfl
  obtain ⟨l, hl, hacc, hdel⟩ := htr
  rw [hl] at hok
  have hI := h hok.of_append
  intro c
  obtain ⟨h1, h2, h3, h4, h5, h6⟩ := hI c
  rw [hl, accepted_append, delivered_append, hacc, hdel, process_event_queue]
  by_cases hx : e.data = c
  · subst hx
    rw [process_event_same, if_pos rfl]
    have hle : ((s.reqs e.data).done_iocbs_count + 1) % U32
        ≤ (s.reqs e.data).done_iocbs_count + 1 := Nat.mod_le _ _
    exact ⟨h1, h2, by simp only []; omega, h4, h5, h6⟩
  · rw [process_event_other _ _ _ (fun h => hx h.symm), if_neg hx]
    exact ⟨h1, h2, h3, h4, h5, h6⟩

theorem counters_enqueue (loop c' : Nat) (done : Option Nat) (s : Machine)
    (h : SubmitOK s.trace → CountersInv s) :
    SubmitOK (aio_submit_enqueue loop c' done s).state.trace →
      CountersInv (aio_submit_enqueue loop c' done s).state := by
  intro hok
  rw [enqueue_trace] at hok
  have hI := h hok
  intro c
  obtain ⟨h1, h2, h3, h4, h5, h6⟩ := hI c
  rw [enqueue_trace]
  by_cases hx : c = c'
  · subst hx
    unfold aio_submit_enqueue
    simp only []
    split
    · rename_i hnone
      split
      · simp only [UNREACHABLE, Outcome.state, set_req_same, set_req_queue]
        exact ⟨h1, h2, h3, h4, h5, h6⟩
      · simp only [Outcome.state, set_queue_reqs, set_req_same, uv_fs_t.nbufs]
        refine ⟨fun hn => (by simp at hn), ?_, h3, Nat.zero_le _, fun _ => h6, h6⟩
        rw [← h2]; exact ((h1 hnone).2).symm
    · rename_i x hsome
      simp only [Outcome.state, set_queue_reqs, set_req_same]
      exact ⟨fun hn => (by rw [hn] at hsome; cases hsome), h2, h3, h4, h5, h6⟩
  · rw [enqueue_other loop c' done s c hx]
    refine ⟨fun hn => ⟨?_, (h1 hn).2⟩, h2, h3, h4, h5, h6⟩
    have hnq := (h1 hn).1
    unfold aio_submit_enqueue
    simp only []
    split
    · split
      · simpa [UNREACHABLE, Outcome.state] using hnq
      · simp only [Outcome.state, set_queue_queue, set_req_queue, QUEUE_INSERT_TAIL]
        simp [hnq, hx]
    · simp only [Outcome.state, set_queue_queue, set_req_queue, QUEUE_INSERT_TAIL]
      simp [hnq, hx]

theorem submitOK_of_check (t : List Action) (h : t.all submit_ok = true) : SubmitOK t := by
  intro n b k hm hk
  have := List.all_eq_true.mp h _ hm
  simp only [submit_ok, decide_eq_true_eq] at this
  exact this hk

theorem exists_event_of_delivered (c : Nat) :
    ∀ p : List Action, 0 < delivered c p → ∃ e, Action.event e ∈ p ∧ e.data = c := by
  intro p
  induction p with
  | nil => intro h; simp [delivered, events_of] at h
  | cons a p ih =>
    intro h
    cases a with
    | event e =>
      by_cases hx : e.data = c
      · exact ⟨e, List.mem_cons_self _ _, hx⟩
      · have h' : 0 < delivered c p := by
          simpa [delivered, events_of, hx] using h
        obtain ⟨e', he', hd⟩ := ih h'
        exact ⟨e', List.mem_cons_of_mem _ he', hd⟩
    | io_submit n b k =>
      obtain ⟨e', he', hd⟩ := ih (by simpa [delivered, events_of] using h)
      exact ⟨e', List.mem_cons_of_mem _ he', hd⟩
    | io_getevents a b r =>
      obtain ⟨e', he', hd⟩ := ih (by simpa [delivered, events_of] using h)
      exact ⟨e', List.mem_cons_of_mem _ he', hd⟩
    | done_call r f st =>
      obtain ⟨e', he', hd⟩ := ih (by simpa [delivered, events_of] using h)
      exact ⟨e', List.mem_cons_of_mem _ he', hd⟩

theorem completionsOK_of_check (t : List Action) (h : completions_check t = true) :
    CompletionsOK t := by
  intro p hp c
  by_cases h0 : delivered c p = 0
  · omega
  · obtain ⟨e, he, hd⟩ := exists_event_of_delivered c p (by omega)
    have h1 := List.all_eq_true.mp h p ((List.mem_inits _ _).mpr hp)
    have h2 := List.all_eq_true.mp h1 _ he
    simp only [decide_eq_true_eq] at h2
    rw [hd] at h2
    exact h2

/-- Every operation keeps the bookkeeping, as long as the kernel returns at most the batch
size. -/
theorem counters_run (ndebug : Bool) (ops : List Op) (s : Machine)
    (h : SubmitOK s.trace → CountersInv s) :
    SubmitOK (run ndebug ops s).state.trace → CountersInv (run ndebug ops s).state := by
  have hstop : ∀ (s : Machine) (q : Nat) (qs : List Nat) (k : submit_ret),
      s.queue = q :: qs → k.r < 0 → (SubmitOK s.trace → CountersInv s) →
      (SubmitOK (drain_stop s q k).trace → CountersInv (drain_stop s q k)) :=
    fun s q _ k _ hk hs => counters_drain_stop s q k hk hs
  have hadv : ∀ (s : Machine) (q : Nat) (qs : List Nat) (k : submit_ret),
      s.queue = q :: qs → 0 ≤ k.r → (SubmitOK s.trace → CountersInv s) →
      (SubmitOK (drain_advance s q k).trace → CountersInv (drain_advance s q k)) :=
    fun s q qs k hq hk hs => counters_drain_advance s q qs k hq hk hs
  refine run_induct (fun s => SubmitOK s.trace → CountersInv s) ndebug (fun _ => True) ?_
    ops s (fun _ _ => trivial) h
  intro op s _ hs
  cases op with
  | submit ks loop c' done =>
    exact submit_induct _ ndebug hstop hadv ks loop c' done s (counters_enqueue loop c' done s hs)
  | drain ks => exact drain_induct _ ndebug hstop hadv ks s hs
  | work_done gs ks =>
    exact work_done_induct _ ndebug hstop hadv
      (fun s r hs => counters_silent_log s _ (fun c => ⟨rfl, rfl⟩) hs)
      (fun s e hs => counters_process_event s e hs) gs ks s hs

theorem fresh_counters (s : Machine) (h : Fresh s) : CountersInv s := by
  obtain ⟨hq, ht, hr⟩ := h
  intro c
  obtain ⟨h1, h2, h3, h4⟩ := hr c
  rw [ht, hq, h2, h3]
  exact ⟨fun _ => ⟨by simp, rfl⟩, rfl, Nat.zero_le _, Nat.zero_le _,
    fun hne => absurd h1 hne, h4⟩

/-- C6: from a fresh state, in the state reached by any run of engine operations, if every
successful submit-batch call returned at most the batch size it was passed and the kernel
never delivered more completion events for a request than control blocks it had accepted
for it, every request has `0 ≤ done_iocbs_count ≤ submitted_iocbs_count ≤ iocbs_count`. -/
theorem counters_invariant (ndebug : Bool) (ops : List Op) (s : Machine) (hinit : Fresh s)
    (hsub : SubmitOK (run ndebug ops s).state.trace)
    (hcomp : CompletionsOK (run ndebug ops s).state.trace) (c : Nat) :
    0 ≤ ((run ndebug ops s).state.reqs c).done_iocbs_count ∧
    ((run ndebug ops s).state.reqs c).done_iocbs_count
      ≤ ((run ndebug ops s).state.reqs c).submitted_iocbs_count ∧
    ((run ndebug ops s).state.reqs c).submitted_iocbs_count
      ≤ ((run ndebug ops s).state.reqs c).iocbs_count := by
  obtain ⟨_, h2, h3, h4, _, _⟩ :=
    counters_run ndebug ops s (fun _ => fresh_counters s hinit) hsub c
  have h5 := hcomp _ (List.prefix_refl _) c
  exact ⟨Nat.zero_le _, by omega, h4⟩

/-- C6, at a concrete run: a request of three buffers is submitted, the kernel takes two
control blocks and then answers `EAGAIN`; one completion arrives and the drain that
follows submits the last block. -/
theorem counters_invariant_witness :
    0 ≤ ((run false
        [.submit [⟨2, 0⟩, ⟨-1, EAGAIN⟩] 1 0 (some 9),
         .work_done [.events [⟨0, 13⟩], .events []] [⟨1, 0⟩]]
        (machine0 [⟨100, 13⟩, ⟨200, 5⟩, ⟨300, 7⟩] (-1))).state.reqs 0).done_iocbs_count ∧
    ((run false
        [.submit [⟨2, 0⟩, ⟨-1, EAGAIN⟩] 1 0 (some 9),
         .work_done [.events [⟨0, 13⟩], .events []] [⟨1, 0⟩]]
        (machine0 [⟨100, 13⟩, ⟨200, 5⟩, ⟨300, 7⟩] (-1))).state.reqs 0).done_iocbs_count
      ≤ ((run false
        [.submit [⟨2, 0⟩, ⟨-1, EAGAIN⟩] 1 0 (some 9),
         .work_done [.events [⟨0, 13⟩], .events []] [⟨1, 0⟩]]
        (machine0 [⟨100, 13⟩, ⟨200, 5⟩, ⟨300, 7⟩] (-1))).state.reqs 0).submitted_iocbs_count ∧
    ((run false
        [.submit [⟨2, 0⟩, ⟨-1, EAGAIN⟩] 1 0 (some 9),
         .work_done [.events [⟨0, 13⟩], .events []] [⟨1, 0⟩]]
        (machine0 [⟨100, 13⟩, ⟨200, 5⟩, ⟨300, 7⟩] (-1))).state.reqs 0).submitted_iocbs_count
      ≤ ((run false
        [.submit [⟨2, 0⟩, ⟨-1, EAGAIN⟩] 1 0 (some 9),
         .work_done [.events [⟨0, 13⟩], .events []] [⟨1, 0⟩]]
        (machine0 [⟨100, 13⟩, ⟨200, 5⟩, ⟨300, 7⟩] (-1))).state.reqs 0).iocbs_count :=
  counters_invariant false
    [.submit [⟨2, 0⟩, ⟨-1, EAGAIN⟩] 1 0 (some 9),
     .work_done [.events [⟨0, 13⟩], .events []] [⟨1, 0⟩]]
    (machine0 [⟨100, 13⟩, ⟨200, 5⟩, ⟨300, 7⟩] (-1))
    ⟨rfl, rfl, fun _ => ⟨rfl, rfl, rfl, (by show (3 : Nat) < U32; decide)⟩⟩
    (submitOK_of_check _ (by decide)) (completionsOK_of_check _ (by decide)) 0

/-! ## The queue-membership invariant -/

theorem queue_drain_stop (B : Nat → List uv_buf_t) (S : Nat → Prop) (s : Machine) (q : Nat)
    (k : submit_ret) (h : SubmitOK s.trace → QueueInv B S s) :
    SubmitOK (drain_stop s q k).trace → QueueInv B S (drain_stop s q k) := by
  intro hok
  rw [drain_stop_trace] at hok
  exact h hok.of_append

theorem queue_drain_advance (B : Nat → List uv_buf_t) (S : Nat → Prop) (s : Machine)
    (q : Nat) (qs : List Nat) (k : submit_ret) (hq : s.queue = q :: qs) (hk : 0 ≤ k.r)
    (h : SubmitOK s.trace → QueueInv B S s) :
    SubmitOK (drain_advance s q k).trace → QueueInv B S (drain_advance s q k) := by
  intro hok
  rw [drain_advance_trace] at hok
  obtain ⟨hnd, hb, hS, hnS⟩ := h hok.of_append
  have hr : k.r ≤ (pending_count_of (s.reqs q) : Int) :=
    hok _ _ k (List.mem_append_right _ (List.mem_singleton_self _)) hk
  have hqmem : q ∈ s.queue := by rw [hq]; exact List.mem_cons_self _ _
  have hSq : S q := by
    by_contra hn
    exact (hnS q hn).2 hqmem
  obtain ⟨q1, q2, q3, q4⟩ := hS q hSq
  obtain ⟨hp1, _⟩ := pending_count_le (s.reqs q) q3 q2
  have hmod : ((s.reqs q).submitted_iocbs_count + k.r.toNat) % U32
      = (s.reqs q).submitted_iocbs_count + k.r.toNat := Nat.mod_eq_of_lt (by omega)
  have hqueue : (drain_advance s q k).queue =
      if (s.reqs q).submitted_iocbs_count + k.r.toNat ≥ (s.reqs q).iocbs_count
      then s.queue.erase q else s.queue := by
    rw [drain_advance_queue, hmod]
  refine ⟨?_, ?_, ?_, ?_⟩
  · rw [hqueue]
    split
    · exact hnd.erase q
    · exact hnd
  · intro c
    by_cases hx : c = q
    · subst hx; rw [drain_advance_same]; exact hb c
    · rw [drain_advance_other _ _ _ _ hx]; exact hb c
  · intro c hc
    by_cases hx : c = q
    · subst hx
      rw [drain_advance_same, hqueue, hmod]
      refine ⟨q1, q2, by simp only []; omega, ?_⟩
      simp only []
      split
      · rename_i hge
        constructor
        · intro hm
          exact absurd hm (hnd.not_mem_erase)
        · intro hlt; omega
      · rename_i hlt
        exact ⟨fun _ => by omega, fun _ => hqmem⟩
    · obtain ⟨c1, c2, c3, c4⟩ := hS c hc
      rw [drain_advance_other _ _ _ _ hx, hqueue]
      refine ⟨c1, c2, c3, ?_⟩
      split
      · rw [List.mem_erase_of_ne hx]; exact c4
      · exact c4
  · intro c hc
    have hx : c ≠ q := fun h => hc (h ▸ hSq)
    rw [drain_advance_other _ _ _ _ hx, hqueue]
    refine ⟨(hnS c hc).1, ?_⟩
    split
    · exact fun hm => (hnS c hc).2 (List.mem_of_mem_erase hm)
    · exact (hnS c hc).2

theorem queue_log (B : Nat → List uv_buf_t) (S : Nat → Prop) (s : Machine) (a : Action)
    (h : SubmitOK s.trace → QueueInv B S s) :
    SubmitOK (s.log a).trace → QueueInv B S (s.log a) := by
  intro hok
  rw [log_trace] at hok
  exact h hok.of_append

theorem queue_process_event (B : Nat → List uv_buf_t) (S : Nat → Prop) (s : Machine)
    (e : io_event) (h : SubmitOK s.trace → QueueInv B S s) :
    SubmitOK (process_event s e).trace → QueueInv B S (process_event s e) := by
  intro hok
  obtain ⟨l, hl, _⟩ := process_event_trace_cases s e
  rw [hl] at hok
  obtain ⟨hnd, hb, hS, hnS⟩ := h hok.of_append
  have hfield : ∀ c, ((process_event s e).reqs c).bufs = (s.reqs c).bufs ∧
      ((process_event s e).reqs c).iocbs = (s.reqs c).iocbs ∧
      ((process_event s e).reqs c).iocbs_count = (s.reqs c).iocbs_count ∧
      ((process_event s e).reqs c).submitted_iocbs_count
        = (s.reqs c).submitted_iocbs_count := by
    intro c
    by_cases hx : c = e.data
    · subst hx; rw [process_event_same]; exact ⟨rfl, rfl, rfl, rfl⟩
    · rw [process_event_other _ _ _ hx]; exact ⟨rfl, rfl, rfl, rfl⟩
  refine ⟨by rw [process_event_queue]; exact hnd, fun c => by rw [(hfield c).1]; exact hb c,
    ?_, ?_⟩
  · intro c hc
    obtain ⟨f1, f2, f3, f4⟩ := hfield c
    rw [f2, f3, f4, process_event_queue]
    exact hS c hc
  · intro c hc
    rw [(hfield c).2.1, process_event_queue]
    exact hnS c hc

theorem queue_enqueue (B : Nat → List uv_buf_t) (S : Nat → Prop) (loop c' : Nat)
    (done : Option Nat) (s s1 : Machine) (hnew : ¬ S c') (h1 : 1 ≤ (B c').length)
    (hU : (B c').length < U32)
    (h : SubmitOK s.trace → QueueInv B S s)
    (hret : aio_submit_enqueue loop c' done s = .returned s1) :
    SubmitOK s1.trace → QueueInv B (fun c => S c ∨ c = c') s1 := by
  intro hok
  have htr : s1.trace = s.trace := by
    have := enqueue_trace loop c' done s
    rw [hret] at this
    exact this
  rw [htr] at hok
  obtain ⟨hnd, hb, hS, hnS⟩ := h hok
  obtain ⟨hnone, hnq⟩ := hnS c' hnew
  cases hfill : fill_iocbs c' (s.reqs c').fs_type (s.reqs c').file s.wq_aio.aio_io_watcher_fd
      (s.reqs c').bufs (start_offset (s.reqs c').off) with
  | none =>
    unfold aio_submit_enqueue at hret
    simp only [hnone, hfill, UNREACHABLE] at hret
    cases hret
  | some blks =>
    rw [enqueue_fresh loop c' done s blks hnone hfill] at hret
    cases hret
    refine ⟨?_, ?_, ?_, ?_⟩
    · simp only [set_queue_queue]
      exact List.Nodup.append hnd (List.nodup_singleton _) (by simpa using hnq)
    · intro c
      by_cases hx : c = c'
      · subst hx; simp only [set_queue_reqs, set_req_same]; exact hb c
      · simp only [set_queue_reqs]; rw [set_req_other _ _ _ _ hx]; exact hb c
    · intro c hc
      by_cases hx : c = c'
      · subst hx
        simp only [set_queue_reqs, set_req_same, set_queue_queue]
        rw [hb c]
        exact ⟨by simp, hU, Nat.zero_le _, by simp; omega⟩
      · have hSc : S c := hc.resolve_right hx
        obtain ⟨c1, c2, c3, c4⟩ := hS c hSc
        simp only [set_queue_reqs, set_queue_queue]
        rw [set_req_other _ _ _ _ hx]
        refine ⟨c1, c2, c3, ?_⟩
        rw [List.mem_append, List.mem_singleton, ← c4]
        exact ⟨fun hm => hm.resolve_right hx, Or.inl⟩
    · intro c hc
      have hx : c ≠ c' := fun h => hc (Or.inr h)
      have hSc : ¬ S c := fun h => hc (Or.inl h)
      simp only [set_queue_reqs, set_queue_queue]
      rw [set_req_other _ _ _ _ hx]
      refine ⟨(hnS c hSc).1, ?_⟩
      rw [List.mem_append, List.mem_singleton]
      exact fun hm => hm.elim (hnS c hSc).2 hx

theorem QueueInv.congr {B : Nat → List uv_buf_t} {S S' : Nat → Prop} {s : Machine}
    (hS : ∀ c, S c ↔ S' c) (h : QueueInv B S s) : QueueInv B S' s := by
  obtain ⟨h1, h2, h3, h4⟩ := h
  exact ⟨h1, h2, fun c hc => h3 c ((hS c).mpr hc), fun c hc => h4 c (fun h => hc ((hS c).mp h))⟩

theorem queue_drain (ndebug : Bool) (B : Nat → List uv_buf_t) (S : Nat → Prop)
    (ks : List submit_ret) (s s1 : Machine) (h : SubmitOK s.trace → QueueInv B S s)
    (hret : uv__aio_drain_pending_queue ndebug ks s = .returned s1) :
    SubmitOK s1.trace → QueueInv B S s1 := by
  have := drain_induct (fun s => SubmitOK s.trace → QueueInv B S s) ndebug
    (fun s q _ k _ _ hs => queue_drain_stop B S s q k hs)
    (fun s q qs k hq hk hs => queue_drain_advance B S s q qs k hq hk hs) ks s h
  rw [hret] at this
  exact this

/-- Every operation that returns keeps the bookkeeping of the queue; a submission adds its
request to the submitted ones. -/
theorem queue_run (ndebug : Bool) (B : Nat → List uv_buf_t) :
    ∀ (ops : List Op) (S : Nat → Prop) (s s' : Machine),
      (SubmitOK s.trace → QueueInv B S s) →
      run ndebug ops s = .returned s' →
      (submitted_reqs ops).Nodup →
      (∀ c ∈ submitted_reqs ops, ¬ S c ∧ 1 ≤ (B c).length ∧ (B c).length < U32) →
      SubmitOK s'.trace → QueueInv B (fun c => S c ∨ c ∈ submitted_reqs ops) s' := by
  intro ops
  induction ops with
  | nil =>
    intro S s s' h hrun _ _ hok
    simp only [run] at hrun
    cases hrun
    exact (h hok).congr (fun c => by simp [submitted_reqs])
  | cons op ops ih =>
    intro S s s' h hrun hnd hnew hok
    simp only [run] at hrun
    cases hstep : step ndebug op s with
    | aborted s1 => rw [hstep] at hrun; cases hrun
    | starved s1 => rw [hstep] at hrun; cases hrun
    | returned s1 =>
      rw [hstep] at hrun
      simp only [] at hrun
      cases op with
      | submit ks loop c' done =>
        simp only [submitted_reqs, List.nodup_cons] at hnd
        simp only [step, uv__aio_submit] at hstep
        cases henq : aio_submit_enqueue loop c' done s with
        | aborted se => rw [henq] at hstep; cases hstep
        | starved se => rw [henq] at hstep; cases hstep
        | returned se =>
          rw [henq] at hstep
          simp only [] at hstep
          obtain ⟨hn1, hn2, hn3⟩ := hnew c' (by simp [submitted_reqs])
          have hse := queue_enqueue B S loop c' done s se hn1 hn2 hn3 h henq
          have hs1 := queue_drain ndebug B _ ks se s1 hse hstep
          have hfin := ih (fun c => S c ∨ c = c') s1 s' hs1 hrun hnd.2
            (fun c hc => by
              obtain ⟨a1, a2, a3⟩ := hnew c (by simp [submitted_reqs, hc])
              refine ⟨?_, a2, a3⟩
              rintro (hS | rfl)
              · exact a1 hS
              · exact hnd.1 hc) hok
          exact hfin.congr (fun c => by simp [submitted_reqs, or_assoc])
      | drain ks =>
        simp only [step] at hstep
        have hs1 := queue_drain ndebug B S ks s s1 h hstep
        exact ih S s1 s' hs1 hrun hnd hnew hok
      | work_done gs ks =>
        simp only [step, uv__aio_work_done] at hstep
        have hg := getevents_induct (fun s => SubmitOK s.trace → QueueInv B S s)
          (fun s r hs => queue_log B S s _ hs)
          (fun s e hs => queue_process_event B S s e hs) gs s h
        cases hge : getevents_loop gs s with
        | aborted se => rw [hge] at hstep; cases hstep
        | starved se => rw [hge] at hstep; cases hstep
        | returned se =>
          rw [hge] at hstep hg
          simp only [] at hstep
          have hs1 := queue_drain ndebug B S ks se s1 hg hstep
          exact ih S s1 s' hs1 hrun hnd hnew hok

/-- C7: from a fresh state, after a run of engine operations that returns, in which every
request is submitted at most once and with at least one buffer, and in which every
successful submit-batch call returned at most the batch size it was passed: a submitted
request is in the pending queue if and only if its `submitted_iocbs_count` is less than
its `iocbs_count`. -/
theorem queue_membership (ndebug : Bool) (ops : List Op) (s s' : Machine) (hinit : Fresh s)
    (hnodup : (submitted_reqs ops).Nodup)
    (hnb : ∀ c ∈ submitted_reqs ops, 1 ≤ (s.reqs c).bufs.length)
    (hrun : run ndebug ops s = .returned s')
    (hsub : SubmitOK s'.trace) :
    ∀ c ∈ submitted_reqs ops,
      (c ∈ s'.queue ↔ (s'.reqs c).submitted_iocbs_count < (s'.reqs c).iocbs_count) := by
  obtain ⟨hq, _, hr⟩ := hinit
  have h0 : SubmitOK s.trace → QueueInv (fun c => (s.reqs c).bufs) (fun _ => False) s := by
    intro _
    refine ⟨by rw [hq]; exact List.nodup_nil, fun _ => rfl, fun c hc => hc.elim, ?_⟩
    intro c _
    exact ⟨(hr c).1, by rw [hq]; simp⟩
  obtain ⟨_, _, h3, _⟩ := queue_run ndebug _ ops _ s s' h0 hrun hnodup
    (fun c hc => ⟨fun hf => hf, hnb c hc, (hr c).2.2.2⟩) hsub
  intro c hc
  exact (h3 c (Or.inr hc)).2.2.2

/-- C7, at a concrete run: two requests of three buffers are submitted; the kernel takes
two blocks of the first and answers `EAGAIN`; after a completion the drain submits the
last block of the first request and the second answers `EAGAIN` again. -/
theorem queue_membership_witness :
    (0 ∈ (run false
        [.submit [⟨2, 0⟩, ⟨-1, EAGAIN⟩] 1 0 (some 9),
         .submit [⟨-1, EAGAIN⟩] 1 1 (some 9),
         .work_done [.events [⟨0, 13⟩], .events []] [⟨1, 0⟩, ⟨-1, EAGAIN⟩]]
        (machine0 [⟨100, 13⟩, ⟨200, 5⟩, ⟨300, 7⟩] (-1))).state.queue ↔
     ((run false
        [.submit [⟨2, 0⟩, ⟨-1, EAGAIN⟩] 1 0 (some 9),
         .submit [⟨-1, EAGAIN⟩] 1 1 (some 9),
         .work_done [.events [⟨0, 13⟩], .events []] [⟨1, 0⟩, ⟨-1, EAGAIN⟩]]
        (machine0 [⟨100, 13⟩, ⟨200, 5⟩, ⟨300, 7⟩] (-1))).state.reqs 0).submitted_iocbs_count
      < ((run false
        [.submit [⟨2, 0⟩, ⟨-1, EAGAIN⟩] 1 0 (some 9),
         .submit [⟨-1, EAGAIN⟩] 1 1 (some 9),
         .work_done [.events [⟨0, 13⟩], .events []] [⟨1, 0⟩, ⟨-1, EAGAIN⟩]]
        (machine0 [⟨100, 13⟩, ⟨200, 5⟩, ⟨300, 7⟩] (-1))).state.reqs 0).iocbs_count) :=
  queue_membership false
    [.submit [⟨2, 0⟩, ⟨-1, EAGAIN⟩] 1 0 (some 9),
     .submit [⟨-1, EAGAIN⟩] 1 1 (some 9),
     .work_done [.events [⟨0, 13⟩], .events []] [⟨1, 0⟩, ⟨-1, EAGAIN⟩]]
    (machine0 [⟨100, 13⟩, ⟨200, 5⟩, ⟨300, 7⟩] (-1)) _
    ⟨rfl, rfl, fun _ => ⟨rfl, rfl, rfl, (by show (3 : Nat) < U32; decide)⟩⟩
    (by decide) (fun _ _ => (by show 1 ≤ (3 : Nat); decide)) (by rfl)
    (submitOK_of_check _ (by decide)) 0 (by decide)

/-! ## Status of the done closure; zero-length fragments -/

/-- Every invocation of a done closure that a run adds to the trace has status 0. -/
theorem done_status_run (ndebug : Bool) (ops : List Op) (s : Machine)
    (h : ∀ c f st, Action.done_call c f st ∈ s.trace → st = 0) :
    ∀ c f st, Action.done_call c f st ∈ (run ndebug ops s).state.trace → st = 0 := by
  have hlog : ∀ (s : Machine) (a : Action), (∀ c f st, a ≠ .done_call c f st) →
      (∀ c f st, Action.done_call c f st ∈ s.trace → st = 0) →
      ∀ c f st, Action.done_call c f st ∈ (s.log a).trace → st = 0 := by
    intro s a ha hs c f st hm
    rw [log_trace, List.mem_append, List.mem_singleton] at hm
    rcases hm with hm | hm
    · exact hs c f st hm
    · exact absurd hm.symm (ha c f st)
  have hstop : ∀ (s : Machine) (q : Nat) (qs : List Nat) (k : submit_ret),
      s.queue = q :: qs → k.r < 0 →
      (∀ c f st, Action.done_call c f st ∈ s.trace → st = 0) →
      ∀ c f st, Action.done_call c f st ∈ (drain_stop s q k).trace → st = 0 :=
    fun s q _ k _ _ hs => hlog s _ (fun _ _ _ h => by cases h) hs
  have hadv : ∀ (s : Machine) (q : Nat) (qs : List Nat) (k : submit_ret),
      s.queue = q :: qs → 0 ≤ k.r →
      (∀ c f st, Action.done_call c f st ∈ s.trace → st = 0) →
      ∀ c f st, Action.done_call c f st ∈ (drain_advance s q k).trace → st = 0 := by
    intro s q _ k _ _ hs c f st hm
    rw [drain_advance_trace] at hm
    exact hlog s _ (fun _ _ _ h => by cases h) hs c f st hm
  have hev : ∀ (s : Machine) (e : io_event),
      (∀ c f st, Action.done_call c f st ∈ s.trace → st = 0) →
      ∀ c f st, Action.done_call c f st ∈ (process_event s e).trace → st = 0 := by
    intro s e hs c f st hm
    obtain ⟨l, hl, hcases⟩ := process_event_trace_cases s e
    rw [hl, List.mem_append, List.mem_cons] at hm
    rcases hm with hm | hm | hm
    · exact hs c f st hm
    · cases hm
    · rcases hcases with rfl | ⟨g, rfl⟩
      · cases hm
      · rw [List.mem_singleton] at hm
        cases hm; rfl
  refine run_induct (fun s => ∀ c f st, Action.done_call c f st ∈ s.trace → st = 0)
    ndebug (fun _ => True) ?_ ops s (fun _ _ => trivial) h
  intro op s _ hs
  cases op with
  | submit ks loop c' done =>
    refine submit_induct _ ndebug hstop hadv ks loop c' done s ?_
    rw [enqueue_trace]; exact hs
  | drain ks => exact drain_induct _ ndebug hstop hadv ks s hs
  | work_done gs ks =>
    exact work_done_induct _ ndebug hstop hadv
      (fun s r hs => hlog s _ (fun _ _ _ h => by cases h) hs) hev gs ks s hs

/-- C17: in the trace of every run of engine operations that starts with an empty trace,
every invocation of a done closure has status 0, whatever the results of the completion
events are. -/
theorem done_status_zero (ndebug : Bool) (ops : List Op) (s : Machine) (ht : s.trace = [])
    (c f : Nat) (st : Int)
    (hm : Action.done_call c f st ∈ (run ndebug ops s).state.trace) : st = 0 :=
  done_status_run ndebug ops s (fun _ _ _ h => by rw [ht] at h; cases h) c f st hm

/-- C17, at a concrete run: both fragments of a request fail; the closure is invoked with
status 0 and the failure is in the aggregated result. -/
theorem done_status_zero_witness :
    Action.done_call 0 9 (0 : Int) ∈ (run false
        [.work_done [.events [⟨0, -5⟩, ⟨0, -9⟩], .events []] []]
        (machine1 (inflight_req 2 2 0 0) [])).state.trace ∧
    ((run false [.work_done [.events [⟨0, -5⟩, ⟨0, -9⟩], .events []] []]
        (machine1 (inflight_req 2 2 0 0) [])).state.reqs 0).result = -9 ∧
    (0 : Int) = 0 :=
  ⟨by decide, by decide,
    done_status_zero false [.work_done [.events [⟨0, -5⟩, ⟨0, -9⟩], .events []] []]
      (machine1 (inflight_req 2 2 0 0) []) rfl 0 9 0 (by decide)⟩

/-- C20 (the code at the failing input): a request whose aggregated result is `-5` after
a failed fragment receives the completion of a zero-length fragment, `res = 0`; the
dispatcher sets the aggregated result to `0`. -/
theorem zero_length_overwrites_error :
    ((machine1 (inflight_req 2 2 1 (-5)) []).reqs 0).result = -5 ∧
    ((uv__aio_work_done false [.events [⟨0, 0⟩], .events []] []
        (machine1 (inflight_req 2 2 1 (-5)) [])).state.reqs 0).result = 0 := by
  decide

/-! ## The fields of the control blocks -/

/-- The fields other than the offset that the fragmenting loop writes. -/
theorem fill_iocbs_fields (c : Nat) (ty : uv_fs_type) (file resfd : Int) (op : Nat)
    (hop : opcode_of ty = some op) :
    ∀ (bufs : List uv_buf_t) (o : Int),
      ∃ blks, fill_iocbs c ty file resfd bufs o = some blks ∧
        blks.map (fun b => (b.aio_lio_opcode, b.aio_fildes, b.aio_buf, b.aio_nbytes,
            b.aio_data, b.aio_flags, b.aio_resfd))
          = bufs.map (fun u =>
              (op, to_u32 file, u.base, u.len, c, IOCB_FLAG_RESFD, to_u32 resfd)) := by
  intro bufs
  induction bufs with
  | nil => intro o; exact ⟨[], rfl, rfl⟩
  | cons b bs ih =>
    intro o
    obtain ⟨rest, hrest, hmap⟩ := ih (to_s64 (o + b.len))
    refine ⟨({ aio_data := c, aio_lio_opcode := op, aio_fildes := to_u32 file,
                aio_buf := b.base, aio_nbytes := b.len, aio_offset := o,
                aio_flags := IOCB_FLAG_RESFD, aio_resfd := to_u32 resfd } : iocb) :: rest,
      ?_, ?_⟩
    · simp only [fill_iocbs, hop, hrest]
    · simp only [List.map_cons, hmap]

/-- A value in the range of `__u32` is its own conversion. -/
theorem to_u32_id (x : Int) (h0 : 0 ≤ x) (h1 : x < 2 ^ 32) : ((to_u32 x : Nat) : Int) = x := by
  unfold to_u32
  rw [Int.emod_eq_of_lt h0 h1]
  exact Int.toNat_of_nonneg h0

/-- C19: for a read or write request that has not been fragmented, with `n` buffers,
`uv__aio_submit` sets `iocbs_count = n` and `submitted_iocbs_count = 0` before it drains,
and builds `n` control blocks; block `i` has the opcode of the request type (`PREAD` for a
read, `PWRITE` for a write), the file descriptor of the request, base and length of buffer
`i`, the address of the request as cookie, the flag `IOCB_FLAG_RESFD` and the eventfd of
the engine.  The two descriptors are `int` values stored in `__u32` fields: what is stored
is their conversion, which for a descriptor that is not negative is the descriptor itself.
The drain that follows leaves the blocks and `iocbs_count` as they are. -/
theorem fragment_fields (ndebug : Bool) (ks : List submit_ret) (loop c : Nat)
    (done : Option Nat) (s : Machine)
    (hnull : (s.reqs c).iocbs = none)
    (hty : (s.reqs c).fs_type ≠ .UV_FS_OTHER) :
    ∃ blks s1, aio_submit_enqueue loop c done s = .returned s1 ∧
      uv__aio_submit ndebug ks loop c done s = uv__aio_drain_pending_queue ndebug ks s1 ∧
      (s1.reqs c).iocbs = some blks ∧
      (s1.reqs c).iocbs_count = (s.reqs c).nbufs ∧
      (s1.reqs c).submitted_iocbs_count = 0 ∧
      ((uv__aio_submit ndebug ks loop c done s).state.reqs c).iocbs = some blks ∧
      ((uv__aio_submit ndebug ks loop c done s).state.reqs c).iocbs_count = (s.reqs c).nbufs ∧
      blks.length = (s.reqs c).nbufs ∧
      blks.map (fun b => (b.aio_lio_opcode, b.aio_fildes, b.aio_buf, b.aio_nbytes,
          b.aio_data, b.aio_flags, b.aio_resfd))
        = (s.reqs c).bufs.map (fun u =>
            (if (s.reqs c).fs_type = .UV_FS_READ then IOCB_CMD_PREAD else IOCB_CMD_PWRITE,
             to_u32 (s.reqs c).file, u.base, u.len, c, IOCB_FLAG_RESFD,
             to_u32 s.wq_aio.aio_io_watcher_fd)) ∧
      (0 ≤ (s.reqs c).file → (s.reqs c).file < 2 ^ 32 →
        ∀ b ∈ blks, ((b.aio_fildes : Nat) : Int) = (s.reqs c).file) ∧
      (0 ≤ s.wq_aio.aio_io_watcher_fd → s.wq_aio.aio_io_watcher_fd < 2 ^ 32 →
        ∀ b ∈ blks, ((b.aio_resfd : Nat) : Int) = s.wq_aio.aio_io_watcher_fd) := by
  have hop : opcode_of (s.reqs c).fs_type = some
      (if (s.reqs c).fs_type = .UV_FS_READ then IOCB_CMD_PREAD else IOCB_CMD_PWRITE) := by
    cases hft : (s.reqs c).fs_type
    · rfl
    · rfl
    · exact absurd hft hty
  obtain ⟨blks, hfill, hmap⟩ := fill_iocbs_fields c (s.reqs c).fs_type (s.reqs c).file
    s.wq_aio.aio_io_watcher_fd _ hop (s.reqs c).bufs (start_offset (s.reqs c).off)
  have henq := enqueue_fresh loop c done s blks hnull hfill
  have hlen : blks.length = (s.reqs c).nbufs := by
    have := congrArg List.length hmap
    simpa [uv_fs_t.nbufs] using this
  have hsub : uv__aio_submit ndebug ks loop c done s = uv__aio_drain_pending_queue ndebug ks
      ((s.set_req c
          { s.reqs c with
            work_req_loop := some loop
            work_req_done := done
            iocbs := some blks
            iocbs_count := (s.reqs c).bufs.length
            submitted_iocbs_count := 0 }).set_queue (s.queue ++ [c])) := by
    unfold uv__aio_submit
    rw [henq]
  have hfields : ∀ b ∈ blks, b.aio_fildes = to_u32 (s.reqs c).file ∧
      b.aio_resfd = to_u32 s.wq_aio.aio_io_watcher_fd := by
    intro b hb
    have hmem : (b.aio_lio_opcode, b.aio_fildes, b.aio_buf, b.aio_nbytes,
          b.aio_data, b.aio_flags, b.aio_resfd)
        ∈ blks.map (fun b => (b.aio_lio_opcode, b.aio_fildes, b.aio_buf, b.aio_nbytes,
          b.aio_data, b.aio_flags, b.aio_resfd)) :=
      List.mem_map_of_mem (fun b => (b.aio_lio_opcode, b.aio_fildes, b.aio_buf, b.aio_nbytes,
          b.aio_data, b.aio_flags, b.aio_resfd)) hb
    rw [hmap] at hmem
    obtain ⟨u, _, hu⟩ := List.mem_map.mp hmem
    simp only [Prod.mk.injEq] at hu
    exact ⟨hu.2.1.symm, hu.2.2.2.2.2.2.symm⟩
  refine ⟨blks, _, henq, hsub, by simp, by simp [uv_fs_t.nbufs], by simp, ?_, ?_, hlen, hmap,
    ?_, ?_⟩
  · rw [hsub, drain_frame]; simp
  · rw [hsub, drain_frame]; simp [uv_fs_t.nbufs]
  · intro h0 h1 b hb
    rw [(hfields b hb).1]
    exact to_u32_id _ h0 h1
  · intro h0 h1 b hb
    rw [(hfields b hb).2]
    exact to_u32_id _ h0 h1

/-- C19, at concrete requests: a write request of two buffers on file 3, with eventfd 7;
and a write request whose `file` is -1, which is stored as 4294967295. -/
theorem fragment_fields_witness :
    (∃ blks, ((uv__aio_submit false [⟨2, 0⟩] 1 0 (some 9)
        (machine0 [⟨100, 13⟩, ⟨200, 5⟩] 0)).state.reqs 0).iocbs = some blks ∧
      ((uv__aio_submit false [⟨2, 0⟩] 1 0 (some 9)
        (machine0 [⟨100, 13⟩, ⟨200, 5⟩] 0)).state.reqs 0).iocbs_count = 2 ∧
      blks.map (fun b => (b.aio_lio_opcode, b.aio_fildes, b.aio_buf, b.aio_nbytes,
          b.aio_data, b.aio_flags, b.aio_resfd))
        = [(IOCB_CMD_PWRITE, 3, 100, 13, 0, IOCB_FLAG_RESFD, 7),
           (IOCB_CMD_PWRITE, 3, 200, 5, 0, IOCB_FLAG_RESFD, 7)]) ∧
    ((uv__aio_submit false [⟨1, 0⟩] 1 0 (some 9)
        { machine0 [⟨100, 13⟩] 0 with
          reqs := fun _ => fresh_req .UV_FS_WRITE (-1) [⟨100, 13⟩] 0 }).state.reqs 0).iocbs
      = some [{ aio_data := 0, aio_lio_opcode := IOCB_CMD_PWRITE, aio_fildes := 4294967295,
                aio_buf := 100, aio_nbytes := 13, aio_offset := 0,
                aio_flags := IOCB_FLAG_RESFD, aio_resfd := 7 }] := by
  obtain ⟨blks, _, _, _, _, _, _, h6, h7, _, h9, _, _⟩ := fragment_fields false [⟨2, 0⟩] 1 0
    (some 9) (machine0 [⟨100, 13⟩, ⟨200, 5⟩] 0) rfl (by decide)
  refine ⟨⟨blks, h6, h7, ?_⟩, by rfl⟩
  rw [h9]
  rfl

/-! ## The batches of the drain -/

/-- The drain only appends to the trace. -/
theorem drain_trace_extends (ndebug : Bool) (ks : List submit_ret) (s : Machine) :
    s.trace <+: (uv__aio_drain_pending_queue ndebug ks s).state.trace := by
  refine drain_induct (fun s' => s.trace <+: s'.trace) ndebug ?_ ?_ ks s (List.prefix_refl _)
  · intro s' q qs k _ _ hs
    rw [drain_stop_trace]
    exact hs.trans (List.prefix_append _ _)
  · intro s' q qs k _ _ hs
    rw [drain_advance_trace]
    exact hs.trans (List.prefix_append _ _)

/-- After the answer `k` to the call for head `q`, the trace of the drain starts with the
trace before the call followed by the call. -/
theorem drain_call_logged (ndebug : Bool) (s : Machine) (q : Nat) (qs : List Nat)
    (hq : s.queue = q :: qs) (k : submit_ret) (ks : List submit_ret) :
    s.trace ++ [.io_submit (pending_count_of (s.reqs q))
        (batch_ptrs q (s.reqs q) (pending_count_of (s.reqs q))) k]
      <+: (uv__aio_drain_pending_queue ndebug (k :: ks) s).state.trace := by
  rw [drain_cons ndebug s q qs hq]
  by_cases h1 : k.r < 0
  · by_cases h2 : k.errno = EAGAIN
    · simp only [h1, h2, and_self, if_true, Outcome.state, drain_stop_trace]
      exact List.prefix_refl _
    · cases ndebug <;>
        simp only [h1, h2, and_false, if_false, if_true, Outcome.state, drain_stop_trace] <;>
        exact List.prefix_refl _
  · simp only [h1, false_and, if_false]
    have := drain_trace_extends ndebug ks (drain_advance s q k)
    rw [drain_advance_trace] at this
    exact this

theorem pending_count_le_cap (req : uv_fs_t) : pending_count_of req ≤ UV_AIO_NR_EVENTS := by
  unfold pending_count_of MIN
  split <;> omega

theorem pending_count_eq (req : uv_fs_t) (h1 : req.submitted_iocbs_count ≤ req.iocbs_count)
    (h2 : req.iocbs_count < U32) :
    pending_count_of req = min (req.iocbs_count - req.submitted_iocbs_count) UV_AIO_NR_EVENTS := by
  unfold pending_count_of MIN
  rw [u32_sub_le _ _ h1 h2]
  split <;> omega

theorem batch_ptrs_length (q : Nat) (req : uv_fs_t) (n : Nat) :
    (batch_ptrs q req n).length = n := by
  unfold batch_ptrs
  simp only [List.length_append, List.length_map, List.length_replicate]
  have h := (List.takeWhile_sublist (l := List.range n)
    (fun i => decide ((i + req.submitted_iocbs_count) % U32 < req.iocbs_count))).length_le
  rw [List.length_range] at h
  omega

theorem batch_ptrs_req (q : Nat) (req : uv_fs_t) (n : Nat) (x : iocb_ptr)
    (hx : some x ∈ batch_ptrs q req n) : x.req = q := by
  unfold batch_ptrs at hx
  simp only [List.mem_append, List.mem_map, List.mem_replicate] at hx
  rcases hx with ⟨i, _, hi⟩ | ⟨_, hi⟩
  · cases hi; rfl
  · cases hi

/-- C11: every submit-batch call of the drain (the drain has used the answers `pre` and is
about to call in state `s1`) is for the head `q` of the pending queue: the batch has
`pending_count` entries, at most 128, and every entry that is not null is a control block
of `q`; when the head satisfies `submitted_iocbs_count ≤ iocbs_count < 2 ^ 32`, the size is
`min (iocbs_count - submitted_iocbs_count) 128` and entry `i` is the address of the block
of `q` with index `submitted_iocbs_count + i`. -/
theorem batch_of_head (ndebug : Bool) (pre rest : List submit_ret) (k : submit_ret)
    (s0 s1 : Machine)
    (hpre : uv__aio_drain_pending_queue ndebug pre s0 = .starved s1) :
    ∃ q qs n b, s1.queue = q :: qs ∧
      s1.trace ++ [.io_submit n b k]
        <+: (uv__aio_drain_pending_queue ndebug (pre ++ k :: rest) s0).state.trace ∧
      n ≤ UV_AIO_NR_EVENTS ∧ b.length = n ∧ (∀ x, some x ∈ b → x.req = q) ∧
      ((s1.reqs q).submitted_iocbs_count ≤ (s1.reqs q).iocbs_count →
        (s1.reqs q).iocbs_count < U32 →
        n = min ((s1.reqs q).iocbs_count - (s1.reqs q).submitted_iocbs_count) UV_AIO_NR_EVENTS ∧
        b = (List.range n).map
          (fun i => some ⟨q, (s1.reqs q).submitted_iocbs_count + i⟩)) := by
  have hne := drain_starved_queue ndebug pre s0 s1 hpre
  cases hq : s1.queue with
  | nil => exact absurd hq hne
  | cons q qs =>
    refine ⟨q, qs, pending_count_of (s1.reqs q),
      batch_ptrs q (s1.reqs q) (pending_count_of (s1.reqs q)), rfl, ?_,
      pending_count_le_cap _, batch_ptrs_length _ _ _, batch_ptrs_req _ _ _, ?_⟩
    · rw [drain_starved_append ndebug _ pre s0 s1 hpre]
      exact drain_call_logged ndebug s1 q qs hq k rest
    · intro h1 h2
      refine ⟨pending_count_eq _ h1 h2, ?_⟩
      rw [batch_ptrs_full q (s1.reqs q) _ h1 h2 (pending_count_le _ h1 h2).1]
      apply List.map_congr_left
      intro i _
      rw [Nat.add_comm]

/-- C11, at a concrete drain: a request of 300 blocks of which 128 are submitted; the next
batch is the blocks 128 to 255. -/
theorem batch_of_head_witness :
    ∃ q qs n b, (drain_advance (machine1 (inflight_req 300 0 0 0) [0, 1]) 0 ⟨128, 0⟩).queue
        = q :: qs ∧
      (drain_advance (machine1 (inflight_req 300 0 0 0) [0, 1]) 0 ⟨128, 0⟩).trace
          ++ [.io_submit n b ⟨-1, EAGAIN⟩]
        <+: (uv__aio_drain_pending_queue false ([⟨128, 0⟩] ++ ⟨-1, EAGAIN⟩ :: [])
          (machine1 (inflight_req 300 0 0 0) [0, 1])).state.trace ∧
      n ≤ UV_AIO_NR_EVENTS ∧ b.length = n ∧ (∀ x, some x ∈ b → x.req = q) ∧
      (((drain_advance (machine1 (inflight_req 300 0 0 0) [0, 1]) 0 ⟨128, 0⟩).reqs
            q).submitted_iocbs_count
          ≤ ((drain_advance (machine1 (inflight_req 300 0 0 0) [0, 1]) 0 ⟨128, 0⟩).reqs
            q).iocbs_count →
        ((drain_advance (machine1 (inflight_req 300 0 0 0) [0, 1]) 0 ⟨128, 0⟩).reqs
            q).iocbs_count < U32 →
        n = min (((drain_advance (machine1 (inflight_req 300 0 0 0) [0, 1]) 0 ⟨128, 0⟩).reqs
              q).iocbs_count
            - ((drain_advance (machine1 (inflight_req 300 0 0 0) [0, 1]) 0 ⟨128, 0⟩).reqs
              q).submitted_iocbs_count) UV_AIO_NR_EVENTS ∧
        b = (List.range n).map (fun i => some ⟨q,
          ((drain_advance (machine1 (inflight_req 300 0 0 0) [0, 1]) 0 ⟨128, 0⟩).reqs
            q).submitted_iocbs_count + i⟩)) :=
  batch_of_head false [⟨128, 0⟩] [] ⟨-1, EAGAIN⟩ (machine1 (inflight_req 300 0 0 0) [0, 1])
    (drain_advance (machine1 (inflight_req 300 0 0 0) [0, 1]) 0 ⟨128, 0⟩) (by rfl)

/-! ## Partial acceptance -/

/-- A drain that waits in `s1` with head `q` and receives an answer `k` with `0 ≤ k.r`
goes on from the state after the iteration. -/
theorem drain_step_advance (ndebug : Bool) (pre rest : List submit_ret) (k : submit_ret)
    (s0 s1 : Machine) (q : Nat) (qs : List Nat)
    (hpre : uv__aio_drain_pending_queue ndebug pre s0 = .starved s1)
    (hq : s1.queue = q :: qs) (hk : 0 ≤ k.r) :
    uv__aio_drain_pending_queue ndebug (pre ++ k :: rest) s0
      = uv__aio_drain_pending_queue ndebug rest (drain_advance s1 q k) := by
  rw [drain_starved_append ndebug _ pre s0 s1 hpre, drain_cons ndebug s1 q qs hq]
  have h1 : ¬ k.r < 0 := by omega
  simp only [h1, false_and, if_false]

/-- C14: the drain is about to call for the head `q`, which satisfies
`submitted_iocbs_count ≤ iocbs_count < 2 ^ 32`.  When the call returns `r` with
`0 < r < pending_count`, the count of `q` advances by exactly `r`, `q` stays the head of
the queue, and the next call is for `q` again, with a non-empty batch that starts at the
block with index (old submitted + `r`).  For every `r` from 0 to `pending_count`, `q` is
removed from the queue exactly when the new count reaches `iocbs_count`. -/
theorem partial_acceptance (ndebug : Bool) (pre : List submit_ret) (s0 s1 : Machine)
    (q : Nat) (qs : List Nat)
    (hpre : uv__aio_drain_pending_queue ndebug pre s0 = .starved s1)
    (hq : s1.queue = q :: qs)
    (hle : (s1.reqs q).submitted_iocbs_count ≤ (s1.reqs q).iocbs_count)
    (hU : (s1.reqs q).iocbs_count < U32) :
    (∀ (k : submit_ret), 0 < k.r → k.r < (pending_count_of (s1.reqs q) : Int) →
      ((drain_advance s1 q k).reqs q).submitted_iocbs_count
        = (s1.reqs q).submitted_iocbs_count + k.r.toNat ∧
      (drain_advance s1 q k).queue = q :: qs ∧
      (∀ rest, uv__aio_drain_pending_queue ndebug (pre ++ k :: rest) s0
        = uv__aio_drain_pending_queue ndebug rest (drain_advance s1 q k)) ∧
      ∀ (k2 : submit_ret) (rest : List submit_ret), ∃ n b,
        (drain_advance s1 q k).trace ++ [.io_submit n b k2]
          <+: (uv__aio_drain_pending_queue ndebug (pre ++ k :: k2 :: rest) s0).state.trace ∧
        1 ≤ n ∧
        n = min ((s1.reqs q).iocbs_count - ((s1.reqs q).submitted_iocbs_count + k.r.toNat))
          UV_AIO_NR_EVENTS ∧
        b = (List.range n).map
          (fun i => some ⟨q, (s1.reqs q).submitted_iocbs_count + k.r.toNat + i⟩)) ∧
    (∀ (k : submit_ret), 0 ≤ k.r → k.r ≤ (pending_count_of (s1.reqs q) : Int) →
      ((drain_advance s1 q k).reqs q).submitted_iocbs_count
        = (s1.reqs q).submitted_iocbs_count + k.r.toNat ∧
      (drain_advance s1 q k).queue =
        if (s1.reqs q).iocbs_count ≤ (s1.reqs q).submitted_iocbs_count + k.r.toNat
        then qs else q :: qs) := by
  obtain ⟨hp1, hp2⟩ := pending_count_le (s1.reqs q) hle hU
  have hsub : ∀ (k : submit_ret), 0 ≤ k.r → k.r ≤ (pending_count_of (s1.reqs q) : Int) →
      ((drain_advance s1 q k).reqs q).submitted_iocbs_count
        = (s1.reqs q).submitted_iocbs_count + k.r.toNat ∧
      (drain_advance s1 q k).queue =
        if (s1.reqs q).iocbs_count ≤ (s1.reqs q).submitted_iocbs_count + k.r.toNat
        then qs else q :: qs := by
    intro k hk0 hkn
    have hmod : ((s1.reqs q).submitted_iocbs_count + k.r.toNat) % U32
        = (s1.reqs q).submitted_iocbs_count + k.r.toNat := Nat.mod_eq_of_lt (by omega)
    rw [drain_advance_same, drain_advance_queue, hmod, hq, List.erase_cons_head]
    exact ⟨rfl, rfl⟩
  refine ⟨?_, hsub⟩
  intro k hk0 hkn
  obtain ⟨h1, h2⟩ := hsub k (by omega) (by omega)
  have hlt : (s1.reqs q).submitted_iocbs_count + k.r.toNat < (s1.reqs q).iocbs_count := by
    omega
  have hq2 : (drain_advance s1 q k).queue = q :: qs := by
    rw [h2, if_neg (by omega)]
  have hstep := fun rest => drain_step_advance ndebug pre rest k s0 s1 q qs hpre hq (by omega)
  refine ⟨h1, hq2, hstep, ?_⟩
  intro k2 rest
  have hcnt : ((drain_advance s1 q k).reqs q).iocbs_count = (s1.reqs q).iocbs_count := by
    rw [drain_advance_same]
  have hle2 : ((drain_advance s1 q k).reqs q).submitted_iocbs_count
      ≤ ((drain_advance s1 q k).reqs q).iocbs_count := by rw [h1, hcnt]; omega
  have hU2 : ((drain_advance s1 q k).reqs q).iocbs_count < U32 := by rw [hcnt]; exact hU
  refine ⟨pending_count_of ((drain_advance s1 q k).reqs q),
    batch_ptrs q ((drain_advance s1 q k).reqs q)
      (pending_count_of ((drain_advance s1 q k).reqs q)), ?_, ?_, ?_, ?_⟩
  · rw [hstep]
    exact drain_call_logged ndebug _ q qs hq2 k2 rest
  · rw [pending_count_eq _ hle2 hU2, h1, hcnt]
    have : UV_AIO_NR_EVENTS = 128 := rfl
    omega
  · rw [pending_count_eq _ hle2 hU2, h1, hcnt]
  · rw [batch_ptrs_full q _ _ hle2 hU2 (pending_count_le _ hle2 hU2).1, h1]
    apply List.map_congr_left
    intro i _
    rw [Nat.add_comm]

/-- C14, at a concrete drain: a request of 300 blocks; the kernel takes 100 of the first
batch of 128. -/
theorem partial_acceptance_witness :
    ((drain_advance (machine1 (inflight_req 300 0 0 0) [0, 1]) 0 ⟨100, 0⟩).reqs
        0).submitted_iocbs_count = 0 + 100 ∧
    (drain_advance (machine1 (inflight_req 300 0 0 0) [0, 1]) 0 ⟨100, 0⟩).queue = [0, 1] :=
  have h := (partial_acceptance false [] (machine1 (inflight_req 300 0 0 0) [0, 1])
    (machine1 (inflight_req 300 0 0 0) [0, 1]) 0 [1] (by rfl) rfl (by decide) (by decide)).1
    ⟨100, 0⟩ (by decide) (by decide)
  ⟨h.1, h.2.1⟩

/-! ## Fragments are accepted in buffer order -/

theorem accepted_idx_append (c : Nat) (t1 t2 : List Action) :
    accepted_idx c (t1 ++ t2) = accepted_idx c t1 ++ accepted_idx c t2 := by
  induction t1 with
  | nil => rfl
  | cons a t ih =>
    cases a <;> simp only [List.cons_append, accepted_idx, List.append_eq, ih, List.append_assoc]

theorem blocks_of_batch (c q : Nat) (sub n r : Nat) (hr : r ≤ n) :
    blocks_of c (((List.range n).map (fun i => some (⟨q, i + sub⟩ : iocb_ptr))).take r)
      = if q = c then (List.range r).map (fun i => sub + i) else [] := by
  unfold blocks_of
  rw [← List.map_take, List.take_range, Nat.min_eq_left hr, List.filterMap_map]
  by_cases h : q = c
  · rw [if_pos h, ← List.filterMap_eq_map]
    apply List.filterMap_congr
    intro i _
    simp [h, Nat.add_comm]
  · rw [if_neg h, List.filterMap_eq_nil_iff]
    intro i _
    simp [h]

/-- The bookkeeping of the accepted blocks: under the counter invariant, the blocks
accepted for a request are the blocks `0` to `submitted_iocbs_count - 1` in order. -/
theorem accepted_order_run (ndebug : Bool) (ops : List Op) (s : Machine)
    (h : SubmitOK s.trace → CountersInv s ∧
      ∀ c, accepted_idx c s.trace = List.range (s.reqs c).submitted_iocbs_count) :
    SubmitOK (run ndebug ops s).state.trace → CountersInv (run ndebug ops s).state ∧
      ∀ c, accepted_idx c (run ndebug ops s).state.trace
        = List.range ((run ndebug ops s).state.reqs c).submitted_iocbs_count := by
  let P : Machine → Prop := fun s => SubmitOK s.trace → CountersInv s ∧
      ∀ c, accepted_idx c s.trace = List.range (s.reqs c).submitted_iocbs_count
  have hsilent : ∀ (s : Machine) (a : Action),
      (∀ c, accepted c [a] = 0 ∧ delivered c [a] = 0) → (∀ c, accepted_idx c [a] = []) →
      P s → P (s.log a) := by
    intro s a ha hb hs hok
    have hok' : SubmitOK s.trace := by rw [log_trace] at hok; exact hok.of_append
    refine ⟨counters_silent_log s a ha (fun h => (hs h).1) hok, ?_⟩
    intro c
    rw [log_trace, accepted_idx_append, hb c, List.append_nil, log_reqs]
    exact (hs hok').2 c
  have hstop : ∀ (s : Machine) (q : Nat) (qs : List Nat) (k : submit_ret),
      s.queue = q :: qs → k.r < 0 → P s → P (drain_stop s q k) := by
    intro s q qs k _ hk hs hok
    have hok' : SubmitOK s.trace := by rw [drain_stop_trace] at hok; exact hok.of_append
    refine ⟨counters_drain_stop s q k hk (fun h => (hs h).1) hok, ?_⟩
    intro c
    have hk' : ¬ (0 ≤ k.r) := by omega
    rw [drain_stop_trace, accepted_idx_append, drain_stop_reqs]
    simp only [accepted_idx, if_neg hk', List.append_nil]
    exact (hs hok').2 c
  have hadv : ∀ (s : Machine) (q : Nat) (qs : List Nat) (k : submit_ret),
      s.queue = q :: qs → 0 ≤ k.r → P s → P (drain_advance s q k) := by
    intro s q qs k hq hk hs hok
    have hok2 := hok
    rw [drain_advance_trace] at hok2
    obtain ⟨hI, hA⟩ := hs hok2.of_append
    refine ⟨counters_drain_advance s q qs k hq hk (fun h => (hs h).1) hok, ?_⟩
    have hr : k.r ≤ (pending_count_of (s.reqs q) : Int) :=
      hok2 _ _ k (List.mem_append_right _ (List.mem_singleton_self _)) hk
    obtain ⟨q1, _, _, q4, q5, _⟩ := hI q
    have hfrag : (s.reqs q).iocbs ≠ none := by
      intro hnone
      exact (q1 hnone).1 (by rw [hq]; exact List.mem_cons_self _ _)
    have hcU := q5 hfrag
    obtain ⟨hp1, _⟩ := pending_count_le (s.reqs q) q4 hcU
    have hrn : k.r.toNat ≤ pending_count_of (s.reqs q) := by omega
    have hmod : ((s.reqs q).submitted_iocbs_count + k.r.toNat) % U32
        = (s.reqs q).submitted_iocbs_count + k.r.toNat := Nat.mod_eq_of_lt (by omega)
    intro c
    rw [drain_advance_trace, accepted_idx_append, hA c]
    simp only [accepted_idx, if_pos hk, List.append_nil]
    rw [batch_ptrs_full q (s.reqs q) _ q4 hcU hp1, blocks_of_batch c q _ _ _ hrn]
    by_cases hx : q = c
    · subst hx
      rw [if_pos rfl, drain_advance_same, hmod]
      exact (List.range_add _ _).symm
    · rw [if_neg hx, List.append_nil, drain_advance_other _ _ _ _ (fun h => hx h.symm)]
  have hget : ∀ (s : Machine) (r : Int), P s →
      P (s.log (.io_getevents 0 UV_AIO_NR_EVENTS r)) :=
    fun s r hs => hsilent s _ (fun _ => ⟨rfl, rfl⟩) (fun _ => rfl) hs
  have hev : ∀ (s : Machine) (e : io_event), P s → P (process_event s e) := by
    intro s e hs hok
    obtain ⟨l, hl, hcases⟩ := process_event_trace_cases s e
    have hok' : SubmitOK s.trace := by rw [hl] at hok; exact hok.of_append
    refine ⟨counters_process_event s e (fun h => (hs h).1) hok, ?_⟩
    intro c
    have hnil : accepted_idx c (.event e :: l) = [] := by
      rcases hcases with rfl | ⟨f, rfl⟩ <;> rfl
    have hsubm : ((process_event s e).reqs c).submitted_iocbs_count
        = (s.reqs c).submitted_iocbs_count := by
      by_cases hx : c = e.data
      · subst hx; rw [process_event_same]
      · rw [process_event_other _ _ _ hx]
    rw [hl, accepted_idx_append, hnil, List.append_nil, hsubm]
    exact (hs hok').2 c
  have henq : ∀ (s : Machine) (loop c' : Nat) (done : Option Nat), P s →
      P (aio_submit_enqueue loop c' done s).state := by
    intro s loop c' done hs hok
    have hok' : SubmitOK s.trace := by rw [enqueue_trace] at hok; exact hok
    obtain ⟨hI, hA⟩ := hs hok'
    refine ⟨counters_enqueue loop c' done s (fun h => (hs h).1) hok, ?_⟩
    intro c
    rw [enqueue_trace, hA c]
    by_cases hx : c = c'
    · subst hx
      unfold aio_submit_enqueue
      simp only []
      split
      · rename_i hnone
        have h0 := ((hI c).1 hnone).2
        split
        · simp only [UNREACHABLE, Outcome.state, set_req_same]
        · simp only [Outcome.state, set_queue_reqs, set_req_same, h0]
      · simp only [Outcome.state, set_queue_reqs, set_req_same]
    · rw [enqueue_other loop c' done s c hx]
  refine run_induct P ndebug (fun _ => True) ?_ ops s (fun _ _ => trivial) h
  intro op s _ hs
  cases op with
  | submit ks loop c' done =>
    exact submit_induct P ndebug hstop hadv ks loop c' done s (henq s loop c' done hs)
  | drain ks => exact drain_induct P ndebug hstop hadv ks s hs
  | work_done gs ks => exact work_done_induct P ndebug hstop hadv hget hev gs ks s hs

/-- C12: from a fresh state, in the state reached by any run of engine operations (any
number of drains, with `EAGAIN` and other failures in between) in which every successful
submit-batch call returned at most the batch size it was passed: for every request, the
control blocks the kernel accepted (the first `r` entries of every batch, in call order)
are the blocks `0, 1, ..., submitted_iocbs_count - 1` of the request, in this order. -/
theorem accepted_in_buffer_order (ndebug : Bool) (ops : List Op) (s : Machine)
    (hinit : Fresh s) (hsub : SubmitOK (run ndebug ops s).state.trace) (c : Nat) :
    accepted_idx c (run ndebug ops s).state.trace
      = List.range ((run ndebug ops s).state.reqs c).submitted_iocbs_count := by
  refine (accepted_order_run ndebug ops s (fun _ => ⟨fresh_counters s hinit, ?_⟩) hsub).2 c
  intro c
  obtain ⟨_, ht, hr⟩ := hinit
  rw [ht, (hr c).2.1]
  rfl

/-- C12, at a concrete run: a request of three buffers; the kernel takes two blocks, then
answers `EAGAIN`, and takes the last block in the drain after a completion. -/
theorem accepted_in_buffer_order_witness :
    accepted_idx 0 (run false
        [.submit [⟨2, 0⟩, ⟨-1, EAGAIN⟩] 1 0 (some 9),
         .work_done [.events [⟨0, 13⟩], .events []] [⟨1, 0⟩]]
        (machine0 [⟨100, 13⟩, ⟨200, 5⟩, ⟨300, 7⟩] (-1))).state.trace
      = List.range ((run false
        [.submit [⟨2, 0⟩, ⟨-1, EAGAIN⟩] 1 0 (some 9),
         .work_done [.events [⟨0, 13⟩], .events []] [⟨1, 0⟩]]
        (machine0 [⟨100, 13⟩, ⟨200, 5⟩, ⟨300, 7⟩] (-1))).state.reqs 0).submitted_iocbs_count :=
  accepted_in_buffer_order false
    [.submit [⟨2, 0⟩, ⟨-1, EAGAIN⟩] 1 0 (some 9),
     .work_done [.events [⟨0, 13⟩], .events []] [⟨1, 0⟩]]
    (machine0 [⟨100, 13⟩, ⟨200, 5⟩, ⟨300, 7⟩] (-1))
    ⟨rfl, rfl, fun _ => ⟨rfl, rfl, rfl, (by show (3 : Nat) < U32; decide)⟩⟩
    (submitOK_of_check _ (by decide)) 0

/-! ## A request larger than the batch capacity -/

/-- The drain of a queue that holds only `c`, when the kernel takes every batch in full:
`m` calls, the last of which removes `c`. -/
theorem drain_full (ndebug : Bool) (c N : Nat) (hU : N < U32) (rest : List submit_ret) :
    ∀ (m : Nat) (s : Machine) (ks : List submit_ret),
      s.queue = [c] → (s.reqs c).iocbs_count = N → (s.reqs c).submitted_iocbs_count < N →
      (m - 1) * 128 < N - (s.reqs c).submitted_iocbs_count →
      N - (s.reqs c).submitted_iocbs_count ≤ m * 128 →
      ks.map submit_ret.r = (List.range m).map
        (fun i => ((min (N - (s.reqs c).submitted_iocbs_count - 128 * i) 128 : Nat) : Int)) →
      ∃ s' calls, uv__aio_drain_pending_queue ndebug (ks ++ rest) s = .returned s' ∧
        s'.queue = [] ∧ (s'.reqs c).submitted_iocbs_count = N ∧ (s'.reqs c).iocbs_count = N ∧
        s'.trace = s.trace ++ calls ∧ calls.length = m ∧
        ∀ a ∈ calls, ∃ nb b k, a = Action.io_submit nb b k ∧ nb ≤ UV_AIO_NR_EVENTS ∧
          b.length = nb ∧ k.r = (nb : Int) := by
  intro m
  induction m with
  | zero =>
    intro s ks _ _ hlt _ hle _
    omega
  | succ m ih =>
    intro s ks hq hN hlt hlo hhi hks
    cases ks with
    | nil => simp [List.range_succ_eq_map] at hks
    | cons k ks' =>
      rw [List.range_succ_eq_map, List.map_cons, List.map_cons, List.map_map] at hks
      obtain ⟨hk, hks'⟩ := List.cons.inj hks
      simp only [Nat.mul_zero, Nat.sub_zero] at hk
      have hle : (s.reqs c).submitted_iocbs_count ≤ (s.reqs c).iocbs_count := by omega
      have hcU : (s.reqs c).iocbs_count < U32 := by omega
      have hpc : pending_count_of (s.reqs c)
          = min (N - (s.reqs c).submitted_iocbs_count) 128 := by
        rw [pending_count_eq _ hle hcU, hN]; rfl
      have hk0 : 0 ≤ k.r := by rw [hk]; exact Int.natCast_nonneg _
      have hkn : k.r.toNat = min (N - (s.reqs c).submitted_iocbs_count) 128 := by
        rw [hk]; exact Int.toNat_natCast _
      have hmod : ((s.reqs c).submitted_iocbs_count + k.r.toNat) % U32
          = (s.reqs c).submitted_iocbs_count + k.r.toNat := Nat.mod_eq_of_lt (by omega)
      have hcall : ∃ nb b k', Action.io_submit (pending_count_of (s.reqs c))
          (batch_ptrs c (s.reqs c) (pending_count_of (s.reqs c))) k = Action.io_submit nb b k' ∧
          nb ≤ UV_AIO_NR_EVENTS ∧ b.length = nb ∧ k'.r = (nb : Int) :=
        ⟨_, _, _, rfl, pending_count_le_cap _, batch_ptrs_length _ _ _, by rw [hk, hpc]⟩
      rw [List.cons_append, drain_cons ndebug s c [] hq]
      have hneg : ¬ k.r < 0 := by omega
      simp only [hneg, false_and, if_false]
      by_cases hrem : N - (s.reqs c).submitted_iocbs_count ≤ 128
      · have hm : m = 0 := by
          simp only [Nat.add_sub_cancel] at hlo
          omega
        subst hm
        have hnil : ks' = [] := by simpa using hks'
        subst hnil
        have hq2 : (drain_advance s c k).queue = [] := by
          rw [drain_advance_queue, hmod, hq, hN, hkn]
          rw [if_pos (by omega)]
          simp
        refine ⟨drain_advance s c k, [Action.io_submit (pending_count_of (s.reqs c))
          (batch_ptrs c (s.reqs c) (pending_count_of (s.reqs c))) k], ?_, hq2, ?_, ?_, drain_advance_trace s c k, rfl, ?_⟩
        · rw [List.nil_append, drain_nil ndebug _ hq2]
        · rw [drain_advance_same]; simp only []; rw [hmod, hkn]; omega
        · rw [drain_advance_same]; exact hN
        · intro a ha
          rw [List.mem_singleton] at ha
          subst ha
          exact hcall
      · have hmpos : 1 ≤ m := by
          by_contra hc
          have : m = 0 := by omega
          subst this
          omega
        have hsub2 : ((drain_advance s c k).reqs c).submitted_iocbs_count
            = (s.reqs c).submitted_iocbs_count + 128 := by
          rw [drain_advance_same]; simp only []; rw [hmod, hkn]; omega
        have hq2 : (drain_advance s c k).queue = [c] := by
          rw [drain_advance_queue, hmod, hq, hN, hkn]
          rw [if_neg (by omega)]
        have hN2 : ((drain_advance s c k).reqs c).iocbs_count = N := by
          rw [drain_advance_same]; exact hN
        simp only [Nat.add_sub_cancel] at hlo
        obtain ⟨s', calls, h1, h2, h3, h4, h5, h6, h7⟩ := ih (drain_advance s c k) ks' hq2 hN2
          (by rw [hsub2]; omega) (by rw [hsub2]; omega) (by rw [hsub2]; omega)
          (by
            rw [hks', hsub2]
            apply List.map_congr_left
            intro i _
            have hidx : N - (s.reqs c).submitted_iocbs_count - 128 * (i + 1)
                = N - ((s.reqs c).submitted_iocbs_count + 128) - 128 * i := by omega
            simp only [Function.comp, Nat.succ_eq_add_one, hidx])
        refine ⟨s', Action.io_submit (pending_count_of (s.reqs c))
          (batch_ptrs c (s.reqs c) (pending_count_of (s.reqs c))) k :: calls,
          h1, h2, h3, h4, ?_, by rw [List.length_cons, h6], ?_⟩
        · rw [h5, drain_advance_trace, List.append_assoc]; rfl
        · intro a ha
          rcases List.mem_cons.mp ha with rfl | ha
          · exact hcall
          · exact h7 a ha

/-- C15: a read or write request with `n ≥ 1` buffers that has not been fragmented is
submitted on an empty pending queue, and the kernel takes every batch in full (answer `i`
is the size `min (n - 128 i) 128` of batch `i`).  Then `uv__aio_submit` returns after
exactly `⌈n / 128⌉` submit-batch calls, each of at most 128 entries and answered with its
size, with `submitted_iocbs_count = n` and the queue empty; for `n = 54321` these are 425
calls, for `n = 1` it is one call. -/
theorem full_submission (ndebug : Bool) (ks rest : List submit_ret) (loop c : Nat)
    (done : Option Nat) (s : Machine) (n : Nat)
    (hq : s.queue = []) (hnull : (s.reqs c).iocbs = none)
    (hty : (s.reqs c).fs_type ≠ .UV_FS_OTHER)
    (hn : (s.reqs c).bufs.length = n) (h1 : 1 ≤ n) (hU : n < U32)
    (hks : ks.map submit_ret.r = (List.range ((n + 127) / 128)).map
      (fun i => ((min (n - 128 * i) 128 : Nat) : Int))) :
    ∃ s' calls, uv__aio_submit ndebug (ks ++ rest) loop c done s = .returned s' ∧
      s'.queue = [] ∧ (s'.reqs c).submitted_iocbs_count = n ∧ (s'.reqs c).iocbs_count = n ∧
      s'.trace = s.trace ++ calls ∧ calls.length = (n + 127) / 128 ∧
      (∀ a ∈ calls, ∃ nb b k, a = Action.io_submit nb b k ∧ nb ≤ UV_AIO_NR_EVENTS ∧
        b.length = nb ∧ k.r = (nb : Int)) ∧
      (n = 54321 → calls.length = 425) ∧ (n = 1 → calls.length = 1) := by
  have hop : ∃ op, opcode_of (s.reqs c).fs_type = some op := by
    cases hft : (s.reqs c).fs_type
    · exact ⟨_, rfl⟩
    · exact ⟨_, rfl⟩
    · exact absurd hft hty
  obtain ⟨op, hop⟩ := hop
  obtain ⟨blks, hfill, _⟩ := fill_iocbs_fields c (s.reqs c).fs_type (s.reqs c).file
    s.wq_aio.aio_io_watcher_fd op hop (s.reqs c).bufs (start_offset (s.reqs c).off)
  have henq := enqueue_fresh loop c done s blks hnull hfill
  have hsub : uv__aio_submit ndebug (ks ++ rest) loop c done s
      = uv__aio_drain_pending_queue ndebug (ks ++ rest)
        ((s.set_req c
          { s.reqs c with
            work_req_loop := some loop
            work_req_done := done
            iocbs := some blks
            iocbs_count := (s.reqs c).bufs.length
            submitted_iocbs_count := 0 }).set_queue (s.queue ++ [c])) := by
    unfold uv__aio_submit
    rw [henq]
  rw [hsub]
  obtain ⟨s', calls, h1', h2, h3, h4, h5, h6, h7⟩ := drain_full ndebug c n hU rest
    ((n + 127) / 128)
    ((s.set_req c
          { s.reqs c with
            work_req_loop := some loop
            work_req_done := done
            iocbs := some blks
            iocbs_count := (s.reqs c).bufs.length
            submitted_iocbs_count := 0 }).set_queue (s.queue ++ [c])) ks
    (by rw [set_queue_queue, hq]; rfl)
    (by simp only [set_queue_reqs, set_req_same]; exact hn)
    (by simp only [set_queue_reqs, set_req_same]; omega)
    (by simp only [set_queue_reqs, set_req_same]; omega)
    (by simp only [set_queue_reqs, set_req_same]; omega)
    (by simp only [set_queue_reqs, set_req_same, Nat.sub_zero]; exact hks)
  refine ⟨s', calls, h1', h2, h3, h4, ?_, h6, h7, ?_, ?_⟩
  · rw [h5]; rfl
  · intro h; rw [h6, h]
  · intro h; rw [h6, h]

/-- C15, at a concrete request: 300 buffers are submitted in three calls of 128, 128 and
44 blocks. -/
theorem full_submission_witness :
    ∃ (s' : Machine) (calls : List Action),
      uv__aio_submit false ([⟨128, 0⟩, ⟨128, 0⟩, ⟨44, 0⟩] ++ []) 1 0 (some 9)
        (machine0 (List.replicate 300 ⟨4096, 13⟩) (-1)) = .returned s' ∧
      s'.queue = [] ∧ (s'.reqs 0).submitted_iocbs_count = 300 ∧ calls.length = 3 := by
  obtain ⟨s', calls, h1, h2, h3, _, _, h6, _⟩ := full_submission false
    [⟨128, 0⟩, ⟨128, 0⟩, ⟨44, 0⟩] [] 1 0 (some 9)
    (machine0 (List.replicate 300 ⟨4096, 13⟩) (-1)) 300 rfl rfl (by decide)
    (List.length_replicate _ _) (by decide) (by decide) (by decide)
  exact ⟨s', calls, h1, h2, h3, h6⟩

/-! ## First in, first out across requests -/

theorem FifoTrace.log_other {B : Nat → List uv_buf_t} {ord : List Nat} {t : List Action}
    (h : FifoTrace B ord t) (a : Action) (ha : ∀ n b k, a ≠ .io_submit n b k) :
    FifoTrace B ord (t ++ [a]) := by
  intro p n b k hp
  rcases List.prefix_concat_iff.mp hp with heq | hpre
  · have := List.append_inj' heq rfl
    exact absurd this.2 (by
      intro h2
      exact ha n b k (List.cons.inj h2).1.symm)
  · exact h p n b k hpre

theorem FifoTrace.log_submit {B : Nat → List uv_buf_t} {ord : List Nat} {t : List Action}
    (h : FifoTrace B ord t) (n : Nat) (b : List (Option iocb_ptr)) (k : submit_ret)
    (hb : ∀ x, some x ∈ b → ∀ A l1 l2 l3, ord = l1 ++ A :: (l2 ++ x.req :: l3) →
      accepted A t = (B A).length) :
    FifoTrace B ord (t ++ [.io_submit n b k]) := by
  intro p n' b' k' hp
  rcases List.prefix_concat_iff.mp hp with heq | hpre
  · obtain ⟨h1, h2⟩ := List.append_inj' heq rfl
    have h3 := (List.cons.inj h2).1
    cases h3
    subst h1
    exact hb
  · exact h p n' b' k' hpre

/-- A request that comes before the head of the queue in the submission order has left
the queue. -/
theorem before_head_finished (ord F T l1 l2 l3 : List Nat) (A q : Nat) (hnd : ord.Nodup)
    (h1 : ord = F ++ q :: T) (h2 : ord = l1 ++ A :: (l2 ++ q :: l3)) : A ∈ F := by
  have h3 : ord = (l1 ++ A :: l2) ++ q :: l3 := by rw [h2]; simp
  have hq1 : q ∉ l1 ++ A :: l2 := by
    rw [h3] at hnd
    exact fun hm => (List.nodup_append.mp hnd).2.2 hm (List.mem_cons_self _ _)
  have hq2 : q ∉ l3 := by
    rw [h3] at hnd
    exact (List.nodup_cons.mp (List.nodup_append.mp hnd).2.1).1
  have := (List.append_cons_inj_of_not_mem hq1 hq2).mp (h3.symm.trans h1)
  rw [← this.1]
  simp

theorem fifo_drain_stop (B : Nat → List uv_buf_t) (ord L : List Nat) (hnd : ord.Nodup)
    (R : List Nat) (hL : ord = L ++ R) (s : Machine) (q : Nat) (qs : List Nat)
    (k : submit_ret) (hq : s.queue = q :: qs) (hk : k.r < 0)
    (h : SubmitOK s.trace → FifoInv B L s ∧ FifoTrace B ord s.trace) :
    SubmitOK (drain_stop s q k).trace →
      FifoInv B L (drain_stop s q k) ∧ FifoTrace B ord (drain_stop s q k).trace := by
  intro hok
  have hok' : SubmitOK s.trace := by rw [drain_stop_trace] at hok; exact hok.of_append
  obtain ⟨⟨hI, hLnd, ⟨F, hF, hFin⟩, hb, hin, hout⟩, hT⟩ := h hok'
  refine ⟨⟨counters_drain_stop s q k hk (fun _ => hI) hok, hLnd, ⟨F, hF, hFin⟩, hb, hin, hout⟩,
    ?_⟩
  rw [drain_stop_trace]
  apply hT.log_submit
  intro x hx A l1 l2 l3 hord
  rw [batch_ptrs_req _ _ _ x hx] at hord
  have hA : A ∈ F := before_head_finished ord F (qs ++ R) l1 l2 l3 A q hnd
    (by rw [hL, hF, hq]; simp) hord
  obtain ⟨_, c2, _, c4, _, _⟩ := hI A
  have hAL : A ∈ L := by rw [hF]; exact List.mem_append_left _ hA
  rw [← c2, ← (hin A hAL).2]
  exact Nat.le_antisymm c4 (hFin A hA)

theorem fifo_drain_advance (B : Nat → List uv_buf_t) (ord L : List Nat) (hnd : ord.Nodup)
    (R : List Nat) (hL : ord = L ++ R) (s : Machine) (q : Nat) (qs : List Nat)
    (k : submit_ret) (hq : s.queue = q :: qs) (hk : 0 ≤ k.r)
    (h : SubmitOK s.trace → FifoInv B L s ∧ FifoTrace B ord s.trace) :
    SubmitOK (drain_advance s q k).trace →
      FifoInv B L (drain_advance s q k) ∧ FifoTrace B ord (drain_advance s q k).trace := by
  intro hok
  have hok2 := hok
  rw [drain_advance_trace] at hok2
  obtain ⟨⟨hI, hLnd, ⟨F, hF, hFin⟩, hb, hin, hout⟩, hT⟩ := h hok2.of_append
  have hI2 := counters_drain_advance s q qs k hq hk (fun _ => hI) hok
  have hqL : q ∈ L := by rw [hF, hq]; simp
  have hqF : q ∉ F := by
    rw [hF, hq] at hLnd
    exact fun hm => (List.nodup_append.mp hLnd).2.2 hm (List.mem_cons_self _ _)
  have hfield : ∀ c, ((drain_advance s q k).reqs c).bufs = (s.reqs c).bufs ∧
      ((drain_advance s q k).reqs c).iocbs = (s.reqs c).iocbs ∧
      ((drain_advance s q k).reqs c).iocbs_count = (s.reqs c).iocbs_count := by
    intro c
    by_cases hx : c = q
    · subst hx; rw [drain_advance_same]; exact ⟨rfl, rfl, rfl⟩
    · rw [drain_advance_other _ _ _ _ hx]; exact ⟨rfl, rfl, rfl⟩
  refine ⟨⟨hI2, hLnd, ?_, fun c => by rw [(hfield c).1]; exact hb c,
    fun c hc => by rw [(hfield c).2.1, (hfield c).2.2]; exact hin c hc,
    fun c hc => by rw [(hfield c).2.1]; exact hout c hc⟩, ?_⟩
  · rw [drain_advance_queue, hq, List.erase_cons_head]
    split
    · rename_i hge
      refine ⟨F ++ [q], by rw [hF, hq]; simp, ?_⟩
      intro c hc
      rcases List.mem_append.mp hc with hc | hc
      · have hx : c ≠ q := fun h => hqF (h ▸ hc)
        rw [drain_advance_other _ _ _ _ hx]
        exact hFin c hc
      · rw [List.mem_singleton] at hc
        subst hc
        rw [drain_advance_same]
        exact hge
    · refine ⟨F, by rw [hF, hq], ?_⟩
      intro c hc
      have hx : c ≠ q := fun h => hqF (h ▸ hc)
      rw [drain_advance_other _ _ _ _ hx]
      exact hFin c hc
  · rw [drain_advance_trace]
    apply hT.log_submit
    intro x hx A l1 l2 l3 hord
    rw [batch_ptrs_req _ _ _ x hx] at hord
    have hA : A ∈ F := before_head_finished ord F (qs ++ R) l1 l2 l3 A q hnd
      (by rw [hL, hF, hq]; simp) hord
    obtain ⟨_, c2, _, c4, _, _⟩ := hI A
    have hAL : A ∈ L := by rw [hF]; exact List.mem_append_left _ hA
    rw [← c2, ← (hin A hAL).2]
    exact Nat.le_antisymm c4 (hFin A hA)

theorem fifo_log (B : Nat → List uv_buf_t) (ord L : List Nat) (s : Machine) (a : Action)
    (ha : ∀ n b k, a ≠ .io_submit n b k)
    (hc : ∀ c, accepted c [a] = 0 ∧ delivered c [a] = 0)
    (h : SubmitOK s.trace → FifoInv B L s ∧ FifoTrace B ord s.trace) :
    SubmitOK (s.log a).trace → FifoInv B L (s.log a) ∧ FifoTrace B ord (s.log a).trace := by
  intro hok
  have hok' : SubmitOK s.trace := by rw [log_trace] at hok; exact hok.of_append
  obtain ⟨⟨hI, hrest⟩, hT⟩ := h hok'
  exact ⟨⟨counters_silent_log s a hc (fun _ => hI) hok, hrest⟩, hT.log_other a ha⟩

theorem fifo_process_event (B : Nat → List uv_buf_t) (ord L : List Nat) (s : Machine)
    (e : io_event) (h : SubmitOK s.trace → FifoInv B L s ∧ FifoTrace B ord s.trace) :
    SubmitOK (process_event s e).trace →
      FifoInv B L (process_event s e) ∧ FifoTrace B ord (process_event s e).trace := by
  intro hok
  obtain ⟨l, hl, hcases⟩ := process_event_trace_cases s e
  have hok' : SubmitOK s.trace := by rw [hl] at hok; exact hok.of_append
  obtain ⟨⟨hI, hLnd, ⟨F, hF, hFin⟩, hb, hin, hout⟩, hT⟩ := h hok'
  have hfield : ∀ c, ((process_event s e).reqs c).bufs = (s.reqs c).bufs ∧
      ((process_event s e).reqs c).iocbs = (s.reqs c).iocbs ∧
      ((process_event s e).reqs c).iocbs_count = (s.reqs c).iocbs_count ∧
      ((process_event s e).reqs c).submitted_iocbs_count
        = (s.reqs c).submitted_iocbs_count := by
    intro c
    by_cases hx : c = e.data
    · subst hx; rw [process_event_same]; exact ⟨rfl, rfl, rfl, rfl⟩
    · rw [process_event_other _ _ _ hx]; exact ⟨rfl, rfl, rfl, rfl⟩
  refine ⟨⟨counters_process_event s e (fun _ => hI) hok, hLnd,
    ⟨F, by rw [process_event_queue]; exact hF,
      fun c hc => by rw [(hfield c).2.2.1, (hfield c).2.2.2]; exact hFin c hc⟩,
    fun c => by rw [(hfield c).1]; exact hb c,
    fun c hc => by rw [(hfield c).2.1, (hfield c).2.2.1]; exact hin c hc,
    fun c hc => by rw [(hfield c).2.1]; exact hout c hc⟩, ?_⟩
  rw [hl]
  have h1 : FifoTrace B ord (s.trace ++ [.event e]) :=
    hT.log_other _ (fun _ _ _ h => by cases h)
  rcases hcases with rfl | ⟨f, rfl⟩
  · exact h1
  · have h2 := h1.log_other (.done_call e.data f 0) (fun _ _ _ h => by cases h)
    simpa using h2

theorem fifo_enqueue (B : Nat → List uv_buf_t) (ord L : List Nat) (loop c' : Nat)
    (done : Option Nat) (s s1 : Machine) (hnew : c' ∉ L)
    (h : SubmitOK s.trace → FifoInv B L s ∧ FifoTrace B ord s.trace)
    (hret : aio_submit_enqueue loop c' done s = .returned s1) :
    SubmitOK s1.trace → FifoInv B (L ++ [c']) s1 ∧ FifoTrace B ord s1.trace := by
  intro hok
  have hst : (aio_submit_enqueue loop c' done s).state = s1 := by rw [hret]; rfl
  have htr : s1.trace = s.trace := by rw [← hst]; exact enqueue_trace loop c' done s
  have hok' : SubmitOK s.trace := by rw [htr] at hok; exact hok
  obtain ⟨⟨hI, hLnd, ⟨F, hF, hFin⟩, hb, hin, hout⟩, hT⟩ := h hok'
  have hI1 : CountersInv s1 := by
    rw [← hst]
    exact counters_enqueue loop c' done s (fun _ => hI) (by rw [enqueue_trace]; exact hok')
  have hnone := hout c' hnew
  refine ⟨?_, by rw [htr]; exact hT⟩
  cases hfill : fill_iocbs c' (s.reqs c').fs_type (s.reqs c').file s.wq_aio.aio_io_watcher_fd
      (s.reqs c').bufs (start_offset (s.reqs c').off) with
  | none =>
    unfold aio_submit_enqueue at hret
    simp only [hnone, hfill, UNREACHABLE] at hret
    cases hret
  | some blks =>
    have hret2 := hret
    rw [enqueue_fresh loop c' done s blks hnone hfill] at hret2
    have hother : ∀ c, c ≠ c' → s1.reqs c = s.reqs c := by
      intro c hx
      rw [← hst]
      exact enqueue_other loop c' done s c hx
    have hqueue : s1.queue = s.queue ++ [c'] := by
      cases hret2; rfl
    have hsame : (s1.reqs c').iocbs = some blks ∧
        (s1.reqs c').iocbs_count = (s.reqs c').bufs.length ∧
        (s1.reqs c').bufs = (s.reqs c').bufs := by
      cases hret2
      simp only [set_queue_reqs, set_req_same, and_self]
    refine ⟨hI1, ?_, ⟨F, by rw [hqueue, hF, List.append_assoc], ?_⟩, ?_, ?_, ?_⟩
    · exact List.Nodup.append hLnd (List.nodup_singleton _) (by simpa using hnew)
    · intro c hc
      have hx : c ≠ c' := by
        intro hcc
        exact hnew (by rw [hF, ← hcc]; exact List.mem_append_left _ hc)
      rw [hother c hx]
      exact hFin c hc
    · intro c
      by_cases hx : c = c'
      · subst hx; rw [hsame.2.2]; exact hb c
      · rw [hother c hx]; exact hb c
    · intro c hc
      by_cases hx : c = c'
      · subst hx
        rw [hsame.1, hsame.2.1, hb c]
        exact ⟨by simp, rfl⟩
      · rw [hother c hx]
        exact hin c ((List.mem_append.mp hc).resolve_right (by simpa using hx))
    · intro c hc
      have hx : c ≠ c' := fun hcc => hc (by rw [hcc]; simp)
      rw [hother c hx]
      exact hout c (fun hm => hc (List.mem_append_left _ hm))

theorem fifo_drain (ndebug : Bool) (B : Nat → List uv_buf_t) (ord L : List Nat)
    (hnd : ord.Nodup) (R : List Nat) (hL : ord = L ++ R) (ks : List submit_ret) (s : Machine)
    (h : SubmitOK s.trace → FifoInv B L s ∧ FifoTrace B ord s.trace) :
    SubmitOK (uv__aio_drain_pending_queue ndebug ks s).state.trace →
      FifoInv B L (uv__aio_drain_pending_queue ndebug ks s).state ∧
      FifoTrace B ord (uv__aio_drain_pending_queue ndebug ks s).state.trace :=
  drain_induct (fun s => SubmitOK s.trace → FifoInv B L s ∧ FifoTrace B ord s.trace) ndebug
    (fun s q qs k hq hk hs => fifo_drain_stop B ord L hnd R hL s q qs k hq hk hs)
    (fun s q qs k hq hk hs => fifo_drain_advance B ord L hnd R hL s q qs k hq hk hs) ks s h

/-- The trace of a run respects the order in which the run submits the requests. -/
theorem fifo_run (ndebug : Bool) (B : Nat → List uv_buf_t) (ord : List Nat) (hnd : ord.Nodup) :
    ∀ (ops : List Op) (L : List Nat) (s : Machine),
      ord = L ++ submitted_reqs ops →
      (SubmitOK s.trace → FifoInv B L s ∧ FifoTrace B ord s.trace) →
      SubmitOK (run ndebug ops s).state.trace →
      FifoTrace B ord (run ndebug ops s).state.trace := by
  intro ops
  induction ops with
  | nil =>
    intro L s _ h hok
    exact (h hok).2
  | cons op ops ih =>
    intro L s hord h hok
    cases op with
    | submit ks loop c' done =>
      have hc' : c' ∉ L := by
        rw [hord] at hnd
        simp only [submitted_reqs] at hnd
        exact fun hm => (List.nodup_append.mp hnd).2.2 hm (List.mem_cons_self _ _)
      have hord2 : ord = (L ++ [c']) ++ submitted_reqs ops := by
        rw [hord]; simp [submitted_reqs]
      simp only [run, step, uv__aio_submit] at hok ⊢
      cases henq : aio_submit_enqueue loop c' done s with
      | aborted se =>
        rw [henq] at hok
        have htr : se.trace = s.trace := by
          have := enqueue_trace loop c' done s
          rw [henq] at this; exact this
        simp only [Outcome.state] at hok ⊢
        rw [htr] at hok ⊢
        exact (h hok).2
      | starved se =>
        rw [henq] at hok
        have htr : se.trace = s.trace := by
          have := enqueue_trace loop c' done s
          rw [henq] at this; exact this
        simp only [Outcome.state] at hok ⊢
        rw [htr] at hok ⊢
        exact (h hok).2
      | returned se =>
        rw [henq] at hok
        simp only [] at hok ⊢
        have hse := fifo_enqueue B ord L loop c' done s se hc' h henq
        have hd := fifo_drain ndebug B ord (L ++ [c']) hnd _ hord2 ks se hse
        cases hdr : uv__aio_drain_pending_queue ndebug ks se with
        | returned s1 => rw [hdr] at hok hd; exact ih (L ++ [c']) s1 hord2 hd hok
        | aborted s1 => rw [hdr] at hok hd; exact (hd hok).2
        | starved s1 => rw [hdr] at hok hd; exact (hd hok).2
    | drain ks =>
      have hord2 : ord = L ++ submitted_reqs ops := by rw [hord]; rfl
      simp only [run, step] at hok ⊢
      have hd := fifo_drain ndebug B ord L hnd _ hord2 ks s h
      cases hdr : uv__aio_drain_pending_queue ndebug ks s with
      | returned s1 => rw [hdr] at hok hd; exact ih L s1 hord2 hd hok
      | aborted s1 => rw [hdr] at hok hd; exact (hd hok).2
      | starved s1 => rw [hdr] at hok hd; exact (hd hok).2
    | work_done gs ks =>
      have hord2 : ord = L ++ submitted_reqs ops := by rw [hord]; rfl
      simp only [run, step] at hok ⊢
      have hd := work_done_induct
        (fun s => SubmitOK s.trace → FifoInv B L s ∧ FifoTrace B ord s.trace) ndebug
        (fun s q qs k hq hk hs => fifo_drain_stop B ord L hnd _ hord2 s q qs k hq hk hs)
        (fun s q qs k hq hk hs => fifo_drain_advance B ord L hnd _ hord2 s q qs k hq hk hs)
        (fun s r hs => fifo_log B ord L s _ (fun _ _ _ h => by cases h)
          (fun _ => ⟨rfl, rfl⟩) hs)
        (fun s e hs => fifo_process_event B ord L s e hs) gs ks s h
      cases hdr : uv__aio_work_done ndebug gs ks s with
      | returned s1 => rw [hdr] at hok hd; exact ih L s1 hord2 hd hok
      | aborted s1 => rw [hdr] at hok hd; exact (hd hok).2
      | starved s1 => rw [hdr] at hok hd; exact (hd hok).2

/-- C13: from a fresh state, in a run that submits every request at most once and in which
every successful submit-batch call returned at most the batch size it was passed: if
request `A` is submitted before request `B`, then before every submit-batch call that
carries a control block of `B`, the kernel has accepted all control blocks of `A` (as
many as `A` has buffers), which is when `A` leaves the pending queue. -/
theorem fifo_across_requests (ndebug : Bool) (ops : List Op) (s : Machine) (A B : Nat)
    (l1 l2 l3 : List Nat) (hinit : Fresh s)
    (hnodup : (submitted_reqs ops).Nodup)
    (hord : submitted_reqs ops = l1 ++ A :: (l2 ++ B :: l3))
    (hsub : SubmitOK (run ndebug ops s).state.trace)
    (p : List Action) (n : Nat) (b : List (Option iocb_ptr)) (k : submit_ret)
    (hcall : p ++ [.io_submit n b k] <+: (run ndebug ops s).state.trace)
    (x : iocb_ptr) (hx : some x ∈ b) (hB : x.req = B) :
    accepted A p = (s.reqs A).bufs.length := by
  have h0 : SubmitOK s.trace →
      FifoInv (fun c => (s.reqs c).bufs) [] s ∧
      FifoTrace (fun c => (s.reqs c).bufs) (submitted_reqs ops) s.trace := by
    intro _
    obtain ⟨hq, ht, hr⟩ := hinit
    refine ⟨⟨fresh_counters s ⟨hq, ht, hr⟩, List.nodup_nil, ⟨[], by rw [hq]; rfl, ?_⟩,
      fun _ => rfl, ?_, fun c _ => (hr c).1⟩, ?_⟩
    · intro c hc; cases hc
    · intro c hc; cases hc
    · intro p n b k hp
      rw [ht] at hp
      have := List.eq_nil_of_prefix_nil hp
      simp at this
  have hT := fifo_run ndebug (fun c => (s.reqs c).bufs) (submitted_reqs ops) hnodup ops [] s
    (by simp) h0 hsub
  exact hT p n b k hcall x hx A l1 l2 l3 (by rw [hB]; exact hord)

/-- C13, at a concrete run: request 0 and then request 1 are submitted, three buffers
each; the call that carries the blocks of request 1 comes after all three blocks of
request 0 have been accepted. -/
theorem fifo_across_requests_witness :
    accepted 0
      [.io_submit 3 [some ⟨0, 0⟩, some ⟨0, 1⟩, some ⟨0, 2⟩] ⟨2, 0⟩,
       .io_submit 1 [some ⟨0, 2⟩] ⟨-1, EAGAIN⟩,
       .io_submit 1 [some ⟨0, 2⟩] ⟨-1, EAGAIN⟩,
       .io_getevents 0 128 1,
       .event ⟨0, 13⟩,
       .io_getevents 0 128 0,
       .io_submit 1 [some ⟨0, 2⟩] ⟨1, 0⟩]
      = ((machine0 [⟨100, 13⟩, ⟨200, 5⟩, ⟨300, 7⟩] (-1)).reqs 0).bufs.length :=
  fifo_across_requests false
    [.submit [⟨2, 0⟩, ⟨-1, EAGAIN⟩] 1 0 (some 9),
     .submit [⟨-1, EAGAIN⟩] 1 1 (some 9),
     .work_done [.events [⟨0, 13⟩], .events []] [⟨1, 0⟩, ⟨-1, EAGAIN⟩]]
    (machine0 [⟨100, 13⟩, ⟨200, 5⟩, ⟨300, 7⟩] (-1)) 0 1 [] [] []
    ⟨rfl, rfl, fun _ => ⟨rfl, rfl, rfl, (by show (3 : Nat) < U32; decide)⟩⟩
    (by decide) rfl (submitOK_of_check _ (by decide))
    _ 3 [some ⟨1, 0⟩, some ⟨1, 1⟩, some ⟨1, 2⟩] ⟨-1, EAGAIN⟩
    ⟨[], by rfl⟩ ⟨1, 0⟩ (by decide) rfl

/-! ## Initialisation -/

/-- The value of `uv__aio_init` is 0 exactly when both system calls succeed, provided
`errno` is positive when the failure path of `eventfd` reads it. -/
theorem init_zero_iff (loop : Nat) (w : uv__aio_t) (aio_cb : Option Nat) (efd : sys_ret)
    (perror : Int → Int) (setup : sys_ret)
    (ctx : Nat) (he : efd.r < 0 → 0 < perror efd.errno) :
    (uv__aio_init loop w aio_cb efd perror setup ctx).1 = 0 ↔ 0 ≤ efd.r ∧ 0 ≤ setup.r := by
  unfold uv__aio_init uv__aio_start UV__ERR
  by_cases h1 : efd.r < 0
  · have h0 := he h1
    have hne : ¬ (-perror efd.errno = 0) := by omega
    simp only [h1, if_true, ne_eq, hne, not_false_eq_true]
    constructor
    · intro h; exact h.elim
    · intro h; omega
  · by_cases h2 : setup.r < 0
    · have hne : ¬ (setup.r = 0) := by omega
      simp only [h1, h2, if_true, if_false, ne_eq, hne, not_false_eq_true]
      constructor
      · intro h; exact h.elim
      · intro h; omega
    · simp only [h1, h2, if_false, ne_eq, not_true_eq_false]
      constructor
      · intro _; omega
      · intro _; trivial

/-- C18 (the code at the failing input): `eventfd` succeeds with descriptor 7 and
`io_setup` fails, returning `-1` with `errno = EAGAIN`; `uv__aio_init` returns `-1`, which
is not `-EAGAIN`, whatever `perror` does.  When `eventfd` fails with `EMFILE` and `perror`
leaves `errno` as it is, it returns `-EMFILE`; when `perror` changes `errno` to `EINVAL`,
it returns `-EINVAL`. -/
theorem init_setup_error_not_negated :
    (uv__aio_init 1 engine0 (some 1) ⟨7, 0⟩ (fun e => e) ⟨-1, EAGAIN⟩ 0).1 = -1 ∧
    (-1 : Int) ≠ UV__ERR EAGAIN ∧
    (uv__aio_init 1 engine0 (some 1) ⟨-1, EMFILE⟩ (fun e => e) ⟨0, 0⟩ 5).1 = UV__ERR EMFILE ∧
    (∀ perror : Int → Int,
      (uv__aio_init 1 engine0 (some 1) ⟨7, 0⟩ perror ⟨-1, EAGAIN⟩ 0).1 = -1) ∧
    (uv__aio_init 1 engine0 (some 1) ⟨-1, EMFILE⟩ (fun _ => EINVAL) ⟨0, 0⟩ 5).1
      = UV__ERR EINVAL := by
  refine ⟨by decide, by decide, by decide, fun _ => rfl, by decide⟩

/-! ## Writing and reading back -/

theorem pread_pwrite_self (f : Int → Nat) (o : Int) (d : List Nat) :
    pread (pwrite f o d) o d.length = d := by
  unfold pread pwrite
  apply List.ext_getElem
  · simp
  · intro j h1 h2
    simp only [List.length_map, List.length_range] at h1
    simp only [List.getElem_map, List.getElem_range]
    have hc : o ≤ o + (j : Int) ∧ o + (j : Int) < o + (d.length : Int) := by omega
    rw [if_pos hc]
    have hj : (o + (j : Int) - o).toNat = j := by
      have : o + (j : Int) - o = (j : Int) := by omega
      rw [this]; exact Int.toNat_natCast j
    rw [hj]
    simp [List.getD_eq_getElem?_getD, h2]

theorem apply_writes_untouched (rest : List (iocb × List Nat)) :
    ∀ (f : Int → Nat) (p : Int),
      (∀ fr ∈ rest, p < fr.1.aio_offset ∨ fr.1.aio_offset + fr.2.length ≤ p) →
      apply_writes f rest p = f p := by
  induction rest with
  | nil => intro f p _; rfl
  | cons fr rest ih =>
    intro f p h
    have h1 := h fr (List.mem_cons_self _ _)
    have : apply_writes f (fr :: rest) = apply_writes (pwrite f fr.1.aio_offset fr.2) rest := rfl
    rw [this, ih _ p (fun x hx => h x (List.mem_cons_of_mem _ hx))]
    unfold pwrite
    rw [if_neg (by omega)]

theorem pread_congr (f g : Int → Nat) (o : Int) (n : Nat)
    (h : ∀ p, o ≤ p → p < o + n → f p = g p) : pread f o n = pread g o n := by
  unfold pread
  apply List.map_congr_left
  intro j hj
  have := List.mem_range.mp hj
  exact h _ (by omega) (by omega)

/-- After write fragments with pairwise disjoint ranges have completed, in whatever order,
reading the range of a fragment gives the bytes it wrote. -/
theorem writes_then_read (frs : List (iocb × List Nat)) :
    frs.Pairwise disjoint_frs → ∀ (f : Int → Nat), ∀ p ∈ frs,
      pread (apply_writes f frs) p.1.aio_offset p.2.length = p.2 := by
  induction frs with
  | nil => intro _ f p hp; cases hp
  | cons fr rest ih =>
    intro hpw f p hp
    obtain ⟨hhead, htail⟩ := List.pairwise_cons.mp hpw
    have hunf : apply_writes f (fr :: rest)
        = apply_writes (pwrite f fr.1.aio_offset fr.2) rest := rfl
    rw [hunf]
    rcases List.mem_cons.mp hp with rfl | hp
    · have hkeep : pread (apply_writes (pwrite f p.1.aio_offset p.2) rest) p.1.aio_offset
          p.2.length = pread (pwrite f p.1.aio_offset p.2) p.1.aio_offset p.2.length := by
        apply pread_congr
        intro x hx1 hx2
        apply apply_writes_untouched
        intro q hq
        rcases hhead q hq with hd | hd
        · left; omega
        · right; omega
      rw [hkeep, pread_pwrite_self]
    · exact ih htail _ p hp

theorem disjoint_frs_symm {p q : iocb × List Nat} (h : disjoint_frs p q) : disjoint_frs q p :=
  Or.symm h

/-- The blocks the fragmenting loop builds lie one after the other, from the running
offset on. -/
theorem fill_iocbs_ordered (c : Nat) (ty : uv_fs_type) (file resfd : Int) :
    ∀ (bufs : List uv_buf_t) (o : Int) (blks : List iocb), 0 ≤ o →
      o + ((bufs.map uv_buf_t.len).sum : Nat) < 2 ^ 63 →
      fill_iocbs c ty file resfd bufs o = some blks →
      (∀ b ∈ blks, o ≤ b.aio_offset) ∧
      blks.Pairwise (fun b b' => b.aio_offset + (b.aio_nbytes : Int) ≤ b'.aio_offset) := by
  intro bufs
  induction bufs with
  | nil =>
    intro o blks _ _ h
    simp only [fill_iocbs] at h
    cases h
    exact ⟨fun b hb => (by cases hb), List.Pairwise.nil⟩
  | cons u us ih =>
    intro o blks ho hfit h
    simp only [List.map_cons, List.sum_cons, Nat.cast_add] at hfit
    have hsum : (0 : Int) ≤ ((us.map uv_buf_t.len).sum : Nat) := Int.natCast_nonneg _
    have hu : (0 : Int) ≤ (u.len : Nat) := Int.natCast_nonneg _
    have hid : to_s64 (o + u.len) = o + u.len := to_s64_id _ (by omega) (by omega)
    simp only [fill_iocbs, hid] at h
    cases hop : opcode_of ty with
    | none => rw [hop] at h; cases h
    | some op =>
      rw [hop] at h
      simp only [] at h
      cases hrest : fill_iocbs c ty file resfd us (o + u.len) with
      | none => rw [hrest] at h; cases h
      | some rest =>
        rw [hrest] at h
        simp only [Option.some.injEq] at h
        subst h
        obtain ⟨h1, h2⟩ := ih (o + u.len) rest (by omega) (by omega) hrest
        refine ⟨?_, ?_⟩
        · intro b hb
          rcases List.mem_cons.mp hb with rfl | hb
          · exact le_refl _
          · have := h1 b hb; omega
        · rw [List.pairwise_cons]
          exact ⟨fun b hb => (by have := h1 b hb; exact this), h2⟩

theorem zip_data_length :
    ∀ (blks : List iocb) (datas : List (List Nat)),
      datas.map List.length = blks.map iocb.aio_nbytes →
      ∀ p ∈ blks.zip datas, p.2.length = p.1.aio_nbytes := by
  intro blks
  induction blks with
  | nil => intro datas _ p hp; simp at hp
  | cons b bs ih =>
    intro datas h p hp
    cases datas with
    | nil => simp at hp
    | cons d ds =>
      simp only [List.map_cons, List.cons.injEq] at h
      rw [List.zip_cons_cons] at hp
      rcases List.mem_cons.mp hp with rfl | hp
      · exact h.1
      · exact ih ds h.2 p hp

/-- Two runs of the fragmenting loop over buffers of the same lengths, from the same
offset, give blocks with the same offsets and byte counts. -/
theorem fill_iocbs_same_ranges (c c' : Nat) (ty ty' : uv_fs_type) (file file' resfd resfd' : Int) :
    ∀ (bufs bufs' : List uv_buf_t) (o : Int) (blks blks' : List iocb),
      bufs'.map uv_buf_t.len = bufs.map uv_buf_t.len →
      fill_iocbs c ty file resfd bufs o = some blks →
      fill_iocbs c' ty' file' resfd' bufs' o = some blks' →
      blks'.map (fun b => (b.aio_offset, b.aio_nbytes))
        = blks.map (fun b => (b.aio_offset, b.aio_nbytes)) := by
  intro bufs
  induction bufs with
  | nil =>
    intro bufs' o blks blks' hl h h'
    have : bufs' = [] := by simpa using hl
    subst this
    simp only [fill_iocbs] at h h'
    cases h; cases h'; rfl
  | cons u us ih =>
    intro bufs' o blks blks' hl h h'
    cases bufs' with
    | nil => simp at hl
    | cons u' us' =>
      simp only [List.map_cons, List.cons.injEq] at hl
      simp only [fill_iocbs] at h h'
      cases hop : opcode_of ty with
      | none => rw [hop] at h; cases h
      | some op =>
        cases hop' : opcode_of ty' with
        | none => rw [hop'] at h'; cases h'
        | some op' =>
          rw [hop] at h
          rw [hop'] at h'
          simp only [] at h h'
          rw [hl.1] at h'
          cases hrest : fill_iocbs c ty file resfd us (to_s64 (o + u.len)) with
          | none => rw [hrest] at h; cases h
          | some rest =>
            cases hrest' : fill_iocbs c' ty' file' resfd' us' (to_s64 (o + u.len)) with
            | none => rw [hrest'] at h'; cases h'
            | some rest' =>
              rw [hrest] at h
              rw [hrest'] at h'
              simp only [Option.some.injEq] at h h'
              subst h; subst h'
              simp only [List.map_cons, hl.1, ih us' _ rest rest' hl.2 hrest hrest']

/-- The control blocks that `uv__aio_submit` leaves in a request that was not
fragmented. -/
theorem submit_iocbs (ndebug : Bool) (ks : List submit_ret) (loop c : Nat) (done : Option Nat)
    (s : Machine) (blks : List iocb) (hnull : (s.reqs c).iocbs = none)
    (hfill : fill_iocbs c (s.reqs c).fs_type (s.reqs c).file s.wq_aio.aio_io_watcher_fd
      (s.reqs c).bufs (start_offset (s.reqs c).off) = some blks) :
    ((uv__aio_submit ndebug ks loop c done s).state.reqs c).iocbs = some blks := by
  unfold uv__aio_submit
  rw [enqueue_fresh loop c done s blks hnull hfill]
  simp only []
  rw [drain_frame]
  simp

/-- C16: a write request and a read request with buffers of the same lengths and the same
base offset, neither fragmented yet, whose last fragment ends within the range of
`off_t`; `datas` are the contents of the write buffers.  After the write fragments that
`uv__aio_submit` builds have completed in any order, each writing its whole buffer at its
`aio_offset`, the read fragments that `uv__aio_submit` builds read exactly the contents of
the write buffers, buffer by buffer, and so their concatenation. -/
theorem write_read_round_trip (ndebug : Bool) (kw kr : List submit_ret) (loop cw cr : Nat)
    (dw dr : Option Nat) (sw sr : Machine) (datas : List (List Nat))
    (hwn : (sw.reqs cw).iocbs = none) (hwt : (sw.reqs cw).fs_type = .UV_FS_WRITE)
    (hrn : (sr.reqs cr).iocbs = none) (hrt : (sr.reqs cr).fs_type = .UV_FS_READ)
    (hoff : (sr.reqs cr).off = (sw.reqs cw).off)
    (hlen : (sr.reqs cr).bufs.map uv_buf_t.len = (sw.reqs cw).bufs.map uv_buf_t.len)
    (hdata : datas.map List.length = (sw.reqs cw).bufs.map uv_buf_t.len)
    (hfit : max (sw.reqs cw).off 0 + (((sw.reqs cw).bufs.map uv_buf_t.len).sum : Nat) < 2 ^ 63) :
    ∃ wblks rblks,
      ((uv__aio_submit ndebug kw loop cw dw sw).state.reqs cw).iocbs = some wblks ∧
      ((uv__aio_submit ndebug kr loop cr dr sr).state.reqs cr).iocbs = some rblks ∧
      ∀ (order : List (iocb × List Nat)), order.Perm (wblks.zip datas) →
        ∀ (f0 : Int → Nat),
          rblks.map (fun b => pread (apply_writes f0 order) b.aio_offset b.aio_nbytes) = datas ∧
          (rblks.map (fun b => pread (apply_writes f0 order) b.aio_offset b.aio_nbytes)).flatten
            = datas.flatten := by
  have hstart : start_offset (sw.reqs cw).off = max (sw.reqs cw).off 0 := by
    unfold start_offset
    split <;> omega
  obtain ⟨wblks, hwfill, hwn', _, _, _⟩ := fill_iocbs_spec cw (sw.reqs cw).fs_type
    (sw.reqs cw).file sw.wq_aio.aio_io_watcher_fd (by rw [hwt]; decide) (sw.reqs cw).bufs
    (start_offset (sw.reqs cw).off) (by rw [hstart]; omega) (by rw [hstart]; exact hfit)
  obtain ⟨rblks, hrfill, _⟩ := fill_iocbs_fields cr (sr.reqs cr).fs_type (sr.reqs cr).file
    sr.wq_aio.aio_io_watcher_fd IOCB_CMD_PREAD (by rw [hrt]; rfl) (sr.reqs cr).bufs
    (start_offset (sr.reqs cr).off)
  have hsame := fill_iocbs_same_ranges cw cr _ _ _ _ _ _ _ _ _ wblks rblks hlen hwfill
    (by rw [hoff] at hrfill; exact hrfill)
  obtain ⟨_, hpw⟩ := fill_iocbs_ordered cw _ _ _ _ _ wblks (by rw [hstart]; omega)
    (by rw [hstart]; exact hfit) hwfill
  have hdl : datas.map List.length = wblks.map iocb.aio_nbytes := by rw [hdata, hwn']
  have hlen2 : wblks.length = datas.length := by
    have := congrArg List.length hdl
    simpa using this.symm
  have hzlen := zip_data_length wblks datas hdl
  have hfst : (wblks.zip datas).map Prod.fst = wblks :=
    List.map_fst_zip _ _ (le_of_eq hlen2)
  have hsnd : (wblks.zip datas).map Prod.snd = datas :=
    List.map_snd_zip _ _ (le_of_eq hlen2.symm)
  have hpz : (wblks.zip datas).Pairwise disjoint_frs := by
    have h1 : ((wblks.zip datas).map Prod.fst).Pairwise
        (fun b b' => b.aio_offset + (b.aio_nbytes : Int) ≤ b'.aio_offset) := by
      rw [hfst]; exact hpw
    rw [List.pairwise_map] at h1
    refine List.Pairwise.imp_of_mem ?_ h1
    intro p q hp _ h
    left
    rw [hzlen p hp]
    exact h
  refine ⟨wblks, rblks, submit_iocbs ndebug kw loop cw dw sw wblks hwn hwfill,
    submit_iocbs ndebug kr loop cr dr sr rblks hrn hrfill, ?_⟩
  intro order hperm f0
  have hpo : order.Pairwise disjoint_frs :=
    (List.Perm.pairwise_iff (fun h => disjoint_frs_symm h) hperm).mpr hpz
  have hmain : rblks.map (fun b => pread (apply_writes f0 order) b.aio_offset b.aio_nbytes)
      = datas := by
    have h1 : rblks.map (fun b => pread (apply_writes f0 order) b.aio_offset b.aio_nbytes)
        = (rblks.map (fun b => (b.aio_offset, b.aio_nbytes))).map
          (fun x => pread (apply_writes f0 order) x.1 x.2) := by
      rw [List.map_map]; rfl
    rw [h1, hsame, List.map_map]
    conv_lhs => rw [← hfst]
    conv_rhs => rw [← hsnd]
    rw [List.map_map]
    apply List.map_congr_left
    intro p hp
    simp only [Function.comp]
    rw [← hzlen p hp]
    exact writes_then_read order hpo f0 p (hperm.mem_iff.mpr hp)
  exact ⟨hmain, by rw [hmain]⟩

/-- C16, at concrete requests: two buffers of 3 and 2 bytes at offset -1; the second write
fragment completes first. -/
theorem write_read_round_trip_witness :
    ∃ wblks rblks,
      ((uv__aio_submit false [⟨2, 0⟩] 1 0 (some 9)
        (machine0 [⟨100, 3⟩, ⟨200, 2⟩] (-1))).state.reqs 0).iocbs = some wblks ∧
      ((uv__aio_submit false [⟨2, 0⟩] 1 0 (some 9)
        { machine0 [⟨300, 3⟩, ⟨400, 2⟩] (-1) with
          reqs := fun _ => fresh_req .UV_FS_READ 3 [⟨300, 3⟩, ⟨400, 2⟩] (-1) }).state.reqs
          0).iocbs = some rblks ∧
      ∀ (order : List (iocb × List Nat)),
        order.Perm (wblks.zip [[10, 11, 12], [20, 21]]) → ∀ (f0 : Int → Nat),
          rblks.map (fun b => pread (apply_writes f0 order) b.aio_offset b.aio_nbytes)
            = [[10, 11, 12], [20, 21]] := by
  obtain ⟨wblks, rblks, h1, h2, h3⟩ := write_read_round_trip false [⟨2, 0⟩] [⟨2, 0⟩] 1 0 0
    (some 9) (some 9) (machine0 [⟨100, 3⟩, ⟨200, 2⟩] (-1))
    { machine0 [⟨300, 3⟩, ⟨400, 2⟩] (-1) with
      reqs := fun _ => fresh_req .UV_FS_READ 3 [⟨300, 3⟩, ⟨400, 2⟩] (-1) }
    [[10, 11, 12], [20, 21]] rfl rfl rfl rfl rfl (by decide) (by decide) (by decide)
  exact ⟨wblks, rblks, h1, h2, fun order hp f0 => (h3 order hp f0).1⟩

/-! ## The size of the file after a write request -/

theorem pwrite_bytes_length (f : List Nat) (off : Int) (data : List Nat) :
    (pwrite_bytes f off data).length
      = if data = [] then f.length else max f.length (off.toNat + data.length) := by
  unfold pwrite_bytes
  split
  · rfl
  · simp only [List.length_append, List.length_take, List.length_replicate, List.length_drop]
    omega

theorem apply_writes_bytes_cons (f : List Nat) (fr : iocb × List Nat)
    (frs : List (iocb × List Nat)) :
    apply_writes_bytes f (fr :: frs)
      = apply_writes_bytes (pwrite_bytes f fr.1.aio_offset fr.2) frs := rfl

/-- The file does not get shorter, and it ends behind every fragment that is not empty. -/
theorem apply_writes_bytes_lower (frs : List (iocb × List Nat)) :
    ∀ f : List Nat, f.length ≤ (apply_writes_bytes f frs).length ∧
      ∀ fr ∈ frs, fr.2 ≠ [] →
        fr.1.aio_offset.toNat + fr.2.length ≤ (apply_writes_bytes f frs).length := by
  induction frs with
  | nil => intro f; exact ⟨le_refl _, fun fr h => by simp at h⟩
  | cons a frs ih =>
    intro f
    rw [apply_writes_bytes_cons]
    obtain ⟨h1, h2⟩ := ih (pwrite_bytes f a.1.aio_offset a.2)
    have hl := pwrite_bytes_length f a.1.aio_offset a.2
    refine ⟨?_, ?_⟩
    · split at hl <;> omega
    · intro fr hfr hne
      rcases List.mem_cons.mp hfr with rfl | hfr
      · rw [if_neg hne] at hl
        omega
      · exact h2 fr hfr hne

/-- The file ends at `M` at most when it did before and every fragment that is not empty
ends at `M` at most. -/
theorem apply_writes_bytes_upper (M : Nat) (frs : List (iocb × List Nat)) :
    ∀ f : List Nat, f.length ≤ M →
      (∀ fr ∈ frs, fr.2 ≠ [] → fr.1.aio_offset.toNat + fr.2.length ≤ M) →
      (apply_writes_bytes f frs).length ≤ M := by
  induction frs with
  | nil => intro f h _; exact h
  | cons a frs ih =>
    intro f hf h
    rw [apply_writes_bytes_cons]
    apply ih
    · have hl := pwrite_bytes_length f a.1.aio_offset a.2
      by_cases hne : a.2 = []
      · rw [if_pos hne] at hl; omega
      · rw [if_neg hne] at hl
        have := h a (List.mem_cons_self _ _) hne
        omega
    · intro fr hfr hne
      exact h fr (List.mem_cons_of_mem _ hfr) hne

/-- Fragments that are all empty leave the file as it is. -/
theorem apply_writes_bytes_empty (frs : List (iocb × List Nat)) :
    ∀ f : List Nat, (∀ fr ∈ frs, fr.2 = []) → apply_writes_bytes f frs = f := by
  induction frs with
  | nil => intro f _; rfl
  | cons a frs ih =>
    intro f h
    rw [apply_writes_bytes_cons]
    have ha : a.2 = [] := h a (List.mem_cons_self _ _)
    have : pwrite_bytes f a.1.aio_offset a.2 = f := by
      unfold pwrite_bytes; rw [if_pos ha]
    rw [this]
    exact ih f (fun fr hfr => h fr (List.mem_cons_of_mem _ hfr))

/-- Where the blocks of the fragmenting loop end: none behind `o + Σ len`, the last one at
`o + Σ len`, and, when some buffer is not empty, a block that is not empty ends there. -/
theorem fill_iocbs_ends (c : Nat) (ty : uv_fs_type) (file resfd : Int) :
    ∀ (bufs : List uv_buf_t) (o : Int) (blks : List iocb), 0 ≤ o →
      o + ((bufs.map uv_buf_t.len).sum : Nat) < 2 ^ 63 →
      fill_iocbs c ty file resfd bufs o = some blks →
      (∀ b ∈ blks, 0 ≤ b.aio_offset ∧
        b.aio_offset + (b.aio_nbytes : Int) ≤ o + ((bufs.map uv_buf_t.len).sum : Nat)) ∧
      (∀ b ∈ blks.getLast?,
        b.aio_offset + (b.aio_nbytes : Int) = o + ((bufs.map uv_buf_t.len).sum : Nat)) ∧
      (0 < (bufs.map uv_buf_t.len).sum → ∃ b ∈ blks, 0 < b.aio_nbytes ∧
        b.aio_offset + (b.aio_nbytes : Int) = o + ((bufs.map uv_buf_t.len).sum : Nat)) ∧
      blks.map iocb.aio_nbytes = bufs.map uv_buf_t.len := by
  intro bufs
  induction bufs with
  | nil =>
    intro o blks _ _ h
    simp only [fill_iocbs] at h
    cases h
    simp
  | cons u us ih =>
    intro o blks ho hfit h
    simp only [List.map_cons, List.sum_cons, Nat.cast_add] at hfit
    have hsum : (0 : Int) ≤ ((us.map uv_buf_t.len).sum : Nat) := Int.natCast_nonneg _
    have hb : (0 : Int) ≤ (u.len : Nat) := Int.natCast_nonneg _
    have hid : to_s64 (o + u.len) = o + u.len := to_s64_id _ (by omega) (by omega)
    simp only [fill_iocbs] at h
    cases hop : opcode_of ty with
    | none => rw [hop] at h; cases h
    | some op =>
      rw [hop] at h
      simp only [hid] at h
      cases hrest : fill_iocbs c ty file resfd us (o + u.len) with
      | none => rw [hrest] at h; cases h
      | some rest =>
        rw [hrest] at h
        simp only [Option.some.injEq] at h
        subst h
        obtain ⟨h1, h2, h3, h4⟩ := ih (o + u.len) rest (by omega) (by omega) hrest
        simp only [List.map_cons, List.sum_cons, Nat.cast_add]
        refine ⟨?_, ?_, ?_, ?_⟩
        · intro b hb'
          rcases List.mem_cons.mp hb' with rfl | hb'
          · simp only []; omega
          · have := h1 b hb'; omega
        · intro b hb'
          cases rest with
          | nil =>
            simp only [List.getLast?_singleton, Option.mem_def, Option.some.injEq] at hb'
            subst hb'
            have h0 : us = [] := by
              cases us with
              | nil => rfl
              | cons a as => simp at h4
            subst h0
            simp
          | cons r rs =>
            rw [List.getLast?_cons_cons] at hb'
            have := h2 b hb'
            omega
        · intro hpos
          by_cases hs : 0 < (us.map uv_buf_t.len).sum
          · obtain ⟨b, hb', hb1, hb2⟩ := h3 hs
            exact ⟨b, List.mem_cons_of_mem _ hb', hb1, by omega⟩
          · have hz : (us.map uv_buf_t.len).sum = 0 := by omega
            refine ⟨_, List.mem_cons_self _ _, ?_, ?_⟩
            · simp only []; omega
            · simp only [hz]; simp
        · simp [h4]

/-- C21, the claim as stated fails: a write request with one empty buffer at offset 100,
on an empty file.  `uv__aio_submit` builds one control block of 0 bytes at offset 100; a
write of no bytes leaves the file as it is, so its size stays 0, below `100 + 0`. -/
theorem empty_write_keeps_size :
    ((uv__aio_submit false [⟨1, 0⟩] 1 0 (some 9) (machine0 [⟨4096, 0⟩] 100)).state.reqs 0).iocbs
      = some [{ aio_data := 0, aio_lio_opcode := IOCB_CMD_PWRITE, aio_fildes := 3,
                aio_buf := 4096, aio_nbytes := 0, aio_offset := 100,
                aio_flags := IOCB_FLAG_RESFD, aio_resfd := 7 }] ∧
    ¬ ((100 : Int) + (([⟨4096, 0⟩] : List uv_buf_t).map uv_buf_t.len).sum
        ≤ (apply_writes_bytes []
            ([({ aio_data := 0, aio_lio_opcode := IOCB_CMD_PWRITE, aio_fildes := 3,
                 aio_buf := 4096, aio_nbytes := 0, aio_offset := 100,
                 aio_flags := IOCB_FLAG_RESFD, aio_resfd := 7 } : iocb)].zip [[]])).length) := by
  refine ⟨rfl, ?_⟩
  decide

/-- C21 (amended): a write request that is not fragmented yet, with base offset `o ≥ 0`
and buffers of lengths `len_0 .. len_{n-1}` whose last fragment ends within the range of
`off_t`; `datas` are the contents of the buffers.  The last control block that
`uv__aio_submit` builds ends exactly at `o + Σ len_i`.  After the fragments have been
written in full, in any order, to a file with bytes `f0`: when some buffer is not empty the
size of the file is the larger of its size before and `o + Σ len_i`, so it is at least
`o + Σ len_i`; when every buffer is empty the file is as before. -/
theorem file_size_after_write (ndebug : Bool) (ks : List submit_ret) (loop c : Nat)
    (done : Option Nat) (s : Machine) (datas : List (List Nat))
    (hn : (s.reqs c).iocbs = none) (ht : (s.reqs c).fs_type = .UV_FS_WRITE)
    (hoff : 0 ≤ (s.reqs c).off)
    (hdata : datas.map List.length = (s.reqs c).bufs.map uv_buf_t.len)
    (hfit : (s.reqs c).off + (((s.reqs c).bufs.map uv_buf_t.len).sum : Nat) < 2 ^ 63) :
    ∃ blks, ((uv__aio_submit ndebug ks loop c done s).state.reqs c).iocbs = some blks ∧
      (∀ b ∈ blks.getLast?, b.aio_offset + (b.aio_nbytes : Int)
        = (s.reqs c).off + (((s.reqs c).bufs.map uv_buf_t.len).sum : Nat)) ∧
      ∀ (order : List (iocb × List Nat)), order.Perm (blks.zip datas) → ∀ (f0 : List Nat),
        (0 < ((s.reqs c).bufs.map uv_buf_t.len).sum →
          ((apply_writes_bytes f0 order).length : Int)
            = max (f0.length : Int)
                ((s.reqs c).off + (((s.reqs c).bufs.map uv_buf_t.len).sum : Nat)) ∧
          (s.reqs c).off + (((s.reqs c).bufs.map uv_buf_t.len).sum : Nat)
            ≤ ((apply_writes_bytes f0 order).length : Int)) ∧
        (((s.reqs c).bufs.map uv_buf_t.len).sum = 0 → apply_writes_bytes f0 order = f0) := by
  have hstart : start_offset (s.reqs c).off = (s.reqs c).off := by
    unfold start_offset
    rw [if_neg (by omega)]
  obtain ⟨blks, hfill, _⟩ := fill_iocbs_fields c (s.reqs c).fs_type (s.reqs c).file
    s.wq_aio.aio_io_watcher_fd IOCB_CMD_PWRITE (by rw [ht]; rfl) (s.reqs c).bufs
    (start_offset (s.reqs c).off)
  obtain ⟨hends, hlast, hex, hnb⟩ := fill_iocbs_ends c _ _ _ _ _ blks
    (by rw [hstart]; exact hoff) (by rw [hstart]; exact hfit) hfill
  rw [hstart] at hends hlast hex
  have hdl : datas.map List.length = blks.map iocb.aio_nbytes := by rw [hdata, hnb]
  have hlen2 : blks.length = datas.length := by
    have := congrArg List.length hdl
    simpa using this.symm
  have hzlen := zip_data_length blks datas hdl
  have hfst : (blks.zip datas).map Prod.fst = blks := List.map_fst_zip _ _ (le_of_eq hlen2)
  refine ⟨blks, submit_iocbs ndebug ks loop c done s blks hn hfill, hlast, ?_⟩
  intro order hperm f0
  have hmem : ∀ fr ∈ order, fr.1 ∈ blks ∧ fr.2.length = fr.1.aio_nbytes := by
    intro fr hfr
    have hz := hperm.mem_iff.mp hfr
    exact ⟨(List.of_mem_zip hz).1, hzlen fr hz⟩
  constructor
  · intro hpos
    obtain ⟨b, hb, hb1, hb2⟩ := hex hpos
    obtain ⟨fr, hfr, hfr1⟩ : ∃ fr ∈ order, fr.1 = b := by
      rw [← hfst] at hb
      obtain ⟨fr, hfr, rfl⟩ := List.mem_map.mp hb
      exact ⟨fr, hperm.mem_iff.mpr hfr, rfl⟩
    obtain ⟨hlow0, hlow⟩ := apply_writes_bytes_lower order f0
    have hne : fr.2 ≠ [] := by
      intro h
      have := (hmem fr hfr).2
      rw [h, hfr1] at this
      simp at this
      omega
    have h1 := hlow fr hfr hne
    have hoffb := (hends b hb).1
    have hlenb := (hmem fr hfr).2
    rw [hfr1] at h1 hlenb
    have hup := apply_writes_bytes_upper
      (max f0.length ((s.reqs c).off + (((s.reqs c).bufs.map uv_buf_t.len).sum : Nat)).toNat)
      order f0 (le_max_left _ _) (by
        intro fr' hfr' _
        have h' := hmem fr' hfr'
        have h'' := hends fr'.1 h'.1
        rw [h'.2]
        have : fr'.1.aio_offset.toNat + fr'.1.aio_nbytes
            ≤ ((s.reqs c).off + (((s.reqs c).bufs.map uv_buf_t.len).sum : Nat)).toNat := by
          omega
        exact le_trans this (le_max_right _ _))
    constructor <;> omega
  · intro hz
    apply apply_writes_bytes_empty
    intro fr hfr
    have h' := hmem fr hfr
    have hb : fr.1.aio_nbytes ∈ blks.map iocb.aio_nbytes := List.mem_map_of_mem _ h'.1
    rw [hnb] at hb
    have hle : fr.1.aio_nbytes ≤ ((s.reqs c).bufs.map uv_buf_t.len).sum :=
      List.single_le_sum (fun _ _ => Nat.zero_le _) _ hb
    have : fr.2.length = 0 := by omega
    exact List.length_eq_zero.mp this

/-- C21 (amended), at a concrete request: buffers of 3 and 2 bytes at offset 10; the second
fragment is written first, to a file of 4 bytes; the file then has 15 bytes. -/
theorem file_size_after_write_witness :
    ∃ blks, ((uv__aio_submit false [⟨2, 0⟩] 1 0 (some 9)
        (machine0 [⟨100, 3⟩, ⟨200, 2⟩] 10)).state.reqs 0).iocbs = some blks ∧
      ∀ (order : List (iocb × List Nat)),
        order.Perm (blks.zip [[10, 11, 12], [20, 21]]) →
        ((apply_writes_bytes [1, 2, 3, 4] order).length : Int) = 15 := by
  obtain ⟨blks, h1, _, h3⟩ := file_size_after_write false [⟨2, 0⟩] 1 0 (some 9)
    (machine0 [⟨100, 3⟩, ⟨200, 2⟩] 10) [[10, 11, 12], [20, 21]] rfl rfl (by decide)
    (by decide) (by decide)
  refine ⟨blks, h1, fun order hp => ?_⟩
  have := ((h3 order hp [1, 2, 3, 4]).1 (by decide)).1
  rw [this]
  decide

/-! ## Invalid arguments at the entry point -/

/-- C22: over the entry point modelled from the spec, submitting a read or write request
with a null buffer vector or a buffer count of zero returns the invalid-argument error
`UV_EINVAL` and returns the machine as it was: no control block is allocated (the request
memory is unchanged), the pending queue is not touched, nothing is added to the trace, so
no done closure is invoked, and every later run of engine operations goes as if the call
had not been made. -/
theorem invalid_arguments_rejected (ndebug : Bool) (ks : List submit_ret) (loop c : Nat)
    (ty : uv_fs_type) (file : Int) (bufs : Option (List uv_buf_t)) (nbufs : Nat) (off : Int)
    (cb : Option Nat) (s : Machine) (h : bufs = none ∨ nbufs = 0) :
    (uv_fs_submit ndebug ks loop c ty file bufs nbufs off cb s).1 = UV_EINVAL ∧
    (uv_fs_submit ndebug ks loop c ty file bufs nbufs off cb s).2 = .returned s ∧
    (∀ x, (uv_fs_submit ndebug ks loop c ty file bufs nbufs off cb s).2.state.reqs x
        = s.reqs x) ∧
    (uv_fs_submit ndebug ks loop c ty file bufs nbufs off cb s).2.state.queue = s.queue ∧
    (uv_fs_submit ndebug ks loop c ty file bufs nbufs off cb s).2.state.trace = s.trace ∧
    (∀ ops, run ndebug ops
        (uv_fs_submit ndebug ks loop c ty file bufs nbufs off cb s).2.state
      = run ndebug ops s) := by
  have hres : uv_fs_submit ndebug ks loop c ty file bufs nbufs off cb s
      = (UV_EINVAL, .returned s) := by
    unfold uv_fs_submit
    cases bufs with
    | none => rfl
    | some l =>
      rcases h with h | h
      · cases h
      · simp only [h, if_true]
  rw [hres]
  exact ⟨rfl, rfl, fun _ => rfl, rfl, rfl, fun _ => rfl⟩

/-- C22, at concrete arguments: a write with one buffer and count 0 on an engine with a
queued request. -/
theorem invalid_arguments_rejected_witness :
    (uv_fs_submit false [⟨1, 0⟩] 1 0 .UV_FS_WRITE 3 (some [⟨4096, 13⟩]) 0 (-1) (some 9)
      (machine1 (inflight_req 2 0 0 0) [5])).1 = -22 ∧
    (uv_fs_submit false [⟨1, 0⟩] 1 0 .UV_FS_WRITE 3 (some [⟨4096, 13⟩]) 0 (-1) (some 9)
      (machine1 (inflight_req 2 0 0 0) [5])).2.state.queue = [5] :=
  ⟨(invalid_arguments_rejected false [⟨1, 0⟩] 1 0 .UV_FS_WRITE 3 (some [⟨4096, 13⟩]) 0 (-1)
      (some 9) (machine1 (inflight_req 2 0 0 0) [5]) (Or.inr rfl)).1,
   (invalid_arguments_rejected false [⟨1, 0⟩] 1 0 .UV_FS_WRITE 3 (some [⟨4096, 13⟩]) 0 (-1)
      (some 9) (machine1 (inflight_req 2 0 0 0) [5]) (Or.inr rfl)).2.2.2.1⟩

/-! ## Teardown -/

/-- C23: `uv__aio_close` is idempotent: calling it twice leaves the engine in the state in
which one call leaves it.  One call leaves the watcher registered for no event and changes
nothing else: the descriptor of the watcher, the AIO context handle (`io_destroy` is not
called), the pending queue, the loop, the callback and `aio_wfd` stay as they are. -/
theorem close_idempotent (w : uv__aio_t) :
    uv__aio_close (uv__aio_close w) = uv__aio_close w ∧
    uv__aio_close w = { w with aio_io_watcher_pevents := 0 } ∧
    (uv__aio_close w).aio_io_watcher_fd = w.aio_io_watcher_fd ∧
    (uv__aio_close w).aio_ctx = w.aio_ctx ∧
    (uv__aio_close w).iocb_pending_queue = w.iocb_pending_queue :=
  ⟨rfl, rfl, rfl, rfl, rfl⟩

/-! ## The get-events loop, round by round -/

theorem getevents_calls_append (t u : List Action) :
    getevents_calls (t ++ u) = getevents_calls t ++ getevents_calls u := by
  induction t with
  | nil => rfl
  | cons a t ih => cases a <;> simp [getevents_calls, ih]

theorem all_events_append (t u : List Action) :
    all_events (t ++ u) = all_events t ++ all_events u := by
  induction t with
  | nil => rfl
  | cons a t ih => cases a <;> simp [all_events, ih]

theorem submit_calls_append (t u : List Action) :
    submit_calls (t ++ u) = submit_calls t + submit_calls u := by
  induction t with
  | nil => simp [submit_calls]
  | cons a t ih =>
    cases a with
    | io_submit n b k => simp only [List.cons_append, submit_calls, List.append_eq, ih]; omega
    | io_getevents mn mx r => simp only [List.cons_append, submit_calls, List.append_eq, ih]
    | event e => simp only [List.cons_append, submit_calls, List.append_eq, ih]
    | done_call r f st => simp only [List.cons_append, submit_calls, List.append_eq, ih]

theorem bump_succ (d n : Nat) : bump ((d + 1) % U32) n = bump d (n + 1) := by
  unfold bump U32
  by_cases h : n = 0
  · subst h; simp
  · rw [if_neg h, if_neg (by omega)]
    omega

/-- What the `for` loop over the events `evs` does: it adds the events, and possibly
invocations of done closures, to the trace, makes no system call, leaves the queue and
every `submitted_iocbs_count` as they are and advances the `done_iocbs_count` of every
request by the number of its events. -/
theorem process_events_effect (evs : List io_event) :
    ∀ s : Machine, ∃ t, (process_events s evs).trace = s.trace ++ t ∧
      getevents_calls t = [] ∧ all_events t = evs ∧ submit_calls t = 0 ∧
      (process_events s evs).queue = s.queue ∧
      ∀ c, ((process_events s evs).reqs c).done_iocbs_count
          = bump (s.reqs c).done_iocbs_count ((evs.map io_event.data).count c) ∧
        ((process_events s evs).reqs c).submitted_iocbs_count
          = (s.reqs c).submitted_iocbs_count := by
  induction evs with
  | nil =>
    intro s
    exact ⟨[], by simp [process_events_nil], rfl, rfl, rfl, rfl, fun c => ⟨by simp [process_events_nil, bump], rfl⟩⟩
  | cons e evs ih =>
    intro s
    obtain ⟨t, ht, h1, h2, h3, h4, h5⟩ := ih (process_event s e)
    obtain ⟨l, hl, hl'⟩ := process_event_trace_cases s e
    rw [process_events_cons]
    refine ⟨.event e :: l ++ t, ?_, ?_, ?_, ?_, ?_, ?_⟩
    · rw [ht, hl]; simp
    · rcases hl' with rfl | ⟨f, rfl⟩ <;> simpa [getevents_calls] using h1
    · rcases hl' with rfl | ⟨f, rfl⟩ <;> simp [all_events, h2]
    · rcases hl' with rfl | ⟨f, rfl⟩ <;> simpa [submit_calls] using h3
    · rw [h4, process_event_queue]
    · intro c
      obtain ⟨h5a, h5b⟩ := h5 c
      rw [h5a, h5b]
      by_cases hc : c = e.data
      · subst hc
        rw [process_event_same]
        simp only [List.map_cons, List.count_cons_self, and_true]
        exact bump_succ _ _
      · rw [process_event_other _ _ _ hc]
        simp only [List.map_cons]
        rw [List.count_cons_of_ne hc]
        simp

theorem bump_bump (d n m : Nat) : bump (bump d n) m = bump d (n + m) := by
  unfold bump U32
  by_cases hn : n = 0
  · subst hn; simp
  · by_cases hm : m = 0
    · subst hm; simp
    · rw [if_neg hn, if_neg hm, if_neg (by omega)]
      omega

theorem events_rounds_cons (s : Machine) (g : getevents_ret) (gs : List getevents_ret) :
    events_rounds s (g :: gs) = events_rounds (events_round s g) gs := rfl

/-- What the rounds of the get-events loop for the answers `gs` do. -/
theorem events_rounds_effect (gs : List getevents_ret) :
    ∀ s : Machine, ∃ t, (events_rounds s gs).trace = s.trace ++ t ∧
      getevents_calls t = gs.map (fun g => (0, UV_AIO_NR_EVENTS, g.r)) ∧
      all_events t = (gs.map getevents_ret.evs).flatten ∧ submit_calls t = 0 ∧
      (events_rounds s gs).queue = s.queue ∧
      ∀ c, ((events_rounds s gs).reqs c).done_iocbs_count
          = bump (s.reqs c).done_iocbs_count
              (((gs.map getevents_ret.evs).flatten.map io_event.data).count c) ∧
        ((events_rounds s gs).reqs c).submitted_iocbs_count
          = (s.reqs c).submitted_iocbs_count := by
  induction gs with
  | nil =>
    intro s
    exact ⟨[], by simp [events_rounds], rfl, rfl, rfl, rfl, fun c => ⟨by simp [events_rounds, bump], rfl⟩⟩
  | cons g gs ih =>
    intro s
    obtain ⟨t, ht, h1, h2, h3, h4, h5⟩ := ih (events_round s g)
    obtain ⟨u, hu, u1, u2, u3, u4, u5⟩ :=
      process_events_effect g.evs (s.log (.io_getevents 0 UV_AIO_NR_EVENTS g.r))
    rw [events_rounds_cons]
    refine ⟨.io_getevents 0 UV_AIO_NR_EVENTS g.r :: u ++ t, ?_, ?_, ?_, ?_, ?_, ?_⟩
    · rw [ht]; unfold events_round; rw [hu]; simp
    · simp [getevents_calls, getevents_calls_append, u1, h1]
    · simp [all_events, all_events_append, u2, h2]
    · simp [submit_calls, submit_calls_append, u3, h3]
    · rw [h4]; unfold events_round; rw [u4]; rfl
    · intro c
      obtain ⟨h5a, h5b⟩ := h5 c
      obtain ⟨u5a, u5b⟩ := u5 c
      rw [h5a, h5b]
      unfold events_round
      rw [u5a, u5b]
      simp only [log_reqs, List.map_cons, List.flatten_cons, List.map_append, List.count_append,
        and_true]
      exact bump_bump _ _ _

/-- The get-events loop runs one round per answer up to the first answer that is not
positive, and returns after that round. -/
theorem getevents_loop_rounds (g : getevents_ret) (rest : List getevents_ret) (hg : g.r ≤ 0) :
    ∀ (pos : List getevents_ret) (s : Machine), (∀ x ∈ pos, 0 < x.r) →
      getevents_loop (pos ++ g :: rest) s = .returned (events_rounds s (pos ++ [g])) := by
  intro pos
  induction pos with
  | nil =>
    intro s _
    simp only [List.nil_append, getevents_loop, events_rounds, List.foldl_cons, List.foldl_nil,
      events_round]
    rw [if_neg (by omega)]
  | cons x pos ih =>
    intro s hpos
    have hx := hpos x (List.mem_cons_self _ _)
    simp only [List.cons_append, getevents_loop, List.append_eq]
    rw [if_pos hx, ih _ (fun y hy => hpos y (List.mem_cons_of_mem _ hy))]
    rfl

theorem evs_of_not_positive (g : getevents_ret) (hg : g.r ≤ 0) : g.evs = [] := by
  cases g with
  | events evs =>
    simp only [getevents_ret.r] at hg
    simp only [getevents_ret.evs]
    exact List.length_eq_zero.mp (by omega)
  | fail e => rfl

theorem sum_r_of_positive (pos : List getevents_ret) (hpos : ∀ x ∈ pos, 0 < x.r) :
    (pos.map getevents_ret.r).sum = (((pos.map getevents_ret.evs).flatten.length : Nat) : Int) := by
  induction pos with
  | nil => rfl
  | cons x pos ih =>
    have hx := hpos x (List.mem_cons_self _ _)
    simp only [List.map_cons, List.sum_cons, List.flatten_cons, List.length_append,
      Nat.cast_add, ih (fun y hy => hpos y (List.mem_cons_of_mem _ hy))]
    cases x with
    | events evs => rfl
    | fail e => simp [getevents_ret.r] at hx

/-! ## The completion cycle -/

/-- C24: when the get-events calls of `uv__aio_work_done` return positive values (`pos`)
and then a value that is not positive (`g`; with `pos` empty this is the first call,
returning zero or a negative value), the function is one run of
`uv__aio_drain_pending_queue`, on the state `s1` in which the get-events loop ends: all
events returned have been processed by then, and processing them has made no submit-batch
call and has left the pending queue as it was.  Hence, when the queue is not empty (a head
left by `EAGAIN`), the drain makes a submit-batch call for its head, with the next answer
`k` of the kernel. -/
theorem work_done_drains_once (ndebug : Bool) (pos : List getevents_ret) (g : getevents_ret)
    (rest : List getevents_ret) (ks : List submit_ret) (s : Machine)
    (hpos : ∀ x ∈ pos, 0 < x.r) (hg : g.r ≤ 0) :
    ∃ s1 t, getevents_loop (pos ++ g :: rest) s = .returned s1 ∧
      uv__aio_work_done ndebug (pos ++ g :: rest) ks s
        = uv__aio_drain_pending_queue ndebug ks s1 ∧
      s1.trace = s.trace ++ t ∧ all_events t = (pos.map getevents_ret.evs).flatten ∧
      submit_calls t = 0 ∧ s1.queue = s.queue ∧
      (s.queue = [] → uv__aio_work_done ndebug (pos ++ g :: rest) ks s = .returned s1) ∧
      ∀ q qs k ks', s.queue = q :: qs → ks = k :: ks' →
        s1.trace ++ [.io_submit (pending_count_of (s1.reqs q))
            (batch_ptrs q (s1.reqs q) (pending_count_of (s1.reqs q))) k]
          <+: (uv__aio_work_done ndebug (pos ++ g :: rest) ks s).state.trace := by
  have hloop := getevents_loop_rounds g rest hg pos s hpos
  obtain ⟨t, ht, _, h2, h3, h4, _⟩ := events_rounds_effect (pos ++ [g]) s
  have hwd : uv__aio_work_done ndebug (pos ++ g :: rest) ks s
      = uv__aio_drain_pending_queue ndebug ks (events_rounds s (pos ++ [g])) := by
    unfold uv__aio_work_done
    rw [hloop]
  refine ⟨events_rounds s (pos ++ [g]), t, hloop, hwd, ht, ?_, h3, h4, ?_, ?_⟩
  · rw [h2]
    simp [evs_of_not_positive g hg]
  · intro hq
    rw [hwd]
    exact drain_nil ndebug _ (by rw [h4]; exact hq) ks
  · intro q qs k ks' hq hks
    rw [hwd, hks]
    exact drain_call_logged ndebug _ q qs (by rw [h4]; exact hq) k ks'

/-- C24, at a concrete state: request 0 with 3 blocks, 1 submitted, is the head of the
queue; the first get-events call fails; the drain submits the two blocks that are left. -/
theorem work_done_drains_once_witness :
    (uv__aio_work_done false [.fail EINVAL] [⟨2, 0⟩]
        (machine1 (inflight_req 3 1 0 0) [0])).state.trace
      = [.io_getevents 0 128 (-1), .io_submit 2 [some ⟨0, 1⟩, some ⟨0, 2⟩] ⟨2, 0⟩] ∧
    ∃ s1 t, getevents_loop ([] ++ .fail EINVAL :: []) (machine1 (inflight_req 3 1 0 0) [0])
        = .returned s1 ∧
      uv__aio_work_done false ([] ++ .fail EINVAL :: []) [⟨2, 0⟩]
          (machine1 (inflight_req 3 1 0 0) [0])
        = uv__aio_drain_pending_queue false [⟨2, 0⟩] s1 ∧
      s1.trace = (machine1 (inflight_req 3 1 0 0) [0]).trace ++ t ∧ submit_calls t = 0 := by
  refine ⟨by decide, ?_⟩
  obtain ⟨s1, t, h1, h2, h3, _, h5, _⟩ := work_done_drains_once false [] (.fail EINVAL) []
    [⟨2, 0⟩] (machine1 (inflight_req 3 1 0 0) [0]) (fun x hx => by simp at hx) (by decide)
  exact ⟨s1, t, h1, h2, h3, h5⟩

/-- C25: when the get-events calls of `uv__aio_work_done` return the positive values
`r_1 .. r_k` (the answers `pos`) and then a value that is not positive (`g`), the loop
makes exactly `k + 1` calls, each with `min = 0` and `max = 128`, and processes every
returned event exactly once, in order.  The `done_iocbs_count` of each request advances, in
`unsigned int` arithmetic, by the number of returned events that carry its cookie; these
numbers add up to `r_1 + ... + r_k`.  The drain that follows changes no
`done_iocbs_count`. -/
theorem getevents_until_not_positive (ndebug : Bool) (pos : List getevents_ret)
    (g : getevents_ret) (rest : List getevents_ret) (ks : List submit_ret) (s : Machine)
    (hpos : ∀ x ∈ pos, 0 < x.r) (hg : g.r ≤ 0) :
    ∃ s1 t, getevents_loop (pos ++ g :: rest) s = .returned s1 ∧
      s1.trace = s.trace ++ t ∧
      getevents_calls t = (pos ++ [g]).map (fun x => (0, UV_AIO_NR_EVENTS, x.r)) ∧
      (getevents_calls t).length = pos.length + 1 ∧
      all_events t = (pos.map getevents_ret.evs).flatten ∧
      (∀ c, (s1.reqs c).done_iocbs_count
        = bump (s.reqs c).done_iocbs_count (((all_events t).map io_event.data).count c)) ∧
      (∀ c, (s.reqs c).done_iocbs_count + ((all_events t).map io_event.data).count c < U32 →
        (s1.reqs c).done_iocbs_count
          = (s.reqs c).done_iocbs_count + ((all_events t).map io_event.data).count c) ∧
      (∀ c, ((uv__aio_work_done ndebug (pos ++ g :: rest) ks s).state.reqs c).done_iocbs_count
        = (s1.reqs c).done_iocbs_count) ∧
      (((((all_events t).map io_event.data).dedup.map
          (fun c => ((all_events t).map io_event.data).count c)).sum : Nat) : Int)
        = (pos.map getevents_ret.r).sum := by
  have hloop := getevents_loop_rounds g rest hg pos s hpos
  obtain ⟨t, ht, h1, h2, _, _, h5⟩ := events_rounds_effect (pos ++ [g]) s
  have hall : all_events t = (pos.map getevents_ret.evs).flatten := by
    rw [h2]
    simp [evs_of_not_positive g hg]
  have hdone : ∀ c, ((events_rounds s (pos ++ [g])).reqs c).done_iocbs_count
      = bump (s.reqs c).done_iocbs_count (((all_events t).map io_event.data).count c) := by
    intro c
    rw [(h5 c).1, h2]
  refine ⟨events_rounds s (pos ++ [g]), t, hloop, ht, h1, ?_, hall, hdone, ?_, ?_, ?_⟩
  · rw [h1]; simp
  · intro c hc
    rw [hdone c]
    unfold bump
    split
    · omega
    · exact Nat.mod_eq_of_lt hc
  · intro c
    unfold uv__aio_work_done
    rw [hloop]
    simp only []
    rw [drain_frame]
  · rw [List.sum_map_count_dedup_eq_length, sum_r_of_positive pos hpos, hall, List.length_map]

/-- C25, at a concrete state: two requests with 2 blocks each, all submitted; the kernel
returns 2 events, then 1 event, then none: 3 calls, and the two counters advance by 2 and
by 1. -/
theorem getevents_until_not_positive_witness :
    ∃ s1 t, getevents_loop ([.events [⟨0, 13⟩, ⟨1, 13⟩], .events [⟨0, 13⟩]] ++ .events [] :: [])
        (machine1 (inflight_req 2 2 0 0) []) = .returned s1 ∧
      (getevents_calls t).length = 3 ∧
      all_events t = [⟨0, 13⟩, ⟨1, 13⟩, ⟨0, 13⟩] ∧
      (s1.reqs 0).done_iocbs_count = 2 ∧ (s1.reqs 1).done_iocbs_count = 1 := by
  obtain ⟨s1, t, h1, _, _, h4, h5, h6, _⟩ := getevents_until_not_positive false
    [.events [⟨0, 13⟩, ⟨1, 13⟩], .events [⟨0, 13⟩]] (.events []) [] []
    (machine1 (inflight_req 2 2 0 0) []) (by decide) (by decide)
  refine ⟨s1, t, h1, h4, h5, ?_, ?_⟩
  · rw [h6 0, h5]; decide
  · rw [h6 1, h5]; decide

/-! ## The completion reader -/

theorem aio_io_loop_cons (aio_cb : Option Nat) (k : sys_ret) (ks : List sys_ret) (reads : Nat)
    (n : Int) :
    aio_io_loop aio_cb (k :: ks) reads n =
      if k.r = 1024 then aio_io_loop aio_cb ks (reads + 1) (if k.r > 0 then n + k.r else n)
      else if k.r ≠ -1 then
        .returned ⟨reads + 1, if k.r > 0 then n + k.r else n, match aio_cb with
          | some f => [f]
          | none => []⟩
      else if k.errno = EAGAIN ∨ k.errno = EWOULDBLOCK then
        .returned ⟨reads + 1, if k.r > 0 then n + k.r else n, match aio_cb with
          | some f => [f]
          | none => []⟩
      else if k.errno = EINTR then
        aio_io_loop aio_cb ks (reads + 1) (if k.r > 0 then n + k.r else n)
      else .aborted ⟨reads + 1, if k.r > 0 then n + k.r else n, []⟩ := rfl

/-- The loop of `uv__aio_io` over reads that make it read again. -/
theorem aio_io_loop_retry (aio_cb : Option Nat) (tail : List sys_ret) :
    ∀ (pre : List sys_ret) (reads : Nat) (n : Int),
      (∀ x ∈ pre, x.r = 1024 ∨ (x.r = -1 ∧ x.errno = EINTR)) →
      ∃ n1, aio_io_loop aio_cb (pre ++ tail) reads n
        = aio_io_loop aio_cb tail (reads + pre.length) n1 := by
  intro pre
  induction pre with
  | nil => intro reads n _; exact ⟨n, rfl⟩
  | cons x pre ih =>
    intro reads n h
    have hx := h x (List.mem_cons_self _ _)
    obtain ⟨n1, hn1⟩ := ih (reads + 1) (if x.r > 0 then n + x.r else n)
      (fun y hy => h y (List.mem_cons_of_mem _ hy))
    refine ⟨n1, ?_⟩
    have hlen : reads + (x :: pre).length = reads + 1 + pre.length := by
      simp only [List.length_cons]; omega
    rw [hlen, ← hn1, List.cons_append, aio_io_loop_cons]
    rcases hx with hx | ⟨hx1, hx2⟩
    · rw [if_pos hx]
    · have h1 : ¬ x.r = 1024 := by omega
      have h2 : ¬ (x.errno = EAGAIN ∨ x.errno = EWOULDBLOCK) := by
        rw [hx2]; decide
      have h3 : ¬ x.r ≠ -1 := by omega
      rw [if_neg h1, if_neg h3, if_neg h2, if_pos hx2]

/-- C26: `uv__aio_io`, called for the watcher of the engine (or compiled with `NDEBUG`),
over the outcomes of `read`.  After reads `pre` that each fill the buffer of 1024 bytes or
fail with `EINTR` it reads again: with no further outcome the loop goes on.  At the first
read `k` that is neither, it stops reading: after a short read (any other return value than
1024 and -1, so also 0 bytes) or a failure with `EAGAIN` or `EWOULDBLOCK` it returns, having
invoked the completion callback of the engine exactly once when it is not null and not at
all when it is null; after any other failure it aborts without invoking the callback. -/
theorem aio_io_reads (ndebug own : Bool) (engine : uv__aio_t) (pre rest : List sys_ret)
    (k : sys_ret) (hown : ndebug = true ∨ own = true)
    (hpre : ∀ x ∈ pre, x.r = 1024 ∨ (x.r = -1 ∧ x.errno = EINTR)) :
    (∃ n, uv__aio_io ndebug own engine pre = .starved ⟨pre.length, n, []⟩) ∧
    ((k.r ≠ 1024 ∧ k.r ≠ -1) ∨ (k.r = -1 ∧ (k.errno = EAGAIN ∨ k.errno = EWOULDBLOCK)) →
      ∃ n, uv__aio_io ndebug own engine (pre ++ k :: rest)
        = .returned ⟨pre.length + 1, n, match engine.aio_cb with
            | some f => [f]
            | none => []⟩) ∧
    (k.r = -1 ∧ k.errno ≠ EAGAIN ∧ k.errno ≠ EWOULDBLOCK ∧ k.errno ≠ EINTR →
      ∃ n, uv__aio_io ndebug own engine (pre ++ k :: rest)
        = .aborted ⟨pre.length + 1, n, []⟩) := by
  have hif : ¬ (ndebug = false ∧ own = false) := by
    rcases hown with h | h <;> simp [h]
  refine ⟨?_, ?_, ?_⟩
  · obtain ⟨n1, h1⟩ := aio_io_loop_retry engine.aio_cb [] pre 0 0 hpre
    refine ⟨n1, ?_⟩
    unfold uv__aio_io
    rw [if_neg hif]
    rw [List.append_nil] at h1
    rw [h1, Nat.zero_add]
    rfl
  · intro hk
    obtain ⟨n1, h1⟩ := aio_io_loop_retry engine.aio_cb (k :: rest) pre 0 0 hpre
    refine ⟨if k.r > 0 then n1 + k.r else n1, ?_⟩
    unfold uv__aio_io
    rw [if_neg hif, h1, Nat.zero_add, aio_io_loop_cons]
    rcases hk with ⟨hk1, hk2⟩ | ⟨hk1, hk2⟩
    · rw [if_neg hk1, if_pos hk2]
    · have h10 : ¬ k.r = 1024 := by omega
      have h11 : ¬ k.r ≠ -1 := by omega
      rw [if_neg h10, if_neg h11, if_pos hk2]
  · intro hk
    obtain ⟨hk1, hk2, hk3, hk4⟩ := hk
    obtain ⟨n1, h1⟩ := aio_io_loop_retry engine.aio_cb (k :: rest) pre 0 0 hpre
    refine ⟨if k.r > 0 then n1 + k.r else n1, ?_⟩
    unfold uv__aio_io
    rw [if_neg hif, h1, Nat.zero_add, aio_io_loop_cons]
    have h10 : ¬ k.r = 1024 := by omega
    have h11 : ¬ k.r ≠ -1 := by omega
    have h12 : ¬ (k.errno = EAGAIN ∨ k.errno = EWOULDBLOCK) := by
      intro h; rcases h with h | h
      · exact hk2 h
      · exact hk3 h
    rw [if_neg h10, if_neg h11, if_neg h12, if_neg hk4]

/-- C26, at concrete reads: a full read, a failure with `EINTR`, then a read of 8 bytes:
three reads and one invocation of the callback. -/
theorem aio_io_reads_witness :
    uv__aio_io false true engine0 [⟨1024, 0⟩, ⟨-1, EINTR⟩, ⟨8, 0⟩, ⟨8, 0⟩]
      = .returned ⟨3, 1032, [1]⟩ ∧
    ∃ n, uv__aio_io false true engine0 ([⟨1024, 0⟩, ⟨-1, EINTR⟩] ++ ⟨8, 0⟩ :: [⟨8, 0⟩])
      = .returned ⟨3, n, [1]⟩ :=
  ⟨by decide, (aio_io_reads false true engine0 [⟨1024, 0⟩, ⟨-1, EINTR⟩] [⟨8, 0⟩] ⟨8, 0⟩
    (Or.inr rfl) (by decide)).2.1 (Or.inl (by decide))⟩

/-! ## The control blocks of a fragmented request -/

/-- C27: once the request `c` is fragmented (`iocbs` is the array `blks`, not null, and
`iocbs_count = n`), every run of engine operations (`uv__aio_submit` of any request, also
of `c` again, `uv__aio_drain_pending_queue`, `uv__aio_work_done`) leaves the array, with
every field of every control block, and `iocbs_count` as they are.  A further
`uv__aio_submit` of `c` does not reset `submitted_iocbs_count`: when it has appended the
request to the queue and is about to drain, the count is what it was. -/
theorem iocbs_stable (ndebug : Bool) (c n : Nat) (blks : List iocb) (ops : List Op)
    (s : Machine) (loop : Nat) (done : Option Nat)
    (h : (s.reqs c).iocbs = some blks) (hn : (s.reqs c).iocbs_count = n) :
    ((run ndebug ops s).state.reqs c).iocbs = some blks ∧
    ((run ndebug ops s).state.reqs c).iocbs_count = n ∧
    ∃ s1, aio_submit_enqueue loop c done s = .returned s1 ∧
      (s1.reqs c).iocbs = some blks ∧ (s1.reqs c).iocbs_count = n ∧
      (s1.reqs c).submitted_iocbs_count = (s.reqs c).submitted_iocbs_count := by
  have hstop : ∀ (s : Machine) (q : Nat) (qs : List Nat) (k : submit_ret),
      s.queue = q :: qs → k.r < 0 →
      ((s.reqs c).iocbs = some blks ∧ (s.reqs c).iocbs_count = n) →
      ((drain_stop s q k).reqs c).iocbs = some blks ∧
        ((drain_stop s q k).reqs c).iocbs_count = n := by
    intro s q qs k _ _ hs
    rw [drain_stop_reqs]; exact hs
  have hadv : ∀ (s : Machine) (q : Nat) (qs : List Nat) (k : submit_ret),
      s.queue = q :: qs → 0 ≤ k.r →
      ((s.reqs c).iocbs = some blks ∧ (s.reqs c).iocbs_count = n) →
      ((drain_advance s q k).reqs c).iocbs = some blks ∧
        ((drain_advance s q k).reqs c).iocbs_count = n := by
    intro s q qs k _ _ hs
    by_cases hx : c = q
    · subst hx; rw [drain_advance_same]; exact hs
    · rw [drain_advance_other _ _ _ _ hx]; exact hs
  have hget : ∀ (s : Machine) (r : Int),
      ((s.reqs c).iocbs = some blks ∧ (s.reqs c).iocbs_count = n) →
      (((s.log (.io_getevents 0 UV_AIO_NR_EVENTS r)).reqs c).iocbs = some blks ∧
        ((s.log (.io_getevents 0 UV_AIO_NR_EVENTS r)).reqs c).iocbs_count = n) := by
    intro s r hs; exact hs
  have hev : ∀ (s : Machine) (e : io_event),
      ((s.reqs c).iocbs = some blks ∧ (s.reqs c).iocbs_count = n) →
      (((process_event s e).reqs c).iocbs = some blks ∧
        ((process_event s e).reqs c).iocbs_count = n) := by
    intro s e hs
    by_cases hx : c = e.data
    · subst hx; rw [process_event_same]; exact hs
    · rw [process_event_other _ _ _ hx]; exact hs
  have henq : ∀ (s : Machine) (loop c' : Nat) (done : Option Nat),
      ((s.reqs c).iocbs = some blks ∧ (s.reqs c).iocbs_count = n) →
      ((aio_submit_enqueue loop c' done s).state.reqs c).iocbs = some blks ∧
        ((aio_submit_enqueue loop c' done s).state.reqs c).iocbs_count = n := by
    intro s loop c' done hs
    by_cases hx : c = c'
    · subst hx
      unfold aio_submit_enqueue
      simp only [hs.1]
      simp [Outcome.state, hs.1, hs.2]
    · rw [enqueue_other _ _ _ _ _ hx]; exact hs
  have hrun := run_induct
    (fun s => (s.reqs c).iocbs = some blks ∧ (s.reqs c).iocbs_count = n)
    ndebug (fun _ => True) (by
      intro op s _ hs
      cases op with
      | submit ks loop c' done =>
        exact submit_induct _ ndebug hstop hadv ks loop c' done s (henq s loop c' done hs)
      | drain ks => exact drain_induct _ ndebug hstop hadv ks s hs
      | work_done gs ks => exact work_done_induct _ ndebug hstop hadv hget hev gs ks s hs)
    ops s (fun _ _ => trivial) ⟨h, hn⟩
  refine ⟨hrun.1, hrun.2, ?_⟩
  unfold aio_submit_enqueue
  simp only [h]
  exact ⟨_, rfl, by simp [h], by simp [hn], by simp⟩

/-- C27, at a concrete run: request 0 is submitted with three buffers, of which the kernel
accepts two, and then submitted again; the second submission leaves the three blocks and
the count 2 of submitted blocks as they are. -/
theorem iocbs_stable_witness :
    ((run false [.submit [⟨1, 0⟩, ⟨-1, EAGAIN⟩] 1 0 (some 9)]
      (uv__aio_submit false [⟨2, 0⟩, ⟨-1, EAGAIN⟩] 1 0 (some 9)
        (machine0 [⟨100, 3⟩, ⟨200, 2⟩, ⟨300, 1⟩] 0)).state).state.reqs 0).iocbs_count = 3 ∧
    ∃ s1, aio_submit_enqueue 1 0 (some 9)
        (uv__aio_submit false [⟨2, 0⟩, ⟨-1, EAGAIN⟩] 1 0 (some 9)
          (machine0 [⟨100, 3⟩, ⟨200, 2⟩, ⟨300, 1⟩] 0)).state = .returned s1 ∧
      (s1.reqs 0).submitted_iocbs_count = 2 := by
  have h := iocbs_stable false 0 3
    [⟨0, 1, 3, 100, 3, 0, 1, 7⟩, ⟨0, 1, 3, 200, 2, 3, 1, 7⟩, ⟨0, 1, 3, 300, 1, 5, 1, 7⟩]
    [.submit [⟨1, 0⟩, ⟨-1, EAGAIN⟩] 1 0 (some 9)]
    (uv__aio_submit false [⟨2, 0⟩, ⟨-1, EAGAIN⟩] 1 0 (some 9)
      (machine0 [⟨100, 3⟩, ⟨200, 2⟩, ⟨300, 1⟩] 0)).state 1 (some 9) (by rfl) (by rfl)
  obtain ⟨_, h2, s1, h3, _, _, h6⟩ := h
  exact ⟨h2, s1, h3, by rw [h6]; rfl⟩

/-! ## The assertions of the drain -/

/-- The first iteration of the drain, by the branch that the answer takes. -/
theorem drain_cons_branch (ndebug : Bool) (s : Machine) (q : Nat) (qs : List Nat)
    (h : s.queue = q :: qs) (k : submit_ret) (ks : List submit_ret) :
    uv__aio_drain_pending_queue ndebug (k :: ks) s =
      match branch_of ndebug k with
      | .break_eagain => .returned (drain_stop s q k)
      | .assert_errno_fails => .aborted (drain_stop s q k)
      | .assert_r_fails => .aborted (drain_stop s q k)
      | .break_after_asserts => .returned (drain_stop s q k)
      | .break_error => .returned (drain_stop s q k)
      | .advance => uv__aio_drain_pending_queue ndebug ks (drain_advance s q k) := by
  have h5 : ¬ (0 : Int) = EAGAIN := by decide
  rw [drain_cons ndebug s q qs h]
  unfold branch_of
  by_cases h1 : k.r < 0
  · by_cases h2 : k.errno = EAGAIN
    · simp only [h1, h2, and_self, if_true]
    · have h3 : ¬ k.r ≥ 0 := by omega
      cases ndebug
      · by_cases h4 : k.errno = 0
        · simp [h1, h2, h4, h5]
        · simp [h1, h2, h3, h4]
      · simp [h1, h2]
  · simp only [h1, false_and, if_false]

/-- C28, the claim as stated fails: compiled with assertions, the answer -1 with `errno`
`EINVAL` takes control to `assert(r >= 0)`, which fails; the drain aborts the process. -/
theorem assert_r_is_reached :
    branch_of false ⟨-1, EINVAL⟩ = .assert_r_fails ∧
    (uv__aio_drain_pending_queue false [⟨-1, EINVAL⟩]
      (machine1 (inflight_req 2 0 0 0) [0])).isAborted = true := by
  decide

/-- C28 (amended): control reaches `assert(r >= 0)` in `uv__aio_drain_pending_queue`
exactly when the assertions are compiled in and the submit-batch call returns `r < 0` with
an `errno` that is neither `EAGAIN` nor 0 (so that `assert(errno)` before it holds).
Whenever it is reached it fails, and the drain aborts the process in the state after the
call: for no answer are both assertions evaluated and passed.  Compiled with `NDEBUG` the
assertion is no part of the program and a failed call only breaks the loop. -/
theorem assert_r_reached_iff (ndebug : Bool) (k : submit_ret) :
    (branch_of ndebug k = .assert_r_fails
      ↔ ndebug = false ∧ k.r < 0 ∧ k.errno ≠ EAGAIN ∧ k.errno ≠ 0) ∧
    branch_of ndebug k ≠ .break_after_asserts ∧
    (branch_of ndebug k = .break_error ↔ ndebug = true ∧ k.r < 0 ∧ k.errno ≠ EAGAIN) ∧
    ∀ (s : Machine) (q : Nat) (qs : List Nat) (ks : List submit_ret), s.queue = q :: qs →
      branch_of ndebug k = .assert_r_fails →
      uv__aio_drain_pending_queue ndebug (k :: ks) s = .aborted (drain_stop s q k) := by
  have h5 : ¬ (0 : Int) = EAGAIN := by decide
  refine ⟨?_, ?_, ?_, ?_⟩
  · unfold branch_of
    by_cases h1 : k.r < 0
    · have h3 : ¬ k.r ≥ 0 := by omega
      by_cases h2 : k.errno = EAGAIN
      · simp [h1, h2]
      · cases ndebug
        · by_cases h4 : k.errno = 0
          · simp [h1, h2, h4, h5]
          · simp [h1, h2, h3, h4]
        · simp [h1, h2]
    · simp [h1]
  · unfold branch_of
    by_cases h1 : k.r < 0
    · have h3 : ¬ k.r ≥ 0 := by omega
      by_cases h2 : k.errno = EAGAIN
      · simp [h1, h2]
      · cases ndebug
        · by_cases h4 : k.errno = 0
          · simp [h1, h2, h4, h5]
          · simp [h1, h2, h3, h4]
        · simp [h1, h2]
    · simp [h1]
  · unfold branch_of
    by_cases h1 : k.r < 0
    · have h3 : ¬ k.r ≥ 0 := by omega
      by_cases h2 : k.errno = EAGAIN
      · simp [h1, h2]
      · cases ndebug
        · by_cases h4 : k.errno = 0
          · simp [h1, h2, h4, h5]
          · simp [h1, h2, h3, h4]
        · simp [h1, h2]
    · simp [h1]
  · intro s q qs ks hq hb
    rw [drain_cons_branch ndebug s q qs hq, hb]

/-- C28 (amended), at a concrete answer: -1 with `errno` `EINVAL`, compiled with
assertions, for a queue with head 0. -/
theorem assert_r_reached_iff_witness :
    uv__aio_drain_pending_queue false [⟨-1, EINVAL⟩] (machine1 (inflight_req 2 0 0 0) [0])
      = .aborted (drain_stop (machine1 (inflight_req 2 0 0 0) [0]) 0 ⟨-1, EINVAL⟩) :=
  (assert_r_reached_iff false ⟨-1, EINVAL⟩).2.2.2 (machine1 (inflight_req 2 0 0 0) [0]) 0 []
    [] rfl (by decide)

/-! ## The aggregated result in closed form -/

/-- The aggregation from a negative value over results that are not negative: the value
is dropped at the first of them. -/
theorem aggregate_all_after_error (v : Int) (hv : v < 0) (post : List io_event)
    (hpost : ∀ x ∈ post, 0 ≤ x.res) :
    aggregate_all v post = if post = [] then v else (post.map io_event.res).sum := by
  cases post with
  | nil => rfl
  | cons p ps =>
    have hp := hpost p (List.mem_cons_self _ _)
    have h1 : aggregate_all v (p :: ps) = aggregate_all (aggregate v p.res) ps := rfl
    have h2 : aggregate v p.res = p.res := by
      unfold aggregate
      rw [if_neg (by omega)]
    rw [h1, h2, aggregate_all_nonneg ps p.res hp (fun x hx => hpost x (List.mem_cons_of_mem _ hx))]
    simp

/-- C29: the aggregated result of request `c` after a run of engine operations that starts
with `result = v0 ≥ 0` and an empty trace, as a function of the completion events
`e_1 .. e_m` of `c` that `uv__aio_work_done` has processed, in order.  When no `e_i` has a
negative result, it is `v0` plus the sum of all results.  Otherwise, with `e` the last
event with a negative result and `post` the events after it: it is the result of `e` when
`post` is empty, and the sum of the results of `post` when it is not. -/
theorem aggregation_closed_form (ndebug : Bool) (c : Nat) (v0 : Int) (ops : List Op)
    (s : Machine) (hv : 0 ≤ v0) (hr : (s.reqs c).result = v0) (ht : s.trace = []) :
    ((∀ x ∈ events_of c (run ndebug ops s).state.trace, 0 ≤ x.res) →
      ((run ndebug ops s).state.reqs c).result
        = v0 + ((events_of c (run ndebug ops s).state.trace).map io_event.res).sum) ∧
    ∀ (pre post : List io_event) (e : io_event),
      events_of c (run ndebug ops s).state.trace = pre ++ e :: post → e.res < 0 →
      (∀ x ∈ post, 0 ≤ x.res) →
      ((run ndebug ops s).state.reqs c).result
        = if post = [] then e.res else (post.map io_event.res).sum := by
  have hfollow := result_follows_trace ndebug c v0 ops s (by rw [ht, hr]; rfl)
  refine ⟨?_, ?_⟩
  · intro hall
    rw [hfollow]
    exact aggregate_all_nonneg _ v0 hv hall
  · intro pre post e hsplit he hpost
    rw [hfollow, hsplit]
    have h1 : aggregate_all v0 (pre ++ e :: post)
        = aggregate_all (aggregate (aggregate_all v0 pre) e.res) post := by
      rw [aggregate_all_append]; rfl
    have h2 : aggregate (aggregate_all v0 pre) e.res = e.res := by
      unfold aggregate
      rw [if_neg (by omega)]
    rw [h1, h2]
    exact aggregate_all_after_error e.res he post hpost

/-- C29, at a concrete run: a request with four blocks whose events carry the results 13,
-5, 7 and 2; the result is 9, the sum of the results after the error. -/
theorem aggregation_closed_form_witness :
    ((run false [.work_done [.events [⟨0, 13⟩, ⟨0, -5⟩, ⟨0, 7⟩, ⟨0, 2⟩], .events []] []]
        (machine1 (inflight_req 4 4 0 0) [])).state.reqs 0).result = 9 := by
  have h := (aggregation_closed_form false 0 0
    [.work_done [.events [⟨0, 13⟩, ⟨0, -5⟩, ⟨0, 7⟩, ⟨0, 2⟩], .events []] []]
    (machine1 (inflight_req 4 4 0 0) []) (le_refl 0) rfl rfl).2
    [⟨0, 13⟩] [⟨0, 7⟩, ⟨0, 2⟩] ⟨0, -5⟩ (by decide) (by decide) (by decide)
  rw [h]
  decide

/-! ## Termination of the drain -/

theorem drain_budget_cons (s : Machine) (q : Nat) (qs : List Nat) (h : s.queue = q :: qs) :
    drain_budget s = ((s.reqs q).iocbs_count - (s.reqs q).submitted_iocbs_count + 1)
      + (qs.map (fun x => (s.reqs x).iocbs_count - (s.reqs x).submitted_iocbs_count + 1)).sum := by
  unfold drain_budget
  rw [h]
  simp

/-- One iteration of the drain with an answer of a kernel that makes progress keeps the
counters of the queued requests consistent and lowers the bound. -/
theorem budget_advance (s : Machine) (q : Nat) (qs : List Nat) (k : submit_ret)
    (hq : s.queue = q :: qs) (hinv : QueuedOK s) (hk : 0 ≤ k.r)
    (hok : progress_ok (.io_submit (pending_count_of (s.reqs q))
      (batch_ptrs q (s.reqs q) (pending_count_of (s.reqs q))) k) = true) :
    QueuedOK (drain_advance s q k) ∧ drain_budget (drain_advance s q k) + 1 ≤ drain_budget s := by
  obtain ⟨hle, hU⟩ := hinv q (by rw [hq]; exact List.mem_cons_self _ _)
  have hpc := pending_count_eq (s.reqs q) hle hU
  simp only [progress_ok, decide_eq_true_eq] at hok
  rw [hpc] at hok
  have hr : (s.reqs q).submitted_iocbs_count + k.r.toNat ≤ (s.reqs q).iocbs_count ∧
      ((s.reqs q).submitted_iocbs_count + k.r.toNat < (s.reqs q).iocbs_count → 1 ≤ k.r.toNat) := by
    unfold UV_AIO_NR_EVENTS at hok
    omega
  have hmod : ((s.reqs q).submitted_iocbs_count + k.r.toNat) % U32
      = (s.reqs q).submitted_iocbs_count + k.r.toNat := Nat.mod_eq_of_lt (by omega)
  have hf : ∀ x, ((drain_advance s q k).reqs x).iocbs_count
        - ((drain_advance s q k).reqs x).submitted_iocbs_count + 1
      ≤ (s.reqs x).iocbs_count - (s.reqs x).submitted_iocbs_count + 1 := by
    intro x
    by_cases hx : x = q
    · subst hx
      rw [drain_advance_same]
      simp only [hmod]
      omega
    · rw [drain_advance_other _ _ _ _ hx]
  have hsum : (qs.map (fun x => ((drain_advance s q k).reqs x).iocbs_count
        - ((drain_advance s q k).reqs x).submitted_iocbs_count + 1)).sum
      ≤ (qs.map (fun x => (s.reqs x).iocbs_count - (s.reqs x).submitted_iocbs_count + 1)).sum :=
    List.sum_le_sum (fun x _ => hf x)
  have hqueue := drain_advance_queue s q k
  rw [hmod, hq] at hqueue
  have hinv' : ∀ x ∈ q :: qs, ((drain_advance s q k).reqs x).submitted_iocbs_count
        ≤ ((drain_advance s q k).reqs x).iocbs_count ∧
      ((drain_advance s q k).reqs x).iocbs_count < U32 := by
    intro x hx
    by_cases hxq : x = q
    · subst hxq
      rw [drain_advance_same]
      simp only [hmod]
      exact ⟨hr.1, hU⟩
    · rw [drain_advance_other _ _ _ _ hxq]
      exact hinv x (by rw [hq]; exact hx)
  rw [drain_budget_cons s q qs hq]
  by_cases hrem : (s.reqs q).submitted_iocbs_count + k.r.toNat ≥ (s.reqs q).iocbs_count
  · rw [if_pos hrem, List.erase_cons_head] at hqueue
    refine ⟨?_, ?_⟩
    · intro x hx
      rw [hqueue] at hx
      exact hinv' x (List.mem_cons_of_mem _ hx)
    · unfold drain_budget
      rw [hqueue]
      omega
  · rw [if_neg hrem] at hqueue
    refine ⟨?_, ?_⟩
    · intro x hx
      rw [hqueue] at hx
      exact hinv' x hx
    · rw [drain_budget_cons _ q qs hqueue, drain_advance_same]
      simp only [hmod]
      have := hr.2 (by omega)
      omega

theorem submit_calls_drain_stop (s : Machine) (q : Nat) (k : submit_ret) (t : List Action)
    (h : (drain_stop s q k).trace = s.trace ++ t) : submit_calls t = 1 := by
  rw [drain_stop_trace] at h
  have := List.append_cancel_left h
  rw [← this]
  rfl

/-- With answers of a kernel that makes progress, the drain makes at most `drain_budget`
submit-batch calls and needs no more answers than that. -/
theorem drain_terminates_aux (ndebug : Bool) :
    ∀ (ks : List submit_ret) (s : Machine) (t : List Action), QueuedOK s →
      (uv__aio_drain_pending_queue ndebug ks s).state.trace = s.trace ++ t →
      KernelProgress t →
      submit_calls t ≤ drain_budget s ∧
      (drain_budget s ≤ ks.length →
        (uv__aio_drain_pending_queue ndebug ks s).isStarved = false) := by
  intro ks
  induction ks with
  | nil =>
    intro s t hinv ht _
    cases hq : s.queue with
    | nil =>
      rw [drain_nil ndebug s hq] at ht ⊢
      have : t = [] := by
        have := List.append_cancel_left (ht.symm.trans (List.append_nil _).symm)
        exact this
      subst this
      exact ⟨Nat.zero_le _, fun _ => rfl⟩
    | cons q qs =>
      rw [drain_starve ndebug s q qs hq] at ht ⊢
      have : t = [] := by
        have := List.append_cancel_left (ht.symm.trans (List.append_nil _).symm)
        exact this
      subst this
      refine ⟨Nat.zero_le _, fun h => ?_⟩
      rw [drain_budget_cons s q qs hq] at h
      simp at h
  | cons k ks ih =>
    intro s t hinv ht hkp
    cases hq : s.queue with
    | nil =>
      rw [drain_nil ndebug s hq] at ht ⊢
      have : t = [] := by
        have := List.append_cancel_left (ht.symm.trans (List.append_nil _).symm)
        exact this
      subst this
      exact ⟨Nat.zero_le _, fun _ => rfl⟩
    | cons q qs =>
      have hb1 : 1 ≤ drain_budget s := by
        rw [drain_budget_cons s q qs hq]; omega
      rw [drain_cons ndebug s q qs hq] at ht ⊢
      by_cases h1 : k.r < 0
      · have hstop : submit_calls t = 1 := by
          apply submit_calls_drain_stop s q k t
          by_cases h2 : k.errno = EAGAIN
          · simpa [h1, h2, Outcome.state] using ht
          · cases ndebug <;> simpa [h1, h2, Outcome.state] using ht
        refine ⟨by omega, fun _ => ?_⟩
        by_cases h2 : k.errno = EAGAIN
        · simp [h1, h2, Outcome.isStarved]
        · cases ndebug <;> simp [h1, h2, Outcome.isStarved]
      · have h1' : 0 ≤ k.r := not_lt.mp h1
        simp only [h1, false_and, if_false] at ht ⊢
        obtain ⟨t', ht'⟩ := drain_trace_extends ndebug ks (drain_advance s q k)
        have htt : t = .io_submit (pending_count_of (s.reqs q))
            (batch_ptrs q (s.reqs q) (pending_count_of (s.reqs q))) k :: t' := by
          rw [← ht', drain_advance_trace, List.append_assoc] at ht
          exact (List.append_cancel_left ht).symm
        have hok := hkp _ (by rw [htt]; exact List.mem_cons_self _ _)
        obtain ⟨hinv', hbud⟩ := budget_advance s q qs k hq hinv h1' hok
        obtain ⟨ih1, ih2⟩ := ih (drain_advance s q k) t' hinv' ht'.symm
          (fun a ha => hkp a (by rw [htt]; exact List.mem_cons_of_mem _ ha))
        refine ⟨?_, fun hlen => ih2 ?_⟩
        · rw [htt]
          simp only [submit_calls]
          omega
        · simp only [List.length_cons] at hlen
          omega

/-- Answers 0 to a batch that is not empty change nothing but the trace, and the drain
asks for another answer however many it gets. -/
theorem drain_zero_repeats (ndebug : Bool) (q : Nat) (qs : List Nat) :
    ∀ (n : Nat) (s : Machine), s.queue = q :: qs →
      (s.reqs q).submitted_iocbs_count < (s.reqs q).iocbs_count →
      (s.reqs q).submitted_iocbs_count < U32 →
      ∃ s' t, uv__aio_drain_pending_queue ndebug (List.replicate n ⟨0, 0⟩) s = .starved s' ∧
        s'.reqs = s.reqs ∧ s'.queue = s.queue ∧ s'.trace = s.trace ++ t ∧
        submit_calls t = n := by
  intro n
  induction n with
  | zero =>
    intro s hq _ _
    exact ⟨s, [], drain_starve ndebug s q qs hq, rfl, rfl, (List.append_nil _).symm, rfl⟩
  | succ n ih =>
    intro s hq hlt hU
    have hreqs : (drain_advance s q ⟨0, 0⟩).reqs = s.reqs := by
      funext x
      by_cases hx : x = q
      · subst hx
        rw [drain_advance_same]
        simp only [Int.toNat_zero, add_zero, Nat.mod_eq_of_lt hU]
      · rw [drain_advance_other _ _ _ _ hx]
    have hqueue : (drain_advance s q ⟨0, 0⟩).queue = s.queue := by
      rw [drain_advance_queue]
      simp only [Int.toNat_zero, add_zero, Nat.mod_eq_of_lt hU]
      rw [if_neg (by omega)]
    obtain ⟨s', t, h1, h2, h3, h4, h5⟩ := ih (drain_advance s q ⟨0, 0⟩)
      (by rw [hqueue]; exact hq) (by rw [hreqs]; exact hlt) (by rw [hreqs]; exact hU)
    refine ⟨s', .io_submit (pending_count_of (s.reqs q))
        (batch_ptrs q (s.reqs q) (pending_count_of (s.reqs q))) ⟨0, 0⟩ :: t, ?_, ?_, ?_, ?_, ?_⟩
    · rw [List.replicate_succ, drain_cons ndebug s q qs hq]
      simp only [lt_self_iff_false, false_and, if_false]
      exact h1
    · rw [h2, hreqs]
    · rw [h3, hqueue]
    · rw [h4, drain_advance_trace]; simp
    · simp only [submit_calls, h5]

/-- C30: a drain from a state whose queued requests have consistent counters, in which
every submit-batch call `t` it makes is answered by a kernel that makes progress (the call
fails, or returns 0 for an empty batch, or returns `r` with `1 ≤ r ≤` batch size for a
batch that is not empty).  It makes at most `drain_budget s` calls, the number of control
blocks of the queued requests that are not submitted plus the number of queued requests,
and it terminates (returns or aborts) when the kernel has that many answers to give.  The
lower bound `r ≥ 1` is needed: when the head has a block that is not submitted, its batch
is not empty, and a kernel that answers 0 every time leaves requests and queue as they are;
after any number `n` of such answers the loop is about to make another call. -/
theorem drain_terminates (ndebug : Bool) (ks : List submit_ret) (s : Machine)
    (t : List Action) (hinv : QueuedOK s)
    (ht : (uv__aio_drain_pending_queue ndebug ks s).state.trace = s.trace ++ t)
    (hkp : KernelProgress t) :
    submit_calls t ≤ drain_budget s ∧
    (drain_budget s ≤ ks.length →
      (uv__aio_drain_pending_queue ndebug ks s).isStarved = false) ∧
    ∀ (q : Nat) (qs : List Nat) (n : Nat), s.queue = q :: qs →
      (s.reqs q).submitted_iocbs_count < (s.reqs q).iocbs_count →
      0 < pending_count_of (s.reqs q) ∧
      ∃ s' t', uv__aio_drain_pending_queue ndebug (List.replicate n ⟨0, 0⟩) s = .starved s' ∧
        s'.reqs = s.reqs ∧ s'.queue = s.queue ∧ s'.trace = s.trace ++ t' ∧
        submit_calls t' = n := by
  obtain ⟨h1, h2⟩ := drain_terminates_aux ndebug ks s t hinv ht hkp
  refine ⟨h1, h2, ?_⟩
  intro q qs n hq hlt
  obtain ⟨hle, hU⟩ := hinv q (by rw [hq]; exact List.mem_cons_self _ _)
  refine ⟨?_, drain_zero_repeats ndebug q qs n s hq hlt (by omega)⟩
  rw [pending_count_eq (s.reqs q) hle hU]
  unfold UV_AIO_NR_EVENTS
  omega

/-- C30, at a concrete state: the head is the only queued request, with 3 blocks of which 1
is submitted, so the bound is 3; the kernel accepts one block per call and the drain
returns after 2 calls. -/
theorem drain_terminates_witness :
    submit_calls [.io_submit 2 [some ⟨0, 1⟩, some ⟨0, 2⟩] ⟨1, 0⟩,
        .io_submit 1 [some ⟨0, 2⟩] ⟨1, 0⟩] ≤ drain_budget (machine1 (inflight_req 3 1 0 0) [0]) ∧
    (drain_budget (machine1 (inflight_req 3 1 0 0) [0])
        ≤ ([⟨1, 0⟩, ⟨1, 0⟩, ⟨1, 0⟩] : List submit_ret).length →
      (uv__aio_drain_pending_queue false [⟨1, 0⟩, ⟨1, 0⟩, ⟨1, 0⟩]
        (machine1 (inflight_req 3 1 0 0) [0])).isStarved = false) :=
  ⟨(drain_terminates false [⟨1, 0⟩, ⟨1, 0⟩, ⟨1, 0⟩] (machine1 (inflight_req 3 1 0 0) [0])
      [.io_submit 2 [some ⟨0, 1⟩, some ⟨0, 2⟩] ⟨1, 0⟩, .io_submit 1 [some ⟨0, 2⟩] ⟨1, 0⟩]
      (fun _ _ => ⟨by show (1 : Nat) ≤ 3; decide, by show (3 : Nat) < U32; decide⟩) (by rfl)
      (by unfold KernelProgress; decide)).1,
   (drain_terminates false [⟨1, 0⟩, ⟨1, 0⟩, ⟨1, 0⟩] (machine1 (inflight_req 3 1 0 0) [0])
      [.io_submit 2 [some ⟨0, 1⟩, some ⟨0, 2⟩] ⟨1, 0⟩, .io_submit 1 [some ⟨0, 2⟩] ⟨1, 0⟩]
      (fun _ _ => ⟨by show (1 : Nat) ≤ 3; decide, by show (3 : Nat) < U32; decide⟩) (by rfl)
      (by unfold KernelProgress; decide)).2.1⟩

/-! ## The firing condition of the done closure -/

/-- C31: processing one completion event `e` (one iteration of the `for` loop of
`uv__aio_work_done`) increments the `done_iocbs_count` of the owning request, in
`unsigned int` arithmetic, leaves its `iocbs_count` and its closure as they are, and adds
to the trace the event followed by `l`, which is either empty or one invocation of the done
closure of the owning request with status 0.  The closure `f` is invoked if and only if,
after incrementing, `done_iocbs_count ≥ iocbs_count` and the closure is `f`, not null.
Consequently an event processed when `done_iocbs_count` has already reached `iocbs_count`
(and is below `UINT_MAX`) invokes the closure again, and for a request with a null closure
nothing is invoked. -/
theorem done_fires_iff (s : Machine) (e : io_event) :
    ∃ l, (process_event s e).trace = s.trace ++ .event e :: l ∧
      ((process_event s e).reqs e.data).done_iocbs_count
        = ((s.reqs e.data).done_iocbs_count + 1) % U32 ∧
      ((process_event s e).reqs e.data).iocbs_count = (s.reqs e.data).iocbs_count ∧
      ((process_event s e).reqs e.data).work_req_done = (s.reqs e.data).work_req_done ∧
      (l = [] ∨ ∃ f, l = [.done_call e.data f 0]) ∧
      (∀ f, l = [.done_call e.data f 0] ↔
        (((process_event s e).reqs e.data).iocbs_count
            ≤ ((process_event s e).reqs e.data).done_iocbs_count ∧
          (s.reqs e.data).work_req_done = some f)) ∧
      (∀ f, (s.reqs e.data).iocbs_count ≤ (s.reqs e.data).done_iocbs_count →
        (s.reqs e.data).done_iocbs_count + 1 < U32 →
        (s.reqs e.data).work_req_done = some f → l = [.done_call e.data f 0]) ∧
      ((s.reqs e.data).work_req_done = none → l = [] ∧
        ∀ c, done_calls c (process_event s e).trace = done_calls c s.trace) := by
  refine ⟨_, process_event_trace s e, ?_, ?_, ?_, ?_, ?_, ?_, ?_⟩
  · rw [process_event_same]
  · rw [process_event_same]
  · rw [process_event_same]
  · split
    · exact Or.inl rfl
    · split
      · exact Or.inr ⟨_, rfl⟩
      · exact Or.inl rfl
  · intro f
    rw [process_event_same]
    simp only []
    by_cases hlt : ((s.reqs e.data).done_iocbs_count + 1) % U32 < (s.reqs e.data).iocbs_count
    · rw [if_pos hlt]
      constructor
      · intro h; cases h
      · intro h; omega
    · rw [if_neg hlt]
      cases hd : (s.reqs e.data).work_req_done with
      | none =>
        simp only []
        constructor
        · intro h; cases h
        · intro h; cases h.2
      | some g =>
        simp only [List.cons.injEq, Action.done_call.injEq, true_and, and_true,
          Option.some.injEq]
        constructor
        · intro h; exact ⟨by omega, h⟩
        · intro h; exact h.2
  · intro f hreached hno hd
    have hmod : ((s.reqs e.data).done_iocbs_count + 1) % U32
        = (s.reqs e.data).done_iocbs_count + 1 := Nat.mod_eq_of_lt hno
    rw [hmod, if_neg (by omega), hd]
  · intro hd
    rw [hd]
    have hl : (if ((s.reqs e.data).done_iocbs_count + 1) % U32 < (s.reqs e.data).iocbs_count
        then ([] : List Action) else []) = [] := by
      split <;> rfl
    simp only [hl, true_and]
    intro c
    rw [process_event_trace, hd]
    simp only [hl]
    rw [done_calls_append]
    simp [done_calls]

/-- C31, at a concrete state: a request with 2 blocks whose `done_iocbs_count` is already
2, with closure 9; a third event invokes the closure again. -/
theorem done_fires_iff_witness :
    (process_event (machine1 (inflight_req 2 2 2 26) []) ⟨0, 13⟩).trace
      = [.event ⟨0, 13⟩, .done_call 0 9 0] := by
  obtain ⟨l, h1, _, _, _, _, _, h7, _⟩ :=
    done_fires_iff (machine1 (inflight_req 2 2 2 26) []) ⟨0, 13⟩
  rw [h1, h7 9 (by decide) (by decide) rfl]
  rfl

/-! ## What each side of the engine leaves alone -/

/-- The drain adds only submit-batch calls to the trace. -/
theorem drain_trace_submits (ndebug : Bool) (ks : List submit_ret) (s : Machine) :
    ∃ t, (uv__aio_drain_pending_queue ndebug ks s).state.trace = s.trace ++ t ∧
      ∀ a ∈ t, is_io_submit a = true := by
  refine drain_induct (fun s' => ∃ t, s'.trace = s.trace ++ t ∧ ∀ a ∈ t, is_io_submit a = true)
    ndebug ?_ ?_ ks s ⟨[], (List.append_nil _).symm, fun a ha => by simp at ha⟩
  · intro s' q qs k _ _ hs
    obtain ⟨t, ht, hall⟩ := hs
    refine ⟨t ++ [.io_submit (pending_count_of (s'.reqs q))
      (batch_ptrs q (s'.reqs q) (pending_count_of (s'.reqs q))) k], ?_, ?_⟩
    · rw [drain_stop_trace, ht, List.append_assoc]
    · intro a ha
      rcases List.mem_append.mp ha with ha | ha
      · exact hall a ha
      · rw [List.mem_singleton.mp ha]; rfl
  · intro s' q qs k _ _ hs
    obtain ⟨t, ht, hall⟩ := hs
    refine ⟨t ++ [.io_submit (pending_count_of (s'.reqs q))
      (batch_ptrs q (s'.reqs q) (pending_count_of (s'.reqs q))) k], ?_, ?_⟩
    · rw [drain_advance_trace, ht, List.append_assoc]
    · intro a ha
      rcases List.mem_append.mp ha with ha | ha
      · exact hall a ha
      · rw [List.mem_singleton.mp ha]; rfl

/-- Submit-batch calls are no invocations of a done closure. -/
theorem done_calls_submits (c : Nat) (t : List Action) (h : ∀ a ∈ t, is_io_submit a = true) :
    done_calls c t = 0 := by
  induction t with
  | nil => rfl
  | cons a t ih =>
    have ha := h a (List.mem_cons_self _ _)
    cases a with
    | io_submit n b k =>
      simp only [done_calls]
      exact ih (fun x hx => h x (List.mem_cons_of_mem _ hx))
    | io_getevents mn mx r => cases ha
    | event e => cases ha
    | done_call r f st => cases ha

/-- The get-events loop changes no `submitted_iocbs_count` and not the queue. -/
theorem getevents_frame (gs : List getevents_ret) (s : Machine) :
    (∀ x, ((getevents_loop gs s).state.reqs x).submitted_iocbs_count
      = (s.reqs x).submitted_iocbs_count) ∧
    (getevents_loop gs s).state.queue = s.queue := by
  refine getevents_induct (fun s' => (∀ x, (s'.reqs x).submitted_iocbs_count
      = (s.reqs x).submitted_iocbs_count) ∧ s'.queue = s.queue) ?_ ?_ gs s
    ⟨fun _ => rfl, rfl⟩
  · intro s' r hs
    exact hs
  · intro s' e hs
    refine ⟨fun x => ?_, ?_⟩
    · rw [← hs.1 x]
      by_cases hx : x = e.data
      · subst hx; rw [process_event_same]
      · rw [process_event_other _ _ _ hx]
    · rw [process_event_queue]; exact hs.2

/-- C32: `uv__aio_drain_pending_queue` and `uv__aio_submit` change no request's
`done_iocbs_count` or aggregated result (so `uv__aio_submit` resets neither), and what
they add to the trace are submit-batch calls only, so they invoke no done closure.  The
event-processing loop of `uv__aio_work_done` changes no request's `submitted_iocbs_count`
and leaves the pending queue, and so the queue membership of every request, as it is. -/
theorem completion_state_frame (ndebug : Bool) (ks : List submit_ret)
    (gs : List getevents_ret) (loop c : Nat) (done : Option Nat) (s : Machine) :
    ((∀ x, ((uv__aio_drain_pending_queue ndebug ks s).state.reqs x).done_iocbs_count
          = (s.reqs x).done_iocbs_count ∧
        ((uv__aio_drain_pending_queue ndebug ks s).state.reqs x).result = (s.reqs x).result) ∧
      (∃ t, (uv__aio_drain_pending_queue ndebug ks s).state.trace = s.trace ++ t ∧
        ∀ a ∈ t, is_io_submit a = true) ∧
      ∀ x, done_calls x (uv__aio_drain_pending_queue ndebug ks s).state.trace
        = done_calls x s.trace) ∧
    ((∀ x, ((uv__aio_submit ndebug ks loop c done s).state.reqs x).done_iocbs_count
          = (s.reqs x).done_iocbs_count ∧
        ((uv__aio_submit ndebug ks loop c done s).state.reqs x).result = (s.reqs x).result) ∧
      (∃ t, (uv__aio_submit ndebug ks loop c done s).state.trace = s.trace ++ t ∧
        ∀ a ∈ t, is_io_submit a = true) ∧
      ∀ x, done_calls x (uv__aio_submit ndebug ks loop c done s).state.trace
        = done_calls x s.trace) ∧
    ((∀ x, ((getevents_loop gs s).state.reqs x).submitted_iocbs_count
        = (s.reqs x).submitted_iocbs_count) ∧
      (getevents_loop gs s).state.queue = s.queue ∧
      ∀ x, x ∈ (getevents_loop gs s).state.queue ↔ x ∈ s.queue) := by
  have hdrain : ∀ s : Machine,
      (∀ x, ((uv__aio_drain_pending_queue ndebug ks s).state.reqs x).done_iocbs_count
          = (s.reqs x).done_iocbs_count ∧
        ((uv__aio_drain_pending_queue ndebug ks s).state.reqs x).result = (s.reqs x).result) ∧
      (∃ t, (uv__aio_drain_pending_queue ndebug ks s).state.trace = s.trace ++ t ∧
        ∀ a ∈ t, is_io_submit a = true) ∧
      ∀ x, done_calls x (uv__aio_drain_pending_queue ndebug ks s).state.trace
        = done_calls x s.trace := by
    intro s
    obtain ⟨t, ht, hall⟩ := drain_trace_submits ndebug ks s
    refine ⟨fun x => ?_, ⟨t, ht, hall⟩, fun x => ?_⟩
    · rw [drain_frame]; exact ⟨rfl, rfl⟩
    · rw [ht, done_calls_append, done_calls_submits x t hall, Nat.add_zero]
  refine ⟨hdrain s, ?_, ?_⟩
  · have henq := enqueue_result loop c done s
    have htr := enqueue_trace loop c done s
    unfold uv__aio_submit
    cases hg : aio_submit_enqueue loop c done s with
    | returned s1 =>
      rw [hg] at henq htr
      simp only [Outcome.state] at henq htr
      obtain ⟨h1, ⟨t, ht, hall⟩, h3⟩ := hdrain s1
      refine ⟨fun x => ?_, ⟨t, ?_, hall⟩, fun x => ?_⟩
      · rw [(h1 x).1, (h1 x).2, (henq x).1, (henq x).2]; exact ⟨rfl, rfl⟩
      · rw [← htr]; exact ht
      · rw [← htr]; exact h3 x
    | aborted s1 =>
      rw [hg] at henq htr
      simp only [Outcome.state] at henq htr ⊢
      exact ⟨fun x => ⟨(henq x).2, (henq x).1⟩, ⟨[], by rw [htr, List.append_nil],
        fun a ha => by simp at ha⟩, fun x => by rw [htr]⟩
    | starved s1 =>
      rw [hg] at henq htr
      simp only [Outcome.state] at henq htr ⊢
      exact ⟨fun x => ⟨(henq x).2, (henq x).1⟩, ⟨[], by rw [htr, List.append_nil],
        fun a ha => by simp at ha⟩, fun x => by rw [htr]⟩
  · obtain ⟨h1, h2⟩ := getevents_frame gs s
    exact ⟨h1, h2, fun x => by rw [h2]⟩

/-- C32, at a concrete state: a request with 3 blocks, 1 submitted and 1 done, result 13,
at the head of the queue.  Submitting it again leaves `done_iocbs_count` 1 and `result`
13; processing an event for it leaves `submitted_iocbs_count` 1 and the queue. -/
theorem completion_state_frame_witness :
    ((uv__aio_submit false [⟨2, 0⟩, ⟨-1, EAGAIN⟩] 1 0 (some 9)
        (machine1 (inflight_req 3 1 1 13) [0])).state.reqs 0).done_iocbs_count = 1 ∧
    ((uv__aio_submit false [⟨2, 0⟩, ⟨-1, EAGAIN⟩] 1 0 (some 9)
        (machine1 (inflight_req 3 1 1 13) [0])).state.reqs 0).result = 13 ∧
    ((getevents_loop [.events [⟨0, 13⟩], .events []]
        (machine1 (inflight_req 3 1 1 13) [0])).state.reqs 0).submitted_iocbs_count = 1 ∧
    (getevents_loop [.events [⟨0, 13⟩], .events []]
        (machine1 (inflight_req 3 1 1 13) [0])).state.queue = [0] := by
  have h := completion_state_frame false [⟨2, 0⟩, ⟨-1, EAGAIN⟩]
    [.events [⟨0, 13⟩], .events []] 1 0 (some 9) (machine1 (inflight_req 3 1 1 13) [0])
  exact ⟨(h.2.1.1 0).1, (h.2.1.1 0).2, h.2.2.1 0, h.2.2.2.1⟩

end Aio
